import Mathlib

/-!
Verification of the APPLES plugin loader (`src/__init__.py`, version 0.2.0).

The development shallowly embeds the directive-based load-order resolution
engine: the manifest normalizer (`_parse_apm_json_0_1_0`), the service
resolver (`_resolve_plugin_name`), the four directive evaluators
(`_directive_load_before`, `_directive_load_after`, `_directive_load_deny`,
`_directive_run_after_load`), the per-plugin loading step (`_load_plugin`)
and the fixed-point scheduler (`_load_plugins`).

Modelling conventions:
* Python dicts keyed by plugin name become association lists (`List`) in
  insertion order; plugin names are unique (dict keys), which appears as
  `Nodup` hypotheses where the proofs need it.
* The opaque module handle produced by `importlib.import_module` is
  modelled by the plugin name itself (import is deterministic per name).
* Python generators (`_resolve_plugin_name`) are modelled by the list of
  yielded values together with an optional error that the generator raises
  after the last yield (`KeyError` on a manifest without a `"service"`
  key); consumers that stop early never see the trailing error.
* Exceptions become an `Except` value whose error component also carries
  the state at raise time, so that partially-performed work is observable.
* The `while True` loop of `_load_plugins` is embedded with explicit fuel;
  `ApplesError.outOfFuel` marks fuel exhaustion, and the development
  proves that the fuel chosen by `load_plugins` is always sufficient
  (each continued cycle loads at least one plugin).
-/

namespace Apples

/-- The four directive kinds of the `_load_directives` dispatch table. -/
inductive DirKind where
  | loadAfter
  | loadBefore
  | loadDeny
  | runAfterLoad
deriving DecidableEq, Repr

/-- A load directive record: `{"directive": ..., "module": ..., "method": ...,
"executed": ...}`.  `method` is only meaningful for `runAfterLoad`;
`executed` is the mutable one-shot flag that `_directive_run_after_load`
installs via `setdefault` (initially `false`). -/
structure Directive where
  directive : DirKind
  module : String
  method : String := ""
  executed : Bool := false
deriving DecidableEq, Repr

/-- One entry of the registry `plugin_data`: the normalized manifest fields
used by the engine plus the two runtime flags.  (`requirements` and `files`
are opaque to the loading algorithm and omitted.) -/
structure PluginEntry where
  name : String
  humanName : String
  service : Option String
  loadDirectives : List Directive
  loaded : Bool
  canLoad : Bool
deriving DecidableEq, Repr

/-- The registry `plugin_data`: a name-keyed dict in insertion order. -/
abbrev Registry := List PluginEntry

/-- The failure conditions of a run.  `keyError k` is a Python `KeyError`
on key `k`; `deniedPlugin` is `ApplesDirectiveException("Denied plugin")`;
`directiveDeadlock` is `ApplesDirectiveException("Plugins are being blocked
from loading ...")`.  `outOfFuel` is the modelling artifact for exhausted
fuel, proved unreachable for the fuel used by `load_plugins`. -/
inductive ApplesError where
  | keyError (key : String)
  | deniedPlugin
  | directiveDeadlock
  | outOfFuel
deriving DecidableEq, Repr

/-- A raw `.apm` manifest record as far as format 0.1.0 reads it: `name` is
required, the other keys may be absent. -/
structure RawManifest where
  name : String
  humanName : Option String := none
  service : Option String := none
  requirements : Option (List String) := none
  loadDirectives : Option (List Directive) := none
deriving DecidableEq, Repr

/-- `_parse_apm_json_0_1_0` (src/__init__.py:93-106): build the default
record, then overlay every key present in the raw manifest.  The defaults
supply `human-name`, `requirements`, `load-directives` and `files` — note
that no default is supplied for `service`.  The `loaded`/`can-load` flags
are the ones `_load_plugin_manifests` sets at registration (both `False`). -/
def parse_apm_json_0_1_0 (m : RawManifest) : PluginEntry :=
  { name := m.name
    humanName := m.humanName.getD m.name
    service := m.service
    loadDirectives := m.loadDirectives.getD []
    loaded := false
    canLoad := false }

/-- Dict lookup `plugin_data[n]` (first entry with that name; names are
unique dict keys). -/
def findEntry : Registry → String → Option PluginEntry
  | [], _ => none
  | e :: rest, n => if e.name = n then some e else findEntry rest n

/-- The wildcard branch of `_resolve_plugin_name`: scan the registry in
order, yield the name of every entry whose `"service"` equals `svc`.  An
entry without a `"service"` key makes the generator raise
`KeyError("service")` at that point, after the earlier yields. -/
def resolveScan (svc : String) : Registry → List String × Option ApplesError
  | [] => ([], none)
  | e :: rest =>
    match e.service with
    | none => ([], some (ApplesError.keyError "service"))
    | some s =>
      let r := resolveScan svc rest
      if s = svc then (e.name :: r.1, r.2) else r

/-- `plugin_name.startswith("$")`: does the reference carry the service
wildcard marker?  (Implemented as a first-character test, which is what a
one-character `startswith` means; `String.startsWith` itself does not
reduce inside the kernel.) -/
def isWildcardRef (ref : String) : Bool :=
  match ref.data with
  | [] => false
  | c :: _ => c = '$'

/-- `_resolve_plugin_name` (src/__init__.py:134-140): a `$`-prefixed
reference resolves by service class; anything else yields itself once. -/
def resolve_plugin_name (ref : String) (pd : Registry) : List String × Option ApplesError :=
  if isWildcardRef ref then resolveScan (ref.drop 1) pd else ([ref], none)

/-- The loaded-plugin collection owned by the `plugins` package module:
`plugins.plugins` (name → module handle), `plugins.services`
(key → handles, built with `setdefault(key, []).append(handle)`), and
`plugins.plugin_data` (name → deep-copied entry snapshot). -/
structure LoadedPluginSet where
  plugins : List (String × String)
  services : List (String × List String)
  plugin_data : List (String × PluginEntry)
deriving DecidableEq, Repr

/-- Dict assignment `d[k] = v` on an association list. -/
def assocSet {α : Type} (l : List (String × α)) (k : String) (v : α) :
    List (String × α) :=
  if l.any (fun p => p.1 = k) then
    l.map (fun p => if p.1 = k then (k, v) else p)
  else l ++ [(k, v)]

/-- `d.setdefault(k, []).append(v)` on an association list of lists. -/
def servicesAppend (l : List (String × List String)) (k : String) (v : String) :
    List (String × List String) :=
  if l.any (fun p => p.1 = k) then
    l.map (fun p => if p.1 = k then (p.1, p.2 ++ [v]) else p)
  else l ++ [(k, [v])]

/-- The full mutable state of one `_load_plugins` run: the registry, the
loaded-plugin collection, plus observation streams — the order in which
plugins were instantiated, the `run-after-load` hook invocations
`(subject, method)` in order, and the number of scheduler cycles begun. -/
structure SchedState where
  registry : Registry
  lps : LoadedPluginSet
  loadOrder : List String
  hookCalls : List (String × String)
  cycles : Nat
deriving DecidableEq, Repr

/-- `plugin_data[n]["can-load"] = False`. -/
def clearCanLoad (pd : Registry) (n : String) : Registry :=
  pd.map fun e => if e.name = n then { e with canLoad := false } else e

/-- `plugin_data[n]["loaded"] = True`. -/
def setLoaded (pd : Registry) (n : String) : Registry :=
  pd.map fun e => if e.name = n then { e with loaded := true } else e

/-- The per-cycle reset: `plugin_entry["can-load"] = True` for every entry. -/
def setCanLoadAll (pd : Registry) : Registry :=
  pd.map fun e => { e with canLoad := true }

/-- Write back an entry's directive list (the in-place `executed` updates). -/
def setDirs (pd : Registry) (n : String) (ds : List Directive) : Registry :=
  pd.map fun e => if e.name = n then { e with loadDirectives := ds } else e

/-- The loop body of `_directive_load_before` (src/__init__.py:143-153):
for each resolved name, look the entry up (`KeyError` if absent) and, if the
subject is not loaded, clear the object's `can-load`; after the last yield
the generator's trailing error, if any, is raised. -/
def loadBeforeScan (subjLoaded : Bool) (tailErr : Option ApplesError) :
    List String → SchedState → Except (ApplesError × SchedState) SchedState
  | [], s =>
    match tailErr with
    | some e => .error (e, s)
    | none => .ok s
  | n :: rest, s =>
    match findEntry s.registry n with
    | none => .error (ApplesError.keyError n, s)
    | some _ =>
      let s' := if !subjLoaded then { s with registry := clearCanLoad s.registry n } else s
      loadBeforeScan subjLoaded tailErr rest s'

/-- The loop body of `_directive_load_after` (src/__init__.py:156-165):
for each resolved name, if that entry is not loaded (`KeyError` if absent),
clear the subject's `can-load`. -/
def loadAfterScan (subjName : String) (tailErr : Option ApplesError) :
    List String → SchedState → Except (ApplesError × SchedState) SchedState
  | [], s =>
    match tailErr with
    | some e => .error (e, s)
    | none => .ok s
  | n :: rest, s =>
    match findEntry s.registry n with
    | none => .error (ApplesError.keyError n, s)
    | some me =>
      let s' := if !me.loaded then { s with registry := clearCanLoad s.registry subjName } else s
      loadAfterScan subjName tailErr rest s'

/-- The loop body of `_directive_load_deny` (src/__init__.py:168-180):
look each resolved name up (`KeyError` if absent), skip the subject itself,
and raise `Denied plugin` for any other name present in the registry (the
membership re-check mirrors the source's `plugin_data.get(...) is not None`,
which always holds once the lookup succeeded). -/
def loadDenyScan (subjName : String) (tailErr : Option ApplesError) :
    List String → SchedState → Except (ApplesError × SchedState) SchedState
  | [], s =>
    match tailErr with
    | some e => .error (e, s)
    | none => .ok s
  | n :: rest, s =>
    match findEntry s.registry n with
    | none => .error (ApplesError.keyError n, s)
    | some _ =>
      if n = subjName then loadDenyScan subjName tailErr rest s
      else if (findEntry s.registry n).isSome then .error (ApplesError.deniedPlugin, s)
      else loadDenyScan subjName tailErr rest s

/-- The object-scan of `_directive_run_after_load` (src/__init__.py:191-197):
look each resolved name up (`KeyError` if absent); if it is not loaded the
directive returns without effect (`.ok false` — the generator is abandoned
before any trailing error); if the scan exhausts the generator, its trailing
error, if any, is raised, else the directive proceeds (`.ok true`). -/
def runAfterLoadScan (tailErr : Option ApplesError) :
    List String → SchedState → Except (ApplesError × SchedState) Bool
  | [], s =>
    match tailErr with
    | some e => .error (e, s)
    | none => .ok true
  | n :: rest, s =>
    match findEntry s.registry n with
    | none => .error (ApplesError.keyError n, s)
    | some me =>
      if !me.loaded then .ok false
      else runAfterLoadScan tailErr rest s

/-- Evaluate one directive for the subject entry named `subjName` whose
`loaded` flag is `subjLoaded` (the evaluators read nothing else from the
subject).  Returns the possibly-updated directive (its `executed` flag) and
the updated state.  Dispatch mirrors the `_load_directives` table;
`_directive_run_after_load` (src/__init__.py:183-205) checks `executed`
first, scans the objects, and — if the subject is loaded — sets `executed`
and invokes the method on the subject's module handle (recorded as a hook
call event). -/
def evalOneDirective (d : Directive) (subjName : String) (subjLoaded : Bool)
    (s : SchedState) : Except (ApplesError × SchedState) (Directive × SchedState) :=
  match d.directive with
  | DirKind.loadBefore =>
    let r := resolve_plugin_name d.module s.registry
    match loadBeforeScan subjLoaded r.2 r.1 s with
    | .error es => .error es
    | .ok s' => .ok (d, s')
  | DirKind.loadAfter =>
    let r := resolve_plugin_name d.module s.registry
    match loadAfterScan subjName r.2 r.1 s with
    | .error es => .error es
    | .ok s' => .ok (d, s')
  | DirKind.loadDeny =>
    let r := resolve_plugin_name d.module s.registry
    match loadDenyScan subjName r.2 r.1 s with
    | .error es => .error es
    | .ok s' => .ok (d, s')
  | DirKind.runAfterLoad =>
    if d.executed then .ok (d, s)
    else
      let r := resolve_plugin_name d.module s.registry
      match runAfterLoadScan r.2 r.1 s with
      | .error es => .error es
      | .ok false => .ok (d, s)
      | .ok true =>
        if subjLoaded then
          .ok ({ d with executed := true },
               { s with hookCalls := s.hookCalls ++ [(subjName, d.method)] })
        else .ok (d, s)

/-- Evaluate one entry's directive list in declaration order, threading the
state and collecting the updated directives. -/
def evalDirsFold (subjName : String) (subjLoaded : Bool) :
    List Directive → SchedState →
    Except (ApplesError × SchedState) (List Directive × SchedState)
  | [], s => .ok ([], s)
  | d :: ds, s =>
    match evalOneDirective d subjName subjLoaded s with
    | .error es => .error es
    | .ok (d', s') =>
      match evalDirsFold subjName subjLoaded ds s' with
      | .error es => .error es
      | .ok (ds', s'') => .ok (d' :: ds', s'')

/-- The "Apply load directives" pass (src/__init__.py:242-245): iterate the
registry's entries in order; for each, evaluate its directives and write the
updated directive list back into its entry. -/
def evalAllDirectives : List String → SchedState →
    Except (ApplesError × SchedState) SchedState
  | [], s => .ok s
  | n :: rest, s =>
    match findEntry s.registry n with
    | none => evalAllDirectives rest s
    | some subj =>
      match evalDirsFold subj.name subj.loaded subj.loadDirectives s with
      | .error es => .error es
      | .ok (ds', s') =>
        evalAllDirectives rest { s' with registry := setDirs s'.registry n ds' }

/-- `_load_plugin` (src/__init__.py:216-226): import the module, register
the handle under the plugin's name, append it to the services list — note
the source sets `plugin_service = plugin_entry["name"]` (line 219), so the
services dict is keyed by the plugin's *name* — snapshot the entry (deep
copy, taken before the flag update), then mark the entry loaded. -/
def load_plugin (e : PluginEntry) (s : SchedState) : SchedState :=
  let plugin_service := e.name
  { s with
    lps :=
      { plugins := assocSet s.lps.plugins e.name e.name
        services := servicesAppend s.lps.services plugin_service e.name
        plugin_data := assocSet s.lps.plugin_data e.name e }
    registry := setLoaded s.registry e.name
    loadOrder := s.loadOrder ++ [e.name] }

/-- The "Load any plugins it can" loop (src/__init__.py:247-255): walk the
entries in order with the `loaded_any`/`loaded_all` flags; every entry that
is not loaded clears `loaded_all`, and is instantiated when its `can-load`
flag survived the directive pass. -/
def loadPhase : List String → SchedState → Bool → Bool → SchedState × Bool × Bool
  | [], s, anyL, allL => (s, anyL, allL)
  | n :: rest, s, anyL, allL =>
    match findEntry s.registry n with
    | none => loadPhase rest s anyL allL
    | some e =>
      if !e.loaded then
        if e.canLoad then loadPhase rest (load_plugin e s) true false
        else loadPhase rest s anyL false
      else loadPhase rest s anyL allL

/-- The outcome of one scheduler cycle. -/
inductive CycleOutcome where
  | finished (s : SchedState)
  | failed (e : ApplesError) (s : SchedState)
  | next (s : SchedState)
deriving DecidableEq, Repr

/-- One iteration of the `while True` loop of `_load_plugins`
(src/__init__.py:237-263): reset every `can-load` flag, apply all load
directives, load every eligible unloaded plugin, then break on `loaded_all`,
raise the deadlock condition when nothing was loadable, or continue. -/
def runCycle (s : SchedState) : CycleOutcome :=
  let s1 : SchedState :=
    { s with registry := setCanLoadAll s.registry, cycles := s.cycles + 1 }
  match evalAllDirectives (s1.registry.map (fun e => e.name)) s1 with
  | .error (e, s2) => CycleOutcome.failed e s2
  | .ok s2 =>
    match loadPhase (s2.registry.map (fun e => e.name)) s2 false true with
    | (s3, anyL, allL) =>
      if allL then CycleOutcome.finished s3
      else if !anyL then CycleOutcome.failed ApplesError.directiveDeadlock s3
      else CycleOutcome.next s3

/-- The `while True` loop with explicit fuel (one unit per cycle). -/
def load_plugins_loop : Nat → SchedState → Except (ApplesError × SchedState) SchedState
  | 0, s => .error (ApplesError.outOfFuel, s)
  | fuel + 1, s =>
    match runCycle s with
    | CycleOutcome.finished s' => .ok s'
    | CycleOutcome.failed e s' => .error (e, s')
    | CycleOutcome.next s' => load_plugins_loop fuel s'

/-- Number of entries whose `loaded` flag is still `false`. -/
def unloadedCount (pd : Registry) : Nat :=
  (pd.filter (fun e => !e.loaded)).length

/-- The state at the start of a `_load_plugins` run over registry `pd`. -/
def initSchedState (pd : Registry) : SchedState :=
  { registry := pd
    lps := { plugins := [], services := [], plugin_data := [] }
    loadOrder := []
    hookCalls := []
    cycles := 0 }

/-- `_load_plugins` (src/__init__.py:229-265): run the cycle loop to
completion.  The fuel `unloadedCount pd + 1` is sufficient because every
continued cycle loads at least one plugin (proved below). -/
def load_plugins (pd : Registry) : Except (ApplesError × SchedState) SchedState :=
  load_plugins_loop (unloadedCount pd + 1) (initSchedState pd)

/-- The observable outcome of a run: the error (if any) and the order in
which plugins were instantiated. -/
def runObs : Except (ApplesError × SchedState) SchedState →
    Option ApplesError × List String
  | .ok s => (none, s.loadOrder)
  | .error (e, s) => (some e, s.loadOrder)

/-! ### Auxiliary views and measures used by the statements and proofs -/

/-- The names of the registry's entries, in order (the dict's key view). -/
def namesOf (pd : Registry) : List String := pd.map (fun e => e.name)

/-- Everything of an entry except its `can-load` flag.  Directive
evaluation changes registry entries only below this view. -/
def dropCL (e : PluginEntry) :
    String × Option String × String × Bool × List Directive :=
  (e.name, e.service, e.humanName, e.loaded, e.loadDirectives)

/-- The registry under `dropCL`. -/
def coreView (pd : Registry) : List (String × Option String × String × Bool × List Directive) :=
  pd.map dropCL

/-- Everything of an entry except its two runtime flags and directives'
`executed` state is captured by name, service, human name and `loaded`.
The directive pass preserves this view of every entry. -/
def passView (e : PluginEntry) : String × Option String × String × Bool :=
  (e.name, e.service, e.humanName, e.loaded)

/-- The registry under `passView`. -/
def passViewOf (pd : Registry) : List (String × Option String × String × Bool) :=
  pd.map passView

/-- One evaluation step leaves a directive unchanged or flips the one-shot
`executed` flag of an unexecuted `run-after-load` directive. -/
def flipRel (d d' : Directive) : Prop :=
  d' = d ∨
    (d.directive = DirKind.runAfterLoad ∧ d.executed = false ∧
     d' = { d with executed := true })

/-- Number of not-yet-executed `run-after-load` directives with method `m`
in a directive list. -/
def uCount (m : String) (L : List Directive) : Nat :=
  (L.filter (fun d =>
    decide (d.directive = DirKind.runAfterLoad ∧ d.method = m ∧ d.executed = false))).length

/-- `uCount` of the registry entry named `a` (0 if absent). -/
def uCountReg (pd : Registry) (a m : String) : Nat :=
  match findEntry pd a with
  | some e => uCount m e.loadDirectives
  | none => 0

/-- Number of hook invocations recorded for subject `a` and method `m`. -/
def eCount (a m : String) (hc : List (String × String)) : Nat :=
  (hc.filter (fun p => decide (p.1 = a ∧ p.2 = m))).length

/-- Convenience constructor for concrete registries in the closed
witness/counterexample statements. -/
def mkEntry (n : String) (ds : List Directive) (svc : Option String := none) :
    PluginEntry :=
  { name := n, humanName := n, service := svc, loadDirectives := ds,
    loaded := false, canLoad := false }

/-- Is every entry of the registry loaded? -/
def allLoaded (pd : Registry) : Prop := ∀ e ∈ pd, e.loaded = true

/-- A reference that the service resolver and the directive evaluators can
process without a `KeyError`: a wildcard requires every registry entry to
carry a `"service"` key; a concrete reference must be a registered name. -/
def refClean (pd : Registry) (r : String) : Prop :=
  if isWildcardRef r then ∀ e ∈ pd, e.service.isSome = true
  else (findEntry pd r).isSome = true

/-- Every directive of every entry of the registry has a clean reference. -/
def allRefsClean (pd : Registry) : Prop :=
  ∀ e ∈ pd, ∀ d ∈ e.loadDirectives, refClean pd d.module

/-- The `(name, service)` view of the registry: all that the service
resolver reads. -/
def svcView (pd : Registry) : List (String × Option String) :=
  pd.map (fun e => (e.name, e.service))

/-- Everything of an entry except its `loaded` flag.  The load phase
changes registry entries only below this view. -/
def dropLoaded (e : PluginEntry) :
    String × Option String × String × Bool × List Directive :=
  (e.name, e.service, e.humanName, e.canLoad, e.loadDirectives)

/-- The registry under `dropLoaded`. -/
def loadView (pd : Registry) : List (String × Option String × String × Bool × List Directive) :=
  pd.map dropLoaded

/-- The entry registered under `nm`, if any, is loaded. -/
def loadedName (pd : Registry) (nm : String) : Prop :=
  ∀ e, findEntry pd nm = some e → e.loaded = true

/-- The state carried by a directive-evaluation result, error or not. -/
def stOf : Except (ApplesError × SchedState) SchedState → SchedState
  | .ok s => s
  | .error (_, s) => s

/-- The state carried by a cycle outcome. -/
def cycleStateOf : CycleOutcome → SchedState
  | CycleOutcome.finished s => s
  | CycleOutcome.failed _ s => s
  | CycleOutcome.next s => s

/-- `s'` differs from `s` at most in `can-load` flags of registry entries:
what a single ordering/deny directive evaluation may change. -/
def clOnly (s s' : SchedState) : Prop :=
  coreView s'.registry = coreView s.registry ∧ s'.lps = s.lps ∧
    s'.loadOrder = s.loadOrder ∧ s'.hookCalls = s.hookCalls ∧ s'.cycles = s.cycles

/-- The entry registered under `nm`, if any, has `can-load = true`. -/
def canLoadName (pd : Registry) (nm : String) : Prop :=
  ∀ e, findEntry pd nm = some e → e.canLoad = true

/-- The entry registered under `nm`, if any, has `can-load = false`. -/
def clFalse (pd : Registry) (nm : String) : Prop :=
  ∀ e, findEntry pd nm = some e → e.canLoad = false

/-- The entry registered under `nm`, if any, is not loaded. -/
def notLoadedName (pd : Registry) (nm : String) : Prop :=
  ∀ e, findEntry pd nm = some e → e.loaded = false

/-- The entry registered under `a` declares a `load-after` directive whose
reference is `bRef` (stable across `executed` flips). -/
def hasAfterDir (pd : Registry) (a bRef : String) : Prop :=
  ∃ e, findEntry pd a = some e ∧
    ∃ d ∈ e.loadDirectives, d.directive = DirKind.loadAfter ∧ d.module = bRef

/-- `uCount` of a single directive. -/
def uCountD (m : String) (d : Directive) : Nat :=
  if d.directive = DirKind.runAfterLoad ∧ d.method = m ∧ d.executed = false
  then 1 else 0

/-- The bookkeeping invariant tying the load order to the `loaded` flags:
the load order lists registered names without repetition, everything in it
is loaded, and every loaded registered name is in it. -/
def LOinv (s : SchedState) : Prop :=
  s.loadOrder.Nodup ∧
    (∀ nm ∈ s.loadOrder, nm ∈ namesOf s.registry) ∧
    (∀ nm ∈ s.loadOrder, loadedName s.registry nm) ∧
    (∀ nm ∈ namesOf s.registry, loadedName s.registry nm → nm ∈ s.loadOrder)

/-- The run invariant behind the `load-after` ordering guarantee: the
bookkeeping invariant holds, the subject still declares its `load-after`
directive, the object name is registered, and wherever the subject already
appears in the load order, the object appears strictly before it. -/
def C7inv (a bRef : String) (s : SchedState) : Prop :=
  LOinv s ∧ hasAfterDir s.registry a bRef ∧ bRef ∈ namesOf s.registry ∧
    (a ∈ s.loadOrder → ∃ l1 l2, s.loadOrder = l1 ++ a :: l2 ∧ bRef ∈ l1)

/-- Loaded-plugin collections that agree on everything the scheduler can
still observe: the module and service tables are equal, and the entry
snapshots are stored under the same keys (their values are never read
back). -/
def lpsRel (p q : LoadedPluginSet) : Prop :=
  p.plugins = q.plugins ∧ p.services = q.services ∧
    p.plugin_data.map Prod.fst = q.plugin_data.map Prod.fst

/-- Correspondence between an entry of the run where `a` declares
`load-before` on `b` (directive value `d₁`, left side) and the same entry of
the run where `b` instead declares `load-after` on `a` (`d₂`, right side):
all fields agree except that `a`'s directive list carries `d₁` on the left
only, `b`'s list carries `d₂` on the right only, and `b`'s `can-load` flag is
a shared value masked by whether each side has already applied its ordering
clear this cycle (`c₁`/`c₂`) when the blocking condition `cond` (plugin `a`
unloaded) holds. -/
def entRel (a b : String) (d₁ d₂ : Directive) (c₁ c₂ cond : Bool)
    (e₁ e₂ : PluginEntry) : Prop :=
  e₁.name = e₂.name ∧ e₁.humanName = e₂.humanName ∧ e₁.service = e₂.service ∧
  e₁.loaded = e₂.loaded ∧
  (e₁.name = a → ∃ u v, e₁.loadDirectives = u ++ d₁ :: v ∧
    e₂.loadDirectives = u ++ v) ∧
  (e₁.name = b → ∃ w z, e₁.loadDirectives = w ++ z ∧
    e₂.loadDirectives = w ++ d₂ :: z) ∧
  (e₁.name ≠ a → e₁.name ≠ b → e₁.loadDirectives = e₂.loadDirectives) ∧
  (e₁.name ≠ b → e₁.canLoad = e₂.canLoad) ∧
  (e₁.name = b → ∃ x, e₁.canLoad = (x && !(c₁ && cond)) ∧
    e₂.canLoad = (x && !(c₂ && cond)))

/-- The full bisimulation relation between a scheduler state of the
`load-before` run and one of the `load-after` run. -/
def stRel (a b : String) (d₁ d₂ : Directive) (c₁ c₂ cond : Bool)
    (s t : SchedState) : Prop :=
  List.Forall₂ (entRel a b d₁ d₂ c₁ c₂ cond) s.registry t.registry ∧
  lpsRel s.lps t.lps ∧ s.loadOrder = t.loadOrder ∧
  s.hookCalls = t.hookCalls ∧ s.cycles = t.cycles

/-- The entry registered under `a` exists and its `loaded` flag is the
negation of the cycle's blocking condition. -/
def aLook (a : String) (cond : Bool) (s : SchedState) : Prop :=
  ∃ e, findEntry s.registry a = some e ∧ e.loaded = !cond

/-- The state change both ordering directives denote: when the blocking
condition holds, clear `b`'s `can-load` flag. -/
def condClear (b : String) (cond : Bool) (s : SchedState) : SchedState :=
  if cond then { s with registry := clearCanLoad s.registry b } else s

/-- Relate two evaluator results: both raise the same condition with related
carried states, or both succeed with related values. -/
def exRelV {α : Type} (V : α → α → Prop) (R : SchedState → SchedState → Prop) :
    Except (ApplesError × SchedState) α → Except (ApplesError × SchedState) α →
    Prop
  | .ok x, .ok y => V x y
  | .error (e, s), .error (e', t) => e = e' ∧ R s t
  | _, _ => False

/-! ### Basic lemmas about lookup and the registry update operations -/

theorem findEntry_name_eq : ∀ {pd : Registry} {n : String} {e : PluginEntry},
    findEntry pd n = some e → e.name = n := by
  intro pd
  induction pd with
  | nil => intro n e h; simp [findEntry] at h
  | cons x rest ih =>
    intro n e h
    by_cases hx : x.name = n
    · simp [findEntry, hx] at h; subst h; exact hx
    · simp [findEntry, hx] at h; exact ih h

theorem findEntry_mem : ∀ {pd : Registry} {n : String} {e : PluginEntry},
    findEntry pd n = some e → e ∈ pd := by
  intro pd
  induction pd with
  | nil => intro n e h; simp [findEntry] at h
  | cons x rest ih =>
    intro n e h
    by_cases hx : x.name = n
    · simp [findEntry, hx] at h; simp [h]
    · simp [findEntry, hx] at h; exact List.mem_cons_of_mem _ (ih h)

theorem findEntry_isSome_of_mem : ∀ {pd : Registry} {e : PluginEntry},
    e ∈ pd → (findEntry pd e.name).isSome = true := by
  intro pd
  induction pd with
  | nil => intro e h; simp at h
  | cons x rest ih =>
    intro e h
    rcases List.mem_cons.mp h with h | h
    · subst h; simp [findEntry]
    · by_cases hx : x.name = e.name
      · simp [findEntry, hx]
      · simp [findEntry, hx]; exact ih h

theorem findEntry_eq_none_iff : ∀ {pd : Registry} {n : String},
    findEntry pd n = none ↔ n ∉ namesOf pd := by
  intro pd
  induction pd with
  | nil => intro n; simp [findEntry, namesOf]
  | cons x rest ih =>
    intro n
    by_cases hx : x.name = n
    · simp [findEntry, hx, namesOf]
    · simp [findEntry, hx, namesOf, ih, Ne.symm hx]

theorem findEntry_map_of_name {f : PluginEntry → PluginEntry}
    (hf : ∀ e, (f e).name = e.name) :
    ∀ (pd : Registry) (n : String),
      findEntry (pd.map f) n = (findEntry pd n).map f := by
  intro pd
  induction pd with
  | nil => intro n; simp [findEntry]
  | cons x rest ih =>
    intro n
    by_cases hx : x.name = n
    · simp [findEntry, hf, hx]
    · simp [findEntry, hf, hx, ih]

theorem findEntry_clearCanLoad (pd : Registry) (t n : String) :
    findEntry (clearCanLoad pd t) n =
      (findEntry pd n).map
        (fun e => if e.name = t then { e with canLoad := false } else e) :=
  findEntry_map_of_name (fun e => by by_cases h : e.name = t <;> simp [h]) pd n

theorem findEntry_setLoaded (pd : Registry) (t n : String) :
    findEntry (setLoaded pd t) n =
      (findEntry pd n).map
        (fun e => if e.name = t then { e with loaded := true } else e) :=
  findEntry_map_of_name (fun e => by by_cases h : e.name = t <;> simp [h]) pd n

theorem findEntry_setDirs (pd : Registry) (t : String) (ds : List Directive) (n : String) :
    findEntry (setDirs pd t ds) n =
      (findEntry pd n).map
        (fun e => if e.name = t then { e with loadDirectives := ds } else e) :=
  findEntry_map_of_name (fun e => by by_cases h : e.name = t <;> simp [h]) pd n

theorem findEntry_setCanLoadAll (pd : Registry) (n : String) :
    findEntry (setCanLoadAll pd) n =
      (findEntry pd n).map (fun e => { e with canLoad := true }) :=
  findEntry_map_of_name (fun e => by simp) pd n

theorem namesOf_map_of_name {f : PluginEntry → PluginEntry}
    (hf : ∀ e, (f e).name = e.name) (pd : Registry) :
    namesOf (pd.map f) = namesOf pd := by
  simp [namesOf, List.map_map, Function.comp_def, hf]

theorem namesOf_clearCanLoad (pd : Registry) (t : String) :
    namesOf (clearCanLoad pd t) = namesOf pd :=
  namesOf_map_of_name (fun e => by by_cases h : e.name = t <;> simp [h]) pd

theorem namesOf_setLoaded (pd : Registry) (t : String) :
    namesOf (setLoaded pd t) = namesOf pd :=
  namesOf_map_of_name (fun e => by by_cases h : e.name = t <;> simp [h]) pd

theorem namesOf_setDirs (pd : Registry) (t : String) (ds : List Directive) :
    namesOf (setDirs pd t ds) = namesOf pd :=
  namesOf_map_of_name (fun e => by by_cases h : e.name = t <;> simp [h]) pd

theorem namesOf_setCanLoadAll (pd : Registry) :
    namesOf (setCanLoadAll pd) = namesOf pd :=
  namesOf_map_of_name (fun e => by simp) pd

theorem coreView_clearCanLoad (pd : Registry) (t : String) :
    coreView (clearCanLoad pd t) = coreView pd := by
  simp only [coreView, clearCanLoad, List.map_map]
  apply List.map_congr_left
  intro e _
  by_cases h : e.name = t <;> simp [Function.comp_def, h, dropCL]

theorem passViewOf_clearCanLoad (pd : Registry) (t : String) :
    passViewOf (clearCanLoad pd t) = passViewOf pd := by
  simp only [passViewOf, clearCanLoad, List.map_map]
  apply List.map_congr_left
  intro e _
  by_cases h : e.name = t <;> simp [Function.comp_def, h, passView]

theorem passViewOf_setDirs (pd : Registry) (t : String) (ds : List Directive) :
    passViewOf (setDirs pd t ds) = passViewOf pd := by
  simp only [passViewOf, setDirs, List.map_map]
  apply List.map_congr_left
  intro e _
  by_cases h : e.name = t <;> simp [Function.comp_def, h, passView]

theorem passViewOf_setCanLoadAll (pd : Registry) :
    passViewOf (setCanLoadAll pd) = passViewOf pd := by
  simp only [passViewOf, setCanLoadAll, List.map_map]
  apply List.map_congr_left
  intro e _
  simp [Function.comp_def, passView]

theorem svcView_of_passView {pd pd' : Registry}
    (h : passViewOf pd = passViewOf pd') : svcView pd = svcView pd' := by
  have : (passViewOf pd).map (fun p => (p.1, p.2.1)) =
      (passViewOf pd').map (fun p => (p.1, p.2.1)) := by rw [h]
  simpa [passViewOf, svcView, List.map_map, Function.comp_def, passView] using this

theorem svcView_of_coreView {pd pd' : Registry}
    (h : coreView pd = coreView pd') : svcView pd = svcView pd' := by
  have : (coreView pd).map (fun p => (p.1, p.2.1)) =
      (coreView pd').map (fun p => (p.1, p.2.1)) := by rw [h]
  simpa [coreView, svcView, List.map_map, Function.comp_def, dropCL] using this

theorem namesOf_of_passView {pd pd' : Registry}
    (h : passViewOf pd = passViewOf pd') : namesOf pd = namesOf pd' := by
  have : (passViewOf pd).map (fun p => p.1) =
      (passViewOf pd').map (fun p => p.1) := by rw [h]
  simpa [passViewOf, namesOf, List.map_map, Function.comp_def, passView] using this

theorem resolveScan_congr {pd pd' : Registry} (h : svcView pd = svcView pd') :
    ∀ svc, resolveScan svc pd = resolveScan svc pd' := by
  induction pd generalizing pd' with
  | nil =>
    cases pd' with
    | nil => intro svc; rfl
    | cons x rest => simp [svcView] at h
  | cons x rest ih =>
    cases pd' with
    | nil => simp [svcView] at h
    | cons y rest' =>
      intro svc
      simp [svcView] at h
      obtain ⟨⟨hn, hs⟩, hrest⟩ := h
      have hrest2 : svcView rest = svcView rest' := by simpa [svcView] using hrest
      have hr := ih hrest2 svc
      simp [resolveScan, hs, hr, hn]

theorem resolve_congr {pd pd' : Registry} (h : svcView pd = svcView pd')
    (r : String) : resolve_plugin_name r pd = resolve_plugin_name r pd' := by
  by_cases hw : isWildcardRef r <;>
    simp [resolve_plugin_name, hw, resolveScan_congr h]

theorem findEntry_congr_passView {pd pd' : Registry}
    (h : passViewOf pd = passViewOf pd') (n : String) :
    (findEntry pd n).map passView = (findEntry pd' n).map passView := by
  induction pd generalizing pd' with
  | nil =>
    cases pd' with
    | nil => rfl
    | cons x rest => simp [passViewOf] at h
  | cons x rest ih =>
    cases pd' with
    | nil => simp [passViewOf] at h
    | cons y rest' =>
      simp [passViewOf] at h
      obtain ⟨hxy, hrest⟩ := h
      have hn : x.name = y.name := by
        simpa [passView] using congrArg Prod.fst hxy
      by_cases hx : x.name = n
      · simp [findEntry, hx, hn ▸ hx, hxy]
      · have hy : ¬ y.name = n := by rw [← hn]; exact hx
        simp [findEntry, hx, hy]
        exact ih (by simpa [passViewOf] using hrest)

theorem passView_of_coreView {pd pd' : Registry}
    (h : coreView pd = coreView pd') : passViewOf pd = passViewOf pd' := by
  have : (coreView pd).map (fun p => (p.1, p.2.1, p.2.2.1, p.2.2.2.1)) =
      (coreView pd').map (fun p => (p.1, p.2.1, p.2.2.1, p.2.2.2.1)) := by rw [h]
  simpa [coreView, passViewOf, List.map_map, Function.comp_def, dropCL, passView]
    using this

/-! ### What a single directive evaluation can change -/

theorem clOnly_refl (s : SchedState) : clOnly s s :=
  ⟨rfl, rfl, rfl, rfl, rfl⟩

theorem clOnly_trans {s s' s'' : SchedState}
    (h : clOnly s s') (h' : clOnly s' s'') : clOnly s s'' :=
  ⟨h'.1.trans h.1, h'.2.1.trans h.2.1, h'.2.2.1.trans h.2.2.1,
   h'.2.2.2.1.trans h.2.2.2.1, h'.2.2.2.2.trans h.2.2.2.2⟩

theorem clOnly_clear (s : SchedState) (n : String) :
    clOnly s { s with registry := clearCanLoad s.registry n } :=
  ⟨coreView_clearCanLoad s.registry n, rfl, rfl, rfl, rfl⟩

theorem loadBeforeScan_st (ℓ : Bool) (te : Option ApplesError) :
    ∀ (ns : List String) (s : SchedState),
      clOnly s (stOf (loadBeforeScan ℓ te ns s)) := by
  intro ns
  induction ns with
  | nil => intro s; cases te <;> simp [loadBeforeScan, stOf, clOnly_refl]
  | cons n rest ih =>
    intro s
    rw [loadBeforeScan]
    cases hf : findEntry s.registry n with
    | none => simpa [stOf] using clOnly_refl s
    | some e =>
      cases ℓ with
      | false =>
        simpa using clOnly_trans (clOnly_clear s n)
          (ih { s with registry := clearCanLoad s.registry n })
      | true => simpa using ih s

theorem loadAfterScan_st (sn : String) (te : Option ApplesError) :
    ∀ (ns : List String) (s : SchedState),
      clOnly s (stOf (loadAfterScan sn te ns s)) := by
  intro ns
  induction ns with
  | nil => intro s; cases te <;> simp [loadAfterScan, stOf, clOnly_refl]
  | cons n rest ih =>
    intro s
    rw [loadAfterScan]
    cases hf : findEntry s.registry n with
    | none => simpa [stOf] using clOnly_refl s
    | some e =>
      cases hl : e.loaded with
      | false =>
        simpa [hl] using clOnly_trans (clOnly_clear s sn)
          (ih { s with registry := clearCanLoad s.registry sn })
      | true => simpa [hl] using ih s

theorem loadDenyScan_st (sn : String) (te : Option ApplesError) :
    ∀ (ns : List String) (s : SchedState),
      clOnly s (stOf (loadDenyScan sn te ns s)) := by
  intro ns
  induction ns with
  | nil => intro s; cases te <;> simp [loadDenyScan, stOf, clOnly_refl]
  | cons n rest ih =>
    intro s
    rw [loadDenyScan]
    cases hf : findEntry s.registry n with
    | none => simpa [stOf] using clOnly_refl s
    | some e =>
      by_cases hn : n = sn
      · simpa [hn] using ih s
      · simp [hn, hf, stOf, clOnly_refl]

theorem runAfterLoadScan_st (te : Option ApplesError) :
    ∀ (ns : List String) (s : SchedState) (e : ApplesError) (s' : SchedState),
      runAfterLoadScan te ns s = .error (e, s') → s' = s := by
  intro ns
  induction ns with
  | nil =>
    intro s e s' h
    cases te with
    | none => simp [runAfterLoadScan] at h
    | some e0 => simp [runAfterLoadScan] at h; exact h.2.symm
  | cons n rest ih =>
    intro s e s' h
    rw [runAfterLoadScan] at h
    cases hf : findEntry s.registry n with
    | none => rw [hf] at h; simp at h; exact h.2.symm
    | some me =>
      rw [hf] at h
      cases hl : me.loaded with
      | false => simp [hl] at h
      | true => simp [hl] at h; exact ih s e s' h

theorem evalOneDirective_ok {d : Directive} {n : String} {ℓ : Bool}
    {s : SchedState} {d' : Directive} {s' : SchedState}
    (h : evalOneDirective d n ℓ s = .ok (d', s')) :
    (d' = d ∧ clOnly s s') ∨
      (d.directive = DirKind.runAfterLoad ∧ d.executed = false ∧ ℓ = true ∧
       d' = { d with executed := true } ∧
       coreView s'.registry = coreView s.registry ∧ s'.lps = s.lps ∧
       s'.loadOrder = s.loadOrder ∧ s'.cycles = s.cycles ∧
       s'.hookCalls = s.hookCalls ++ [(n, d.method)]) := by
  cases hd : d.directive with
  | loadBefore =>
    simp only [evalOneDirective, hd] at h
    cases hs : loadBeforeScan ℓ (resolve_plugin_name d.module s.registry).2
        (resolve_plugin_name d.module s.registry).1 s with
    | error es => rw [hs] at h; cases h
    | ok s1 =>
      rw [hs] at h
      simp at h
      refine Or.inl ⟨h.1.symm, ?_⟩
      have := loadBeforeScan_st ℓ (resolve_plugin_name d.module s.registry).2
        (resolve_plugin_name d.module s.registry).1 s
      rw [hs] at this
      simpa [stOf, h.2] using this
  | loadAfter =>
    simp only [evalOneDirective, hd] at h
    cases hs : loadAfterScan n (resolve_plugin_name d.module s.registry).2
        (resolve_plugin_name d.module s.registry).1 s with
    | error es => rw [hs] at h; cases h
    | ok s1 =>
      rw [hs] at h
      simp at h
      refine Or.inl ⟨h.1.symm, ?_⟩
      have := loadAfterScan_st n (resolve_plugin_name d.module s.registry).2
        (resolve_plugin_name d.module s.registry).1 s
      rw [hs] at this
      simpa [stOf, h.2] using this
  | loadDeny =>
    simp only [evalOneDirective, hd] at h
    cases hs : loadDenyScan n (resolve_plugin_name d.module s.registry).2
        (resolve_plugin_name d.module s.registry).1 s with
    | error es => rw [hs] at h; cases h
    | ok s1 =>
      rw [hs] at h
      simp at h
      refine Or.inl ⟨h.1.symm, ?_⟩
      have := loadDenyScan_st n (resolve_plugin_name d.module s.registry).2
        (resolve_plugin_name d.module s.registry).1 s
      rw [hs] at this
      simpa [stOf, h.2] using this
  | runAfterLoad =>
    simp only [evalOneDirective, hd] at h
    cases hx : d.executed with
    | true =>
      rw [hx] at h
      simp at h
      refine Or.inl ⟨h.1.symm, ?_⟩
      rw [← h.2]
      exact clOnly_refl s
    | false =>
      rw [hx] at h
      simp only [Bool.false_eq_true, if_false] at h
      cases hs : runAfterLoadScan (resolve_plugin_name d.module s.registry).2
          (resolve_plugin_name d.module s.registry).1 s with
      | error es => rw [hs] at h; cases h
      | ok b =>
        rw [hs] at h
        cases b with
        | false => simp at h; refine Or.inl ⟨h.1.symm, ?_⟩; rw [← h.2]; exact clOnly_refl s
        | true =>
          cases hℓ : ℓ with
          | false =>
            rw [hℓ] at h; simp at h; refine Or.inl ⟨h.1.symm, ?_⟩; rw [← h.2]; exact clOnly_refl s
          | true =>
            rw [hℓ] at h
            simp at h
            right
            refine ⟨rfl, rfl, rfl, h.1.symm, ?_⟩
            rw [← h.2]
            exact ⟨rfl, rfl, rfl, rfl, rfl⟩

theorem evalOneDirective_error {d : Directive} {n : String} {ℓ : Bool}
    {s : SchedState} {e : ApplesError} {s' : SchedState}
    (h : evalOneDirective d n ℓ s = .error (e, s')) : clOnly s s' := by
  cases hd : d.directive with
  | loadBefore =>
    simp only [evalOneDirective, hd] at h
    cases hs : loadBeforeScan ℓ (resolve_plugin_name d.module s.registry).2
        (resolve_plugin_name d.module s.registry).1 s with
    | error es =>
      rw [hs] at h
      have := loadBeforeScan_st ℓ (resolve_plugin_name d.module s.registry).2
        (resolve_plugin_name d.module s.registry).1 s
      rw [hs] at this
      obtain ⟨e0, s0⟩ := es
      simp at h
      simpa [stOf, h.2] using this
    | ok s1 => rw [hs] at h; cases h
  | loadAfter =>
    simp only [evalOneDirective, hd] at h
    cases hs : loadAfterScan n (resolve_plugin_name d.module s.registry).2
        (resolve_plugin_name d.module s.registry).1 s with
    | error es =>
      rw [hs] at h
      have := loadAfterScan_st n (resolve_plugin_name d.module s.registry).2
        (resolve_plugin_name d.module s.registry).1 s
      rw [hs] at this
      obtain ⟨e0, s0⟩ := es
      simp at h
      simpa [stOf, h.2] using this
    | ok s1 => rw [hs] at h; cases h
  | loadDeny =>
    simp only [evalOneDirective, hd] at h
    cases hs : loadDenyScan n (resolve_plugin_name d.module s.registry).2
        (resolve_plugin_name d.module s.registry).1 s with
    | error es =>
      rw [hs] at h
      have := loadDenyScan_st n (resolve_plugin_name d.module s.registry).2
        (resolve_plugin_name d.module s.registry).1 s
      rw [hs] at this
      obtain ⟨e0, s0⟩ := es
      simp at h
      simpa [stOf, h.2] using this
    | ok s1 => rw [hs] at h; cases h
  | runAfterLoad =>
    simp only [evalOneDirective, hd] at h
    cases hx : d.executed with
    | true => rw [hx] at h; simp at h
    | false =>
      rw [hx] at h
      simp only [Bool.false_eq_true, if_false] at h
      cases hs : runAfterLoadScan (resolve_plugin_name d.module s.registry).2
          (resolve_plugin_name d.module s.registry).1 s with
      | error es =>
        rw [hs] at h
        obtain ⟨e0, s0⟩ := es
        have := runAfterLoadScan_st (resolve_plugin_name d.module s.registry).2
          (resolve_plugin_name d.module s.registry).1 s e0 s0 hs
        simp at h
        rw [← h.2, this]
        exact clOnly_refl s
      | ok b =>
        rw [hs] at h
        cases b with
        | false => simp at h
        | true => cases hℓ : ℓ <;> rw [hℓ] at h <;> simp at h

/-! ### What one entry's directive fold and the whole pass can change -/

theorem evalDirsFold_ok {n : String} {ℓ : Bool} :
    ∀ {L : List Directive} {s : SchedState} {L' : List Directive} {s' : SchedState},
      evalDirsFold n ℓ L s = .ok (L', s') →
      coreView s'.registry = coreView s.registry ∧ s'.lps = s.lps ∧
        s'.loadOrder = s.loadOrder ∧ s'.cycles = s.cycles ∧
        List.Forall₂ flipRel L L' ∧
        ∃ evts, s'.hookCalls = s.hookCalls ++ evts ∧ ∀ p ∈ evts, p.1 = n := by
  intro L
  induction L with
  | nil =>
    intro s L' s' h
    simp [evalDirsFold] at h
    obtain ⟨h1, h2⟩ := h
    subst h1; subst h2
    exact ⟨rfl, rfl, rfl, rfl, List.Forall₂.nil, [], by simp, by simp⟩
  | cons d ds ih =>
    intro s L' s' h
    rw [evalDirsFold] at h
    cases hd : evalOneDirective d n ℓ s with
    | error es => rw [hd] at h; cases h
    | ok pr =>
      obtain ⟨d1, s1⟩ := pr
      rw [hd] at h
      simp only [] at h
      cases hf : evalDirsFold n ℓ ds s1 with
      | error es => rw [hf] at h; cases h
      | ok pr2 =>
        obtain ⟨ds2, s2⟩ := pr2
        rw [hf] at h
        simp at h
        rw [← h.1, ← h.2]
        have h2 := ih hf
        obtain ⟨hcv2, hlps2, hlo2, hcy2, hfa2, evts2, hhk2, hsub2⟩ := h2
        rcases evalOneDirective_ok hd with ⟨hd1, hcv1, hlps1, hlo1, hhk1, hcy1⟩ |
          ⟨hkind, hexec, hℓ, hd1, hcv1, hlps1, hlo1, hcy1, hhk1⟩
        · refine ⟨hcv2.trans hcv1, hlps2.trans hlps1, hlo2.trans hlo1,
            hcy2.trans hcy1, List.Forall₂.cons (Or.inl hd1) hfa2, evts2, ?_, hsub2⟩
          rw [hhk2, hhk1]
        · refine ⟨hcv2.trans hcv1, hlps2.trans hlps1, hlo2.trans hlo1,
            hcy2.trans hcy1, List.Forall₂.cons (Or.inr ⟨hkind, hexec, hd1⟩) hfa2,
            (n, d.method) :: evts2, ?_, ?_⟩
          · rw [hhk2, hhk1, List.append_assoc]; rfl
          · intro p hp
            rcases List.mem_cons.mp hp with hp | hp
            · rw [hp]
            · exact hsub2 p hp

theorem evalDirsFold_error {n : String} {ℓ : Bool} :
    ∀ {L : List Directive} {s : SchedState} {e : ApplesError} {s' : SchedState},
      evalDirsFold n ℓ L s = .error (e, s') →
      coreView s'.registry = coreView s.registry ∧ s'.lps = s.lps ∧
        s'.loadOrder = s.loadOrder ∧ s'.cycles = s.cycles ∧
        ∃ evts, s'.hookCalls = s.hookCalls ++ evts ∧ ∀ p ∈ evts, p.1 = n := by
  intro L
  induction L with
  | nil => intro s e s' h; simp [evalDirsFold] at h
  | cons d ds ih =>
    intro s e s' h
    rw [evalDirsFold] at h
    cases hd : evalOneDirective d n ℓ s with
    | error es =>
      rw [hd] at h
      obtain ⟨e0, s0⟩ := es
      simp at h
      rw [← h.2]
      have := evalOneDirective_error hd
      exact ⟨this.1, this.2.1, this.2.2.1, this.2.2.2.2, [], by simp [this.2.2.2.1],
        by simp⟩
    | ok pr =>
      obtain ⟨d1, s1⟩ := pr
      rw [hd] at h
      simp only [] at h
      cases hf : evalDirsFold n ℓ ds s1 with
      | error es2 =>
        rw [hf] at h
        obtain ⟨e0, s0⟩ := es2
        simp at h
        rw [← h.2]
        have h2 := ih hf
        obtain ⟨hcv2, hlps2, hlo2, hcy2, evts2, hhk2, hsub2⟩ := h2
        rcases evalOneDirective_ok hd with ⟨hd1, hcv1, hlps1, hlo1, hhk1, hcy1⟩ |
          ⟨hkind, hexec, hℓ, hd1, hcv1, hlps1, hlo1, hcy1, hhk1⟩
        · exact ⟨hcv2.trans hcv1, hlps2.trans hlps1, hlo2.trans hlo1,
            hcy2.trans hcy1, evts2, by rw [hhk2, hhk1], hsub2⟩
        · refine ⟨hcv2.trans hcv1, hlps2.trans hlps1, hlo2.trans hlo1,
            hcy2.trans hcy1, (n, d.method) :: evts2, ?_, ?_⟩
          · rw [hhk2, hhk1, List.append_assoc]; rfl
          · intro p hp
            rcases List.mem_cons.mp hp with hp | hp
            · rw [hp]
            · exact hsub2 p hp
      | ok pr2 => rw [hf] at h; cases h

theorem evalAllDirectives_ok :
    ∀ {ns : List String} {s s' : SchedState},
      evalAllDirectives ns s = .ok s' →
      passViewOf s'.registry = passViewOf s.registry ∧ s'.lps = s.lps ∧
        s'.loadOrder = s.loadOrder ∧ s'.cycles = s.cycles ∧
        ∃ evts, s'.hookCalls = s.hookCalls ++ evts ∧ ∀ p ∈ evts, p.1 ∈ ns := by
  intro ns
  induction ns with
  | nil =>
    intro s s' h
    simp [evalAllDirectives] at h
    subst h
    exact ⟨rfl, rfl, rfl, rfl, [], by simp, by simp⟩
  | cons n rest ih =>
    intro s s' h
    rw [evalAllDirectives] at h
    cases hf : findEntry s.registry n with
    | none =>
      rw [hf] at h
      obtain ⟨hpv, hlps, hlo, hcy, evts, hhk, hsub⟩ := ih h
      exact ⟨hpv, hlps, hlo, hcy, evts, hhk,
        fun p hp => List.mem_cons_of_mem _ (hsub p hp)⟩
    | some subj =>
      rw [hf] at h
      simp only [] at h
      cases hfl : evalDirsFold subj.name subj.loaded subj.loadDirectives s with
      | error es => rw [hfl] at h; cases h
      | ok pr =>
        obtain ⟨ds', s1⟩ := pr
        rw [hfl] at h
        simp only [] at h
        obtain ⟨hpv2, hlps2, hlo2, hcy2, evts2, hhk2, hsub2⟩ := ih h
        obtain ⟨hcv1, hlps1, hlo1, hcy1, _, evts1, hhk1, hsub1⟩ := evalDirsFold_ok hfl
        have hsd : passViewOf (setDirs s1.registry n ds') = passViewOf s1.registry :=
          passViewOf_setDirs s1.registry n ds'
        have hname : subj.name = n := findEntry_name_eq hf
        refine ⟨hpv2.trans (hsd.trans (passView_of_coreView hcv1)), hlps2.trans hlps1,
          hlo2.trans hlo1, hcy2.trans hcy1, evts1 ++ evts2, ?_, ?_⟩
        · rw [hhk2]
          simp only []
          rw [hhk1, List.append_assoc]
        · intro p hp
          rcases List.mem_append.mp hp with hp | hp
          · exact List.mem_cons.mpr (Or.inl (by rw [← hname]; exact hsub1 p hp))
          · exact List.mem_cons_of_mem _ (hsub2 p hp)

theorem evalAllDirectives_error :
    ∀ {ns : List String} {s : SchedState} {e : ApplesError} {s' : SchedState},
      evalAllDirectives ns s = .error (e, s') →
      passViewOf s'.registry = passViewOf s.registry ∧ s'.lps = s.lps ∧
        s'.loadOrder = s.loadOrder ∧ s'.cycles = s.cycles ∧
        ∃ evts, s'.hookCalls = s.hookCalls ++ evts ∧ ∀ p ∈ evts, p.1 ∈ ns := by
  intro ns
  induction ns with
  | nil => intro s e s' h; simp [evalAllDirectives] at h
  | cons n rest ih =>
    intro s e s' h
    rw [evalAllDirectives] at h
    cases hf : findEntry s.registry n with
    | none =>
      rw [hf] at h
      obtain ⟨hpv, hlps, hlo, hcy, evts, hhk, hsub⟩ := ih h
      exact ⟨hpv, hlps, hlo, hcy, evts, hhk,
        fun p hp => List.mem_cons_of_mem _ (hsub p hp)⟩
    | some subj =>
      rw [hf] at h
      simp only [] at h
      cases hfl : evalDirsFold subj.name subj.loaded subj.loadDirectives s with
      | error es =>
        rw [hfl] at h
        obtain ⟨e0, s0⟩ := es
        simp at h
        rw [← h.2]
        obtain ⟨hcv1, hlps1, hlo1, hcy1, evts1, hhk1, hsub1⟩ := evalDirsFold_error hfl
        have hname : subj.name = n := findEntry_name_eq hf
        exact ⟨passView_of_coreView hcv1, hlps1, hlo1, hcy1, evts1, hhk1,
          fun p hp => List.mem_cons.mpr (Or.inl (by rw [← hname]; exact hsub1 p hp))⟩
      | ok pr =>
        obtain ⟨ds', s1⟩ := pr
        rw [hfl] at h
        simp only [] at h
        obtain ⟨hpv2, hlps2, hlo2, hcy2, evts2, hhk2, hsub2⟩ := ih h
        obtain ⟨hcv1, hlps1, hlo1, hcy1, _, evts1, hhk1, hsub1⟩ := evalDirsFold_ok hfl
        have hsd : passViewOf (setDirs s1.registry n ds') = passViewOf s1.registry :=
          passViewOf_setDirs s1.registry n ds'
        have hname : subj.name = n := findEntry_name_eq hf
        refine ⟨hpv2.trans (hsd.trans (passView_of_coreView hcv1)), hlps2.trans hlps1,
          hlo2.trans hlo1, hcy2.trans hcy1, evts1 ++ evts2, ?_, ?_⟩
        · rw [hhk2]
          simp only []
          rw [hhk1, List.append_assoc]
        · intro p hp
          rcases List.mem_append.mp hp with hp | hp
          · exact List.mem_cons.mpr (Or.inl (by rw [← hname]; exact hsub1 p hp))
          · exact List.mem_cons_of_mem _ (hsub2 p hp)

/-! ### The load phase -/

theorem loadView_setLoaded (pd : Registry) (n : String) :
    loadView (setLoaded pd n) = loadView pd := by
  simp only [loadView, setLoaded, List.map_map]
  apply List.map_congr_left
  intro e _
  by_cases h : e.name = n <;> simp [Function.comp_def, h, dropLoaded]

theorem passView_of_loadView {pd pd' : Registry}
    (h : loadView pd = loadView pd') : svcView pd = svcView pd' := by
  have : (loadView pd).map (fun p => (p.1, p.2.1)) =
      (loadView pd').map (fun p => (p.1, p.2.1)) := by rw [h]
  simpa [loadView, svcView, List.map_map, Function.comp_def, dropLoaded] using this

theorem namesOf_of_loadView {pd pd' : Registry}
    (h : loadView pd = loadView pd') : namesOf pd = namesOf pd' := by
  have : (loadView pd).map (fun p => p.1) =
      (loadView pd').map (fun p => p.1) := by rw [h]
  simpa [loadView, namesOf, List.map_map, Function.comp_def, dropLoaded] using this

theorem findEntry_congr_loadView {pd pd' : Registry}
    (h : loadView pd = loadView pd') (n : String) :
    (findEntry pd n).map dropLoaded = (findEntry pd' n).map dropLoaded := by
  induction pd generalizing pd' with
  | nil =>
    cases pd' with
    | nil => rfl
    | cons x rest => simp [loadView] at h
  | cons x rest ih =>
    cases pd' with
    | nil => simp [loadView] at h
    | cons y rest' =>
      simp [loadView] at h
      obtain ⟨hxy, hrest⟩ := h
      have hn : x.name = y.name := by
        simpa [dropLoaded] using congrArg Prod.fst hxy
      by_cases hx : x.name = n
      · simp [findEntry, hx, hn ▸ hx, hxy]
      · have hy : ¬ y.name = n := by rw [← hn]; exact hx
        simp [findEntry, hx, hy]
        exact ih (by simpa [loadView] using hrest)

theorem canLoadName_congr_loadView {pd pd' : Registry}
    (h : loadView pd = loadView pd') (nm : String) :
    canLoadName pd nm ↔ canLoadName pd' nm := by
  have hfe := findEntry_congr_loadView h nm
  constructor
  · intro hc e' he'
    cases hfd : findEntry pd nm with
    | none => rw [hfd, he'] at hfe; simp at hfe
    | some e0 =>
      rw [hfd, he'] at hfe
      simp at hfe
      have : e0.canLoad = e'.canLoad := by
        simpa [dropLoaded] using congrArg (fun p => p.2.2.2.1) hfe
      rw [← this]; exact hc e0 hfd
  · intro hc e' he'
    cases hfd : findEntry pd' nm with
    | none => rw [hfd, he'] at hfe; simp at hfe
    | some e0 =>
      rw [hfd, he'] at hfe
      simp at hfe
      have : e0.canLoad = e'.canLoad := by
        simpa [dropLoaded] using congrArg (fun p => p.2.2.2.1) hfe.symm
      rw [← this]; exact hc e0 hfd

theorem loadedName_congr_passView {pd pd' : Registry}
    (h : passViewOf pd = passViewOf pd') (nm : String) :
    loadedName pd nm ↔ loadedName pd' nm := by
  have hfe := findEntry_congr_passView h nm
  constructor
  · intro hl e' he'
    cases hfd : findEntry pd nm with
    | none => rw [hfd, he'] at hfe; simp at hfe
    | some e0 =>
      rw [hfd, he'] at hfe
      simp at hfe
      have : e0.loaded = e'.loaded := by
        simpa [passView] using congrArg (fun p => p.2.2.2) hfe
      rw [← this]; exact hl e0 hfd
  · intro hl e' he'
    cases hfd : findEntry pd' nm with
    | none => rw [hfd, he'] at hfe; simp at hfe
    | some e0 =>
      rw [hfd, he'] at hfe
      simp at hfe
      have : e0.loaded = e'.loaded := by
        simpa [passView] using congrArg (fun p => p.2.2.2) hfe.symm
      rw [← this]; exact hl e0 hfd

theorem passView_of_coreView_iff {pd pd' : Registry}
    (h : coreView pd = coreView pd') (nm : String) :
    loadedName pd nm ↔ loadedName pd' nm :=
  loadedName_congr_passView (passView_of_coreView h) nm

theorem loadedName_setLoaded_self (pd : Registry) (t : String) :
    loadedName (setLoaded pd t) t := by
  intro e he
  rw [findEntry_setLoaded] at he
  cases hfd : findEntry pd t with
  | none => rw [hfd] at he; simp at he
  | some e0 =>
    rw [hfd] at he
    simp at he
    have hn : e0.name = t := findEntry_name_eq hfd
    rw [← he, if_pos hn]

theorem loadedName_setLoaded_mono {pd : Registry} {nm : String} (t : String)
    (h : loadedName pd nm) : loadedName (setLoaded pd t) nm := by
  intro e he
  rw [findEntry_setLoaded] at he
  cases hfd : findEntry pd nm with
  | none => rw [hfd] at he; simp at he
  | some e0 =>
    rw [hfd] at he
    simp at he
    have := h e0 hfd
    rw [← he]
    by_cases hb : e0.name = t <;> simp [hb, this]

theorem loadedName_setLoaded_other {pd : Registry} {nm t : String} (hne : nm ≠ t) :
    loadedName (setLoaded pd t) nm ↔ loadedName pd nm := by
  constructor
  · intro h e he
    have hn : e.name = nm := findEntry_name_eq he
    have hnt : ¬ e.name = t := by rw [hn]; exact hne
    have h2 := h (if e.name = t then { e with loaded := true } else e)
      (by rw [findEntry_setLoaded, he]; rfl)
    simpa [hnt] using h2
  · exact fun h => loadedName_setLoaded_mono t h

theorem findEntry_mem_namesOf {pd : Registry} {n : String} {e : PluginEntry}
    (h : findEntry pd n = some e) : n ∈ namesOf pd := by
  by_contra hc
  rw [← findEntry_eq_none_iff] at hc
  rw [h] at hc
  cases hc

theorem loadPhase_cons_none {s : SchedState} {n : String} (rest : List String)
    (a b : Bool) (hf : findEntry s.registry n = none) :
    loadPhase (n :: rest) s a b = loadPhase rest s a b := by
  rw [loadPhase, hf]

theorem loadPhase_cons_loaded {s : SchedState} {n : String} {e : PluginEntry}
    (rest : List String) (a b : Bool) (hf : findEntry s.registry n = some e)
    (hl : e.loaded = true) :
    loadPhase (n :: rest) s a b = loadPhase rest s a b := by
  rw [loadPhase, hf]; simp [hl]

theorem loadPhase_cons_blocked {s : SchedState} {n : String} {e : PluginEntry}
    (rest : List String) (a b : Bool) (hf : findEntry s.registry n = some e)
    (hl : e.loaded = false) (hc : e.canLoad = false) :
    loadPhase (n :: rest) s a b = loadPhase rest s a false := by
  rw [loadPhase, hf]; simp [hl, hc]

theorem loadPhase_cons_load {s : SchedState} {n : String} {e : PluginEntry}
    (rest : List String) (a b : Bool) (hf : findEntry s.registry n = some e)
    (hl : e.loaded = false) (hc : e.canLoad = true) :
    loadPhase (n :: rest) s a b = loadPhase rest (load_plugin e s) true false := by
  rw [loadPhase, hf]; simp [hl, hc]

theorem loadPhase_registry_loadView :
    ∀ (ns : List String) (s : SchedState) (a b : Bool),
      loadView (loadPhase ns s a b).1.registry = loadView s.registry := by
  intro ns
  induction ns with
  | nil => intro s a b; rfl
  | cons n rest ih =>
    intro s a b
    rw [loadPhase]
    cases hf : findEntry s.registry n with
    | none => exact ih s a b
    | some e =>
      cases hl : e.loaded with
      | true => simpa [hl] using ih s a b
      | false =>
        cases hc : e.canLoad with
        | false => simpa [hl, hc] using ih s a false
        | true =>
          simp only [hl, hc, Bool.not_false, if_true, if_pos]
          have := ih (load_plugin e s) true false
          rw [this]
          simp [load_plugin, loadView_setLoaded]

theorem loadPhase_hookCalls :
    ∀ (ns : List String) (s : SchedState) (a b : Bool),
      (loadPhase ns s a b).1.hookCalls = s.hookCalls ∧
        (loadPhase ns s a b).1.cycles = s.cycles := by
  intro ns
  induction ns with
  | nil => intro s a b; exact ⟨rfl, rfl⟩
  | cons n rest ih =>
    intro s a b
    rw [loadPhase]
    cases hf : findEntry s.registry n with
    | none => exact ih s a b
    | some e =>
      cases hl : e.loaded with
      | true => simpa [hl] using ih s a b
      | false =>
        cases hc : e.canLoad with
        | false => simpa [hl, hc] using ih s a false
        | true =>
          simp only [hl, hc, Bool.not_false, if_true, if_pos]
          have := ih (load_plugin e s) true false
          simpa [load_plugin] using this

theorem loadPhase_loadOrder_prefix :
    ∀ (ns : List String) (s : SchedState) (a b : Bool),
      ∃ δ, (loadPhase ns s a b).1.loadOrder = s.loadOrder ++ δ := by
  intro ns
  induction ns with
  | nil => intro s a b; exact ⟨[], by simp [loadPhase]⟩
  | cons n rest ih =>
    intro s a b
    rw [loadPhase]
    cases hf : findEntry s.registry n with
    | none => exact ih s a b
    | some e =>
      cases hl : e.loaded with
      | true => simpa [hl] using ih s a b
      | false =>
        cases hc : e.canLoad with
        | false => simpa [hl, hc] using ih s a false
        | true =>
          simp only [hl, hc, Bool.not_false, if_true, if_pos]
          obtain ⟨δ, hδ⟩ := ih (load_plugin e s) true false
          exact ⟨e.name :: δ, by simpa [load_plugin, List.append_assoc] using hδ⟩

theorem loadPhase_loadedName_mono :
    ∀ (ns : List String) (s : SchedState) (a b : Bool) (nm : String),
      loadedName s.registry nm →
      loadedName (loadPhase ns s a b).1.registry nm := by
  intro ns
  induction ns with
  | nil => intro s a b nm h; exact h
  | cons n rest ih =>
    intro s a b nm h
    rw [loadPhase]
    cases hf : findEntry s.registry n with
    | none => exact ih s a b nm h
    | some e =>
      cases hl : e.loaded with
      | true => simpa [hl] using ih s a b nm h
      | false =>
        cases hc : e.canLoad with
        | false => simpa [hl, hc] using ih s a false nm h
        | true =>
          simp only [hl, hc, Bool.not_false, if_true, if_pos]
          apply ih (load_plugin e s) true false nm
          simpa [load_plugin] using loadedName_setLoaded_mono e.name h

theorem loadPhase_LOinv :
    ∀ (ns : List String) (s : SchedState) (a b : Bool),
      LOinv s → LOinv (loadPhase ns s a b).1 := by
  intro ns
  induction ns with
  | nil => intro s a b h; exact h
  | cons n rest ih =>
    intro s a b h
    rw [loadPhase]
    cases hf : findEntry s.registry n with
    | none => exact ih s a b h
    | some e =>
      cases hl : e.loaded with
      | true => simpa [hl] using ih s a b h
      | false =>
        cases hc : e.canLoad with
        | false => simpa [hl, hc] using ih s a false h
        | true =>
          simp only [hl, hc, Bool.not_false, if_true, if_pos]
          apply ih (load_plugin e s) true false
          obtain ⟨hnd, hmem, hld, hcv⟩ := h
          have hen : e.name = n := findEntry_name_eq hf
          have hnl : n ∉ s.loadOrder := by
            intro hin
            have := hld n hin e hf
            rw [hl] at this
            cases this
          have hreg : (load_plugin e s).registry = setLoaded s.registry e.name := rfl
          have hlo : (load_plugin e s).loadOrder = s.loadOrder ++ [e.name] := rfl
          refine ⟨?_, ?_, ?_, ?_⟩
          · rw [hlo, List.nodup_append]
            refine ⟨hnd, List.nodup_singleton _, fun x hx hxe => ?_⟩
            have hxeq := List.mem_singleton.mp hxe
            rw [hxeq, hen] at hx
            exact hnl hx
          · intro nm hnm
            rw [hlo] at hnm
            rw [hreg, namesOf_setLoaded]
            rcases List.mem_append.mp hnm with hnm | hnm
            · exact hmem nm hnm
            · rw [List.mem_singleton.mp hnm, hen]
              exact findEntry_mem_namesOf hf
          · intro nm hnm
            rw [hlo] at hnm
            rw [hreg]
            rcases List.mem_append.mp hnm with hnm | hnm
            · exact loadedName_setLoaded_mono e.name (hld nm hnm)
            · rw [List.mem_singleton.mp hnm]
              exact loadedName_setLoaded_self s.registry e.name
          · intro nm hnm hln
            rw [hreg, namesOf_setLoaded] at hnm
            rw [hreg] at hln
            rw [hlo]
            by_cases hne2 : nm = e.name
            · exact List.mem_append.mpr (Or.inr (by rw [hne2]; simp))
            · refine List.mem_append.mpr (Or.inl ?_)
              apply hcv nm hnm
              rw [← loadedName_setLoaded_other hne2]
              exact hln

theorem loadPhase_any_true :
    ∀ (ns : List String) (s : SchedState) (b : Bool),
      (loadPhase ns s true b).2.1 = true := by
  intro ns
  induction ns with
  | nil => intro s b; rfl
  | cons n rest ih =>
    intro s b
    rw [loadPhase]
    cases hf : findEntry s.registry n with
    | none => exact ih s b
    | some e =>
      cases hl : e.loaded with
      | true => simpa [hl] using ih s b
      | false =>
        cases hc : e.canLoad with
        | false => simpa [hl, hc] using ih s false
        | true =>
          simp only [hl, hc, Bool.not_false, if_true, if_pos]
          exact ih (load_plugin e s) false

theorem loadPhase_all_false :
    ∀ (ns : List String) (s : SchedState) (a : Bool),
      (loadPhase ns s a false).2.2 = false := by
  intro ns
  induction ns with
  | nil => intro s a; rfl
  | cons n rest ih =>
    intro s a
    rw [loadPhase]
    cases hf : findEntry s.registry n with
    | none => exact ih s a
    | some e =>
      cases hl : e.loaded with
      | true => simpa [hl] using ih s a
      | false =>
        cases hc : e.canLoad with
        | false => simpa [hl, hc] using ih s a
        | true =>
          simp only [hl, hc, Bool.not_false, if_true, if_pos]
          exact ih (load_plugin e s) true

theorem loadPhase_all_true :
    ∀ (ns : List String) (s : SchedState) (a b : Bool),
      (loadPhase ns s a b).2.2 = true →
      b = true ∧ (loadPhase ns s a b).1 = s ∧ (loadPhase ns s a b).2.1 = a ∧
        ∀ n ∈ ns, loadedName s.registry n := by
  intro ns
  induction ns with
  | nil =>
    intro s a b h
    exact ⟨h, rfl, rfl, by simp⟩
  | cons n rest ih =>
    intro s a b h
    cases hf : findEntry s.registry n with
    | none =>
      rw [loadPhase_cons_none rest a b hf] at h ⊢
      obtain ⟨hb, hs, ha, hall⟩ := ih s a b h
      refine ⟨hb, hs, ha, ?_⟩
      intro m hm
      rcases List.mem_cons.mp hm with hm | hm
      · subst hm; intro e he; rw [he] at hf; cases hf
      · exact hall m hm
    | some e =>
      cases hl : e.loaded with
      | true =>
        rw [loadPhase_cons_loaded rest a b hf hl] at h ⊢
        obtain ⟨hb, hs, ha, hall⟩ := ih s a b h
        refine ⟨hb, hs, ha, ?_⟩
        intro m hm
        rcases List.mem_cons.mp hm with hm | hm
        · subst hm
          intro e' he'
          rw [he'] at hf
          cases hf
          exact hl
        · exact hall m hm
      | false =>
        cases hc : e.canLoad with
        | true =>
          rw [loadPhase_cons_load rest a b hf hl hc] at h
          rw [loadPhase_all_false rest (load_plugin e s) true] at h
          cases h
        | false =>
          rw [loadPhase_cons_blocked rest a b hf hl hc] at h
          rw [loadPhase_all_false rest s a] at h
          cases h

/-! ### Counting unloaded entries -/

theorem unloadedCount_cons (e : PluginEntry) (rest : Registry) :
    unloadedCount (e :: rest) =
      (if e.loaded = true then 0 else 1) + unloadedCount rest := by
  cases hl : e.loaded <;> simp [unloadedCount, List.filter_cons, hl] <;> omega

theorem unloadedCount_congr_passView {pd pd' : Registry}
    (h : passViewOf pd = passViewOf pd') : unloadedCount pd = unloadedCount pd' := by
  induction pd generalizing pd' with
  | nil =>
    cases pd' with
    | nil => rfl
    | cons y rest' => simp [passViewOf] at h
  | cons e rest ih =>
    cases pd' with
    | nil => simp [passViewOf] at h
    | cons y rest' =>
      simp [passViewOf] at h
      obtain ⟨hxy, hrest⟩ := h
      have hl : e.loaded = y.loaded := by
        simpa [passView] using congrArg (fun p => p.2.2.2) hxy
      rw [unloadedCount_cons, unloadedCount_cons, hl,
        ih (by simpa [passViewOf] using hrest)]

theorem setLoaded_cons (e : PluginEntry) (rest : Registry) (t : String) :
    setLoaded (e :: rest) t =
      (if e.name = t then { e with loaded := true } else e) :: setLoaded rest t := rfl

theorem unloadedCount_setLoaded_le (pd : Registry) (t : String) :
    unloadedCount (setLoaded pd t) ≤ unloadedCount pd := by
  induction pd with
  | nil => exact Nat.le_refl _
  | cons e rest ih =>
    rw [setLoaded_cons, unloadedCount_cons, unloadedCount_cons]
    by_cases hn : e.name = t <;> cases hl : e.loaded <;> simp [hn, hl] <;> omega

theorem unloadedCount_setLoaded_lt {pd : Registry} {t : String} {e : PluginEntry}
    (hf : findEntry pd t = some e) (hl : e.loaded = false) :
    unloadedCount (setLoaded pd t) < unloadedCount pd := by
  induction pd with
  | nil => simp [findEntry] at hf
  | cons x rest ih =>
    rw [setLoaded_cons, unloadedCount_cons, unloadedCount_cons]
    by_cases hn : x.name = t
    · simp [findEntry, hn] at hf
      subst hf
      have := unloadedCount_setLoaded_le rest t
      simp [hn, hl]
      omega
    · simp [findEntry, hn] at hf
      have := ih hf
      simp [hn]
      omega

theorem loadPhase_count_le :
    ∀ (ns : List String) (s : SchedState) (a b : Bool),
      unloadedCount (loadPhase ns s a b).1.registry ≤ unloadedCount s.registry := by
  intro ns
  induction ns with
  | nil => intro s a b; exact Nat.le_refl _
  | cons n rest ih =>
    intro s a b
    cases hf : findEntry s.registry n with
    | none => rw [loadPhase_cons_none rest a b hf]; exact ih s a b
    | some e =>
      cases hl : e.loaded with
      | true => rw [loadPhase_cons_loaded rest a b hf hl]; exact ih s a b
      | false =>
        cases hc : e.canLoad with
        | false => rw [loadPhase_cons_blocked rest a b hf hl hc]; exact ih s a false
        | true =>
          rw [loadPhase_cons_load rest a b hf hl hc]
          have h1 := ih (load_plugin e s) true false
          have h2 : unloadedCount (load_plugin e s).registry ≤ unloadedCount s.registry := by
            have : (load_plugin e s).registry = setLoaded s.registry e.name := rfl
            rw [this]
            exact unloadedCount_setLoaded_le s.registry e.name
          exact Nat.le_trans h1 h2

theorem loadPhase_count_lt :
    ∀ (ns : List String) (s : SchedState) (b : Bool),
      (loadPhase ns s false b).2.1 = true →
      unloadedCount (loadPhase ns s false b).1.registry < unloadedCount s.registry := by
  intro ns
  induction ns with
  | nil => intro s b h; cases h
  | cons n rest ih =>
    intro s b h
    cases hf : findEntry s.registry n with
    | none =>
      rw [loadPhase_cons_none rest false b hf] at h ⊢
      exact ih s b h
    | some e =>
      cases hl : e.loaded with
      | true =>
        rw [loadPhase_cons_loaded rest false b hf hl] at h ⊢
        exact ih s b h
      | false =>
        cases hc : e.canLoad with
        | false =>
          rw [loadPhase_cons_blocked rest false b hf hl hc] at h ⊢
          exact ih s false h
        | true =>
          rw [loadPhase_cons_load rest false b hf hl hc]
          have h1 := loadPhase_count_le rest (load_plugin e s) true false
          have hfn : findEntry s.registry e.name = some e := by
            rw [findEntry_name_eq hf]
            exact hf
          have h2 : unloadedCount (load_plugin e s).registry < unloadedCount s.registry := by
            have : (load_plugin e s).registry = setLoaded s.registry e.name := rfl
            rw [this]
            exact unloadedCount_setLoaded_lt hfn hl
          exact Nat.lt_of_le_of_lt h1 h2

/-! ### Directive lists across a pass: only `executed` flips -/

theorem flipRel_refl (d : Directive) : flipRel d d := Or.inl rfl

theorem flipRel_trans {d d' d'' : Directive}
    (h1 : flipRel d d') (h2 : flipRel d' d'') : flipRel d d'' := by
  rcases h1 with h1 | ⟨hk1, he1, h1⟩
  · rw [h1] at h2; exact h2
  · rcases h2 with h2 | ⟨hk2, he2, h2⟩
    · rw [h2, h1]; exact Or.inr ⟨hk1, he1, rfl⟩
    · rw [h1] at he2; simp at he2

theorem flipRel_fields {d d' : Directive} (h : flipRel d d') :
    d'.directive = d.directive ∧ d'.module = d.module ∧ d'.method = d.method := by
  rcases h with h | ⟨_, _, h⟩ <;> rw [h] <;> exact ⟨rfl, rfl, rfl⟩

theorem forall₂_flip_refl (L : List Directive) : List.Forall₂ flipRel L L :=
  List.forall₂_same.mpr (fun d _ => flipRel_refl d)

theorem forall₂_flip_trans :
    ∀ {L1 L2 L3 : List Directive}, List.Forall₂ flipRel L1 L2 →
      List.Forall₂ flipRel L2 L3 → List.Forall₂ flipRel L1 L3 := by
  intro L1 L2 L3 h1
  induction h1 generalizing L3 with
  | nil => intro h2; exact h2
  | cons hd htl ih =>
    intro h2
    cases h2 with
    | cons hd2 htl2 => exact List.Forall₂.cons (flipRel_trans hd hd2) (ih htl2)

theorem forall₂_flip_mem {L L' : List Directive} {d : Directive}
    (hm : d ∈ L) (h : List.Forall₂ flipRel L L') :
    ∃ d' ∈ L', flipRel d d' := by
  induction h with
  | nil => simp at hm
  | cons hd htl ih =>
    rcases List.mem_cons.mp hm with hm | hm
    · subst hm; exact ⟨_, List.mem_cons_self _ _, hd⟩
    · obtain ⟨d', hd', hf⟩ := ih hm
      exact ⟨d', List.mem_cons_of_mem _ hd', hf⟩

theorem findEntry_congr_coreView {pd pd' : Registry}
    (h : coreView pd = coreView pd') (n : String) :
    (findEntry pd n).map dropCL = (findEntry pd' n).map dropCL := by
  induction pd generalizing pd' with
  | nil =>
    cases pd' with
    | nil => rfl
    | cons x rest => simp [coreView] at h
  | cons x rest ih =>
    cases pd' with
    | nil => simp [coreView] at h
    | cons y rest' =>
      simp [coreView] at h
      obtain ⟨hxy, hrest⟩ := h
      have hn : x.name = y.name := by
        simpa [dropCL] using congrArg Prod.fst hxy
      by_cases hx : x.name = n
      · simp [findEntry, hx, hn ▸ hx, hxy]
      · have hy : ¬ y.name = n := by rw [← hn]; exact hx
        simp [findEntry, hx, hy]
        exact ih (by simpa [coreView] using hrest)

theorem findEntry_coreView_some {pd pd' : Registry}
    (h : coreView pd = coreView pd') {n : String} {e : PluginEntry}
    (hf : findEntry pd n = some e) :
    ∃ e', findEntry pd' n = some e' ∧ dropCL e' = dropCL e := by
  have := findEntry_congr_coreView h n
  rw [hf] at this
  cases hfd : findEntry pd' n with
  | none => rw [hfd] at this; simp at this
  | some e' =>
    rw [hfd] at this
    simp at this
    exact ⟨e', rfl, this.symm⟩

theorem findEntry_setDirs_self {pd : Registry} {n : String} {e : PluginEntry}
    (hf : findEntry pd n = some e) (ds : List Directive) :
    findEntry (setDirs pd n ds) n = some { e with loadDirectives := ds } := by
  rw [findEntry_setDirs, hf]
  have hn : e.name = n := findEntry_name_eq hf
  simp [hn]

theorem findEntry_setDirs_other {pd : Registry} {n t : String} (hne : n ≠ t)
    (ds : List Directive) :
    findEntry (setDirs pd t ds) n = findEntry pd n := by
  rw [findEntry_setDirs]
  cases hf : findEntry pd n with
  | none => rfl
  | some e =>
    have hn : e.name = n := findEntry_name_eq hf
    simp [hn, hne]

theorem evalAll_dirs :
    ∀ {ns : List String} {s s' : SchedState},
      evalAllDirectives ns s = .ok s' →
      ∀ nm (e : PluginEntry), findEntry s.registry nm = some e →
        ∃ e', findEntry s'.registry nm = some e' ∧
          List.Forall₂ flipRel e.loadDirectives e'.loadDirectives := by
  intro ns
  induction ns with
  | nil =>
    intro s s' h nm e hf
    simp [evalAllDirectives] at h
    subst h
    exact ⟨e, hf, forall₂_flip_refl _⟩
  | cons n rest ih =>
    intro s s' h nm e hf
    rw [evalAllDirectives] at h
    cases hfe : findEntry s.registry n with
    | none => rw [hfe] at h; exact ih h nm e hf
    | some subj =>
      rw [hfe] at h
      simp only [] at h
      cases hfl : evalDirsFold subj.name subj.loaded subj.loadDirectives s with
      | error es => rw [hfl] at h; cases h
      | ok pr =>
        obtain ⟨ds', s1⟩ := pr
        rw [hfl] at h
        simp only [] at h
        obtain ⟨hcv1, _, _, _, hfa, _⟩ := evalDirsFold_ok hfl
        obtain ⟨e1, hfe1, hdc⟩ := findEntry_coreView_some hcv1.symm hf
        have hdirs : e1.loadDirectives = e.loadDirectives := by
          simpa [dropCL] using congrArg (fun p => p.2.2.2.2) hdc
        by_cases hnm : nm = n
        · subst hnm
          have hse : subj = e := Option.some.inj (hfe.symm.trans hf)
          have hf2 : findEntry (setDirs s1.registry nm ds') nm =
              some { e1 with loadDirectives := ds' } := findEntry_setDirs_self hfe1 ds'
          obtain ⟨e', hfe', hfa'⟩ := ih h nm { e1 with loadDirectives := ds' } hf2
          refine ⟨e', hfe', ?_⟩
          apply forall₂_flip_trans _ hfa'
          simp only []
          rw [← hse]
          exact hfa
        · have hf2 : findEntry (setDirs s1.registry n ds') nm = some e1 :=
            (findEntry_setDirs_other hnm ds').trans hfe1
          obtain ⟨e', hfe', hfa'⟩ := ih h nm e1 hf2
          refine ⟨e', hfe', ?_⟩
          rw [← hdirs]
          exact hfa'

theorem evalAll_dirs_err :
    ∀ {ns : List String} {s : SchedState} {e0 : ApplesError} {s' : SchedState},
      evalAllDirectives ns s = .error (e0, s') →
      ∀ nm (e : PluginEntry), findEntry s.registry nm = some e →
        ∃ e', findEntry s'.registry nm = some e' ∧
          List.Forall₂ flipRel e.loadDirectives e'.loadDirectives := by
  intro ns
  induction ns with
  | nil => intro s e0 s' h; simp [evalAllDirectives] at h
  | cons n rest ih =>
    intro s e0 s' h nm e hf
    rw [evalAllDirectives] at h
    cases hfe : findEntry s.registry n with
    | none => rw [hfe] at h; exact ih h nm e hf
    | some subj =>
      rw [hfe] at h
      simp only [] at h
      cases hfl : evalDirsFold subj.name subj.loaded subj.loadDirectives s with
      | error es =>
        rw [hfl] at h
        obtain ⟨ee, ss⟩ := es
        simp at h
        obtain ⟨hcv1, _, _, _, _⟩ := evalDirsFold_error hfl
        obtain ⟨e1, hfe1, hdc⟩ := findEntry_coreView_some hcv1.symm hf
        have hdirs : e1.loadDirectives = e.loadDirectives := by
          simpa [dropCL] using congrArg (fun p => p.2.2.2.2) hdc
        refine ⟨e1, by rw [← h.2]; exact hfe1, ?_⟩
        rw [hdirs]
        exact forall₂_flip_refl _
      | ok pr =>
        obtain ⟨ds', s1⟩ := pr
        rw [hfl] at h
        simp only [] at h
        obtain ⟨hcv1, _, _, _, hfa, _⟩ := evalDirsFold_ok hfl
        obtain ⟨e1, hfe1, hdc⟩ := findEntry_coreView_some hcv1.symm hf
        have hdirs : e1.loadDirectives = e.loadDirectives := by
          simpa [dropCL] using congrArg (fun p => p.2.2.2.2) hdc
        by_cases hnm : nm = n
        · subst hnm
          have hse : subj = e := Option.some.inj (hfe.symm.trans hf)
          have hf2 : findEntry (setDirs s1.registry nm ds') nm =
              some { e1 with loadDirectives := ds' } := findEntry_setDirs_self hfe1 ds'
          obtain ⟨e', hfe', hfa'⟩ := ih h nm { e1 with loadDirectives := ds' } hf2
          refine ⟨e', hfe', ?_⟩
          apply forall₂_flip_trans _ hfa'
          simp only []
          rw [← hse]
          exact hfa
        · have hf2 : findEntry (setDirs s1.registry n ds') nm = some e1 :=
            (findEntry_setDirs_other hnm ds').trans hfe1
          obtain ⟨e', hfe', hfa'⟩ := ih h nm e1 hf2
          refine ⟨e', hfe', ?_⟩
          rw [← hdirs]
          exact hfa'

/-! ### Error classification: `outOfFuel` is never produced by a cycle -/

theorem resolveScan_err (svc : String) :
    ∀ pd : Registry, (resolveScan svc pd).2 = none ∨
      (resolveScan svc pd).2 = some (ApplesError.keyError "service") := by
  intro pd
  induction pd with
  | nil => left; rfl
  | cons e rest ih =>
    cases hs : e.service with
    | none => right; simp [resolveScan, hs]
    | some sv =>
      by_cases hsv : sv = svc <;> simpa [resolveScan, hs, hsv] using ih

theorem resolve_err (r : String) (pd : Registry) :
    (resolve_plugin_name r pd).2 = none ∨
      (resolve_plugin_name r pd).2 = some (ApplesError.keyError "service") := by
  by_cases hw : isWildcardRef r
  · simpa [resolve_plugin_name, hw] using resolveScan_err (r.drop 1) pd
  · left; simp [resolve_plugin_name, hw]

theorem loadBeforeScan_err_ne {ℓ : Bool} {te : Option ApplesError}
    (hte : te ≠ some ApplesError.outOfFuel) :
    ∀ {ns : List String} {s : SchedState} {e : ApplesError} {s' : SchedState},
      loadBeforeScan ℓ te ns s = .error (e, s') → e ≠ ApplesError.outOfFuel := by
  intro ns
  induction ns with
  | nil =>
    intro s e s' h
    cases hto : te with
    | none => rw [hto] at h; simp [loadBeforeScan] at h
    | some e0 =>
      rw [hto] at h
      simp [loadBeforeScan] at h
      rw [← h.1]
      intro hc
      rw [hto, hc] at hte
      exact hte rfl
  | cons n rest ih =>
    intro s e s' h
    rw [loadBeforeScan] at h
    cases hf : findEntry s.registry n with
    | none => rw [hf] at h; simp at h; rw [← h.1]; intro hc; cases hc
    | some me => rw [hf] at h; exact ih h

theorem loadAfterScan_err_ne {sn : String} {te : Option ApplesError}
    (hte : te ≠ some ApplesError.outOfFuel) :
    ∀ {ns : List String} {s : SchedState} {e : ApplesError} {s' : SchedState},
      loadAfterScan sn te ns s = .error (e, s') → e ≠ ApplesError.outOfFuel := by
  intro ns
  induction ns with
  | nil =>
    intro s e s' h
    cases hto : te with
    | none => rw [hto] at h; simp [loadAfterScan] at h
    | some e0 =>
      rw [hto] at h
      simp [loadAfterScan] at h
      rw [← h.1]
      intro hc
      rw [hto, hc] at hte
      exact hte rfl
  | cons n rest ih =>
    intro s e s' h
    rw [loadAfterScan] at h
    cases hf : findEntry s.registry n with
    | none => rw [hf] at h; simp at h; rw [← h.1]; intro hc; cases hc
    | some me => rw [hf] at h; exact ih h

theorem loadDenyScan_err_ne {sn : String} {te : Option ApplesError}
    (hte : te ≠ some ApplesError.outOfFuel) :
    ∀ {ns : List String} {s : SchedState} {e : ApplesError} {s' : SchedState},
      loadDenyScan sn te ns s = .error (e, s') → e ≠ ApplesError.outOfFuel := by
  intro ns
  induction ns with
  | nil =>
    intro s e s' h
    cases hto : te with
    | none => rw [hto] at h; simp [loadDenyScan] at h
    | some e0 =>
      rw [hto] at h
      simp [loadDenyScan] at h
      rw [← h.1]
      intro hc
      rw [hto, hc] at hte
      exact hte rfl
  | cons n rest ih =>
    intro s e s' h
    rw [loadDenyScan] at h
    cases hf : findEntry s.registry n with
    | none => rw [hf] at h; simp at h; rw [← h.1]; intro hc; cases hc
    | some me =>
      rw [hf] at h
      by_cases hn : n = sn
      · simp only [hn, if_pos rfl] at h
        exact ih h
      · simp only [if_neg hn] at h
        simp at h
        rw [← h.1]
        intro hc
        cases hc

theorem runAfterLoadScan_err_ne {te : Option ApplesError}
    (hte : te ≠ some ApplesError.outOfFuel) :
    ∀ {ns : List String} {s : SchedState} {e : ApplesError} {s' : SchedState},
      runAfterLoadScan te ns s = .error (e, s') → e ≠ ApplesError.outOfFuel := by
  intro ns
  induction ns with
  | nil =>
    intro s e s' h
    cases hto : te with
    | none => rw [hto] at h; simp [runAfterLoadScan] at h
    | some e0 =>
      rw [hto] at h
      simp [runAfterLoadScan] at h
      rw [← h.1]
      intro hc
      rw [hto, hc] at hte
      exact hte rfl
  | cons n rest ih =>
    intro s e s' h
    rw [runAfterLoadScan] at h
    cases hf : findEntry s.registry n with
    | none => rw [hf] at h; simp at h; rw [← h.1]; intro hc; cases hc
    | some me =>
      rw [hf] at h
      cases hl : me.loaded with
      | false => simp [hl] at h
      | true => simp only [hl, Bool.not_true, Bool.false_eq_true, if_false] at h; exact ih h

theorem resolve_ne_fuel (r : String) (pd : Registry) :
    (resolve_plugin_name r pd).2 ≠ some ApplesError.outOfFuel := by
  rcases resolve_err r pd with h | h <;> rw [h] <;> intro hc <;> cases hc

theorem evalOneDirective_err_ne {d : Directive} {n : String} {ℓ : Bool}
    {s : SchedState} {e : ApplesError} {s' : SchedState}
    (h : evalOneDirective d n ℓ s = .error (e, s')) : e ≠ ApplesError.outOfFuel := by
  cases hd : d.directive with
  | loadBefore =>
    simp only [evalOneDirective, hd] at h
    cases hs : loadBeforeScan ℓ (resolve_plugin_name d.module s.registry).2
        (resolve_plugin_name d.module s.registry).1 s with
    | error es =>
      rw [hs] at h
      obtain ⟨e0, s0⟩ := es
      simp at h
      rw [← h.1]
      exact loadBeforeScan_err_ne (resolve_ne_fuel d.module s.registry) hs
    | ok s1 => rw [hs] at h; cases h
  | loadAfter =>
    simp only [evalOneDirective, hd] at h
    cases hs : loadAfterScan n (resolve_plugin_name d.module s.registry).2
        (resolve_plugin_name d.module s.registry).1 s with
    | error es =>
      rw [hs] at h
      obtain ⟨e0, s0⟩ := es
      simp at h
      rw [← h.1]
      exact loadAfterScan_err_ne (resolve_ne_fuel d.module s.registry) hs
    | ok s1 => rw [hs] at h; cases h
  | loadDeny =>
    simp only [evalOneDirective, hd] at h
    cases hs : loadDenyScan n (resolve_plugin_name d.module s.registry).2
        (resolve_plugin_name d.module s.registry).1 s with
    | error es =>
      rw [hs] at h
      obtain ⟨e0, s0⟩ := es
      simp at h
      rw [← h.1]
      exact loadDenyScan_err_ne (resolve_ne_fuel d.module s.registry) hs
    | ok s1 => rw [hs] at h; cases h
  | runAfterLoad =>
    simp only [evalOneDirective, hd] at h
    cases hx : d.executed with
    | true => rw [hx] at h; simp at h
    | false =>
      rw [hx] at h
      simp only [Bool.false_eq_true, if_false] at h
      cases hs : runAfterLoadScan (resolve_plugin_name d.module s.registry).2
          (resolve_plugin_name d.module s.registry).1 s with
      | error es =>
        rw [hs] at h
        obtain ⟨e0, s0⟩ := es
        simp at h
        rw [← h.1]
        exact runAfterLoadScan_err_ne (resolve_ne_fuel d.module s.registry) hs
      | ok b =>
        rw [hs] at h
        cases b with
        | false => simp at h
        | true => cases hℓ : ℓ <;> rw [hℓ] at h <;> simp at h

theorem evalDirsFold_err_ne {n : String} {ℓ : Bool} :
    ∀ {L : List Directive} {s : SchedState} {e : ApplesError} {s' : SchedState},
      evalDirsFold n ℓ L s = .error (e, s') → e ≠ ApplesError.outOfFuel := by
  intro L
  induction L with
  | nil => intro s e s' h; simp [evalDirsFold] at h
  | cons d ds ih =>
    intro s e s' h
    rw [evalDirsFold] at h
    cases hd : evalOneDirective d n ℓ s with
    | error es =>
      rw [hd] at h
      obtain ⟨e0, s0⟩ := es
      simp at h
      rw [← h.1]
      exact evalOneDirective_err_ne hd
    | ok pr =>
      obtain ⟨d1, s1⟩ := pr
      rw [hd] at h
      simp only [] at h
      cases hf : evalDirsFold n ℓ ds s1 with
      | error es2 =>
        rw [hf] at h
        obtain ⟨e0, s0⟩ := es2
        simp at h
        rw [← h.1]
        exact ih hf
      | ok pr2 => rw [hf] at h; cases h

theorem evalAllDirectives_err_ne :
    ∀ {ns : List String} {s : SchedState} {e : ApplesError} {s' : SchedState},
      evalAllDirectives ns s = .error (e, s') → e ≠ ApplesError.outOfFuel := by
  intro ns
  induction ns with
  | nil => intro s e s' h; simp [evalAllDirectives] at h
  | cons n rest ih =>
    intro s e s' h
    rw [evalAllDirectives] at h
    cases hf : findEntry s.registry n with
    | none => rw [hf] at h; exact ih h
    | some subj =>
      rw [hf] at h
      simp only [] at h
      cases hfl : evalDirsFold subj.name subj.loaded subj.loadDirectives s with
      | error es =>
        rw [hfl] at h
        obtain ⟨e0, s0⟩ := es
        simp at h
        rw [← h.1]
        exact evalDirsFold_err_ne hfl
      | ok pr =>
        obtain ⟨ds', s1⟩ := pr
        rw [hfl] at h
        simp only [] at h
        exact ih h

/-! ### One cycle of the scheduler -/

theorem runCycle_eq (s : SchedState) :
    runCycle s =
      match evalAllDirectives (namesOf (setCanLoadAll s.registry))
          { s with registry := setCanLoadAll s.registry, cycles := s.cycles + 1 } with
      | .error (e, s2) => CycleOutcome.failed e s2
      | .ok s2 =>
        match loadPhase (namesOf s2.registry) s2 false true with
        | (s3, anyL, allL) =>
          if allL then CycleOutcome.finished s3
          else if !anyL then CycleOutcome.failed ApplesError.directiveDeadlock s3
          else CycleOutcome.next s3 := rfl

theorem runCycle_failed_ne_fuel {s : SchedState} {e : ApplesError} {t : SchedState}
    (h : runCycle s = CycleOutcome.failed e t) : e ≠ ApplesError.outOfFuel := by
  rw [runCycle_eq] at h
  cases hp : evalAllDirectives (namesOf (setCanLoadAll s.registry))
      { s with registry := setCanLoadAll s.registry, cycles := s.cycles + 1 } with
  | error es =>
    rw [hp] at h
    obtain ⟨e0, s0⟩ := es
    simp at h
    rw [← h.1]
    exact evalAllDirectives_err_ne hp
  | ok s2 =>
    rw [hp] at h
    simp only [] at h
    cases hlp : loadPhase (namesOf s2.registry) s2 false true with
    | mk s3 fl =>
      obtain ⟨anyL, allL⟩ := fl
      rw [hlp] at h
      cases hall : allL with
      | true => rw [hall] at h; simp at h
      | false =>
        rw [hall] at h
        cases hany : anyL with
        | true => rw [hany] at h; simp at h
        | false =>
          rw [hany] at h
          simp at h
          rw [← h.1]
          intro hc
          cases hc

theorem runCycle_next_count {s s' : SchedState}
    (h : runCycle s = CycleOutcome.next s') :
    unloadedCount s'.registry < unloadedCount s.registry := by
  rw [runCycle_eq] at h
  cases hp : evalAllDirectives (namesOf (setCanLoadAll s.registry))
      { s with registry := setCanLoadAll s.registry, cycles := s.cycles + 1 } with
  | error es => rw [hp] at h; obtain ⟨e0, s0⟩ := es; simp at h
  | ok s2 =>
    rw [hp] at h
    simp only [] at h
    cases hlp : loadPhase (namesOf s2.registry) s2 false true with
    | mk s3 fl =>
      obtain ⟨anyL, allL⟩ := fl
      rw [hlp] at h
      cases hall : allL with
      | true => rw [hall] at h; simp at h
      | false =>
        rw [hall] at h
        cases hany : anyL with
        | false => rw [hany] at h; simp at h
        | true =>
          rw [hany] at h
          simp at h
          obtain ⟨hpv, _, _, _, _⟩ := evalAllDirectives_ok hp
          have hc2 : unloadedCount s2.registry = unloadedCount s.registry := by
            apply unloadedCount_congr_passView
            exact hpv.trans (passViewOf_setCanLoadAll s.registry)
          have hlt : unloadedCount s3.registry < unloadedCount s2.registry := by
            have := loadPhase_count_lt (namesOf s2.registry) s2 true
            rw [hlp] at this
            exact this hany
          rw [← h, ← hc2]
          exact hlt

theorem load_plugins_loop_ne_fuel :
    ∀ (fuel : Nat) (s s' : SchedState), unloadedCount s.registry < fuel →
      load_plugins_loop fuel s ≠ .error (ApplesError.outOfFuel, s') := by
  intro fuel
  induction fuel with
  | zero => intro s s' hc; omega
  | succ f ih =>
    intro s s' hc h
    rw [load_plugins_loop] at h
    cases hr : runCycle s with
    | finished t => rw [hr] at h; cases h
    | failed e t =>
      rw [hr] at h
      simp at h
      exact runCycle_failed_ne_fuel hr h.1
    | next t =>
      rw [hr] at h
      have hlt := runCycle_next_count hr
      exact ih t s' (by omega) h

theorem load_plugins_ne_fuel (pd : Registry) (s' : SchedState) :
    load_plugins pd ≠ .error (ApplesError.outOfFuel, s') := by
  rw [load_plugins]
  exact load_plugins_loop_ne_fuel _ _ s' (Nat.lt_succ_self _)

theorem LOinv_congr {s s' : SchedState}
    (hpv : passViewOf s'.registry = passViewOf s.registry)
    (hlo : s'.loadOrder = s.loadOrder) (h : LOinv s) : LOinv s' := by
  obtain ⟨hnd, hmem, hld, hcv⟩ := h
  refine ⟨by rw [hlo]; exact hnd, ?_, ?_, ?_⟩
  · intro nm hnm
    rw [hlo] at hnm
    rw [namesOf_of_passView hpv]
    exact hmem nm hnm
  · intro nm hnm
    rw [hlo] at hnm
    rw [loadedName_congr_passView hpv]
    exact hld nm hnm
  · intro nm hnm hln
    rw [namesOf_of_passView hpv] at hnm
    rw [loadedName_congr_passView hpv] at hln
    rw [hlo]
    exact hcv nm hnm hln

theorem findEntry_loadView_some {pd pd' : Registry}
    (h : loadView pd = loadView pd') {n : String} {e : PluginEntry}
    (hf : findEntry pd n = some e) :
    ∃ e', findEntry pd' n = some e' ∧ dropLoaded e' = dropLoaded e := by
  have := findEntry_congr_loadView h n
  rw [hf] at this
  cases hfd : findEntry pd' n with
  | none => rw [hfd] at this; simp at this
  | some e' =>
    rw [hfd] at this
    simp at this
    exact ⟨e', rfl, this.symm⟩

theorem runCycle_state_spec (s : SchedState) :
    (cycleStateOf (runCycle s)).cycles = s.cycles + 1 ∧
      namesOf (cycleStateOf (runCycle s)).registry = namesOf s.registry ∧
      (∀ nm, loadedName s.registry nm →
        loadedName (cycleStateOf (runCycle s)).registry nm) ∧
      (∃ δ, (cycleStateOf (runCycle s)).loadOrder = s.loadOrder ++ δ) ∧
      (∃ evts, (cycleStateOf (runCycle s)).hookCalls = s.hookCalls ++ evts) ∧
      (LOinv s → LOinv (cycleStateOf (runCycle s))) ∧
      (∀ nm e, findEntry s.registry nm = some e →
        ∃ e', findEntry (cycleStateOf (runCycle s)).registry nm = some e' ∧
          List.Forall₂ flipRel e.loadDirectives e'.loadDirectives) := by
  rw [runCycle_eq]
  have h1pv : passViewOf (setCanLoadAll s.registry) = passViewOf s.registry :=
    passViewOf_setCanLoadAll s.registry
  cases hp : evalAllDirectives (namesOf (setCanLoadAll s.registry))
      { s with registry := setCanLoadAll s.registry, cycles := s.cycles + 1 } with
  | error es =>
    obtain ⟨e0, s0⟩ := es
    simp only [cycleStateOf]
    obtain ⟨hpv, hlps, hlo, hcy, evts, hhk, _⟩ := evalAllDirectives_error hp
    have hpv2 : passViewOf s0.registry = passViewOf s.registry := hpv.trans h1pv
    refine ⟨by rw [hcy], by rw [namesOf_of_passView hpv2], ?_, ⟨[], by simp [hlo]⟩,
      ⟨evts, by simpa using hhk⟩, ?_, ?_⟩
    · intro nm h
      rw [loadedName_congr_passView hpv2]
      exact h
    · intro hLO
      apply LOinv_congr hpv2 (by simpa using hlo)
      exact hLO
    · intro nm e hf
      have hf1 : findEntry (setCanLoadAll s.registry) nm = some { e with canLoad := true } := by
        rw [findEntry_setCanLoadAll, hf]; rfl
      obtain ⟨e', hfe', hfa⟩ := evalAll_dirs_err hp nm _ hf1
      exact ⟨e', hfe', hfa⟩
  | ok s2 =>
    simp only []
    obtain ⟨hpv, hlps, hlo, hcy, evts, hhk, _⟩ := evalAllDirectives_ok hp
    have hpv2 : passViewOf s2.registry = passViewOf s.registry := hpv.trans h1pv
    cases hlp : loadPhase (namesOf s2.registry) s2 false true with
    | mk s3 fl =>
      obtain ⟨anyL, allL⟩ := fl
      have h3lv : loadView s3.registry = loadView s2.registry := by
        have := loadPhase_registry_loadView (namesOf s2.registry) s2 false true
        rw [hlp] at this
        exact this
      have h3hk : s3.hookCalls = s2.hookCalls ∧ s3.cycles = s2.cycles := by
        have := loadPhase_hookCalls (namesOf s2.registry) s2 false true
        rw [hlp] at this
        exact this
      have h3lo : ∃ δ, s3.loadOrder = s2.loadOrder ++ δ := by
        have := loadPhase_loadOrder_prefix (namesOf s2.registry) s2 false true
        rw [hlp] at this
        exact this
      have h3mono : ∀ nm, loadedName s2.registry nm → loadedName s3.registry nm := by
        intro nm h
        have := loadPhase_loadedName_mono (namesOf s2.registry) s2 false true nm h
        rw [hlp] at this
        exact this
      have h3LO : LOinv s2 → LOinv s3 := by
        intro h
        have := loadPhase_LOinv (namesOf s2.registry) s2 false true h
        rw [hlp] at this
        exact this
      have hbundle : s3.cycles = s.cycles + 1 ∧
          namesOf s3.registry = namesOf s.registry ∧
          (∀ nm, loadedName s.registry nm → loadedName s3.registry nm) ∧
          (∃ δ, s3.loadOrder = s.loadOrder ++ δ) ∧
          (∃ evts2, s3.hookCalls = s.hookCalls ++ evts2) ∧
          (LOinv s → LOinv s3) ∧
          (∀ nm e, findEntry s.registry nm = some e →
            ∃ e', findEntry s3.registry nm = some e' ∧
              List.Forall₂ flipRel e.loadDirectives e'.loadDirectives) := by
        refine ⟨by rw [h3hk.2, hcy], ?_, ?_, ?_, ?_, ?_, ?_⟩
        · rw [namesOf_of_loadView h3lv, namesOf_of_passView hpv2]
        · intro nm h
          apply h3mono
          rw [loadedName_congr_passView hpv2]
          exact h
        · obtain ⟨δ, hδ⟩ := h3lo
          exact ⟨δ, by rw [hδ, hlo]⟩
        · exact ⟨evts, by rw [h3hk.1]; simpa using hhk⟩
        · intro hLO
          apply h3LO
          apply LOinv_congr hpv2 (by simpa using hlo)
          exact hLO
        · intro nm e hf
          have hf1 : findEntry (setCanLoadAll s.registry) nm =
              some { e with canLoad := true } := by
            rw [findEntry_setCanLoadAll, hf]; rfl
          obtain ⟨e2, hfe2, hfa2⟩ := evalAll_dirs hp nm _ hf1
          obtain ⟨e3, hfe3, hdc3⟩ := findEntry_loadView_some h3lv.symm hfe2
          have : e3.loadDirectives = e2.loadDirectives := by
            simpa [dropLoaded] using congrArg (fun p => p.2.2.2.2) hdc3
          exact ⟨e3, hfe3, by rw [this]; exact hfa2⟩
      cases hall : allL with
      | true => simpa [cycleStateOf] using hbundle
      | false =>
        cases hany : anyL with
        | true => simpa [cycleStateOf] using hbundle
        | false => simpa [cycleStateOf] using hbundle

/-! ### A cleared `can-load` flag stays cleared for the rest of the pass -/

theorem clFalse_clearCanLoad {pd : Registry} {nm : String} (t : String)
    (h : clFalse pd nm) : clFalse (clearCanLoad pd t) nm := by
  intro e he
  rw [findEntry_clearCanLoad] at he
  cases hfd : findEntry pd nm with
  | none => rw [hfd] at he; simp at he
  | some e0 =>
    rw [hfd] at he
    simp at he
    have := h e0 hfd
    rw [← he]
    by_cases hb : e0.name = t <;> simp [hb, this]

theorem clFalse_clearCanLoad_self (pd : Registry) (t : String) :
    clFalse (clearCanLoad pd t) t := by
  intro e he
  rw [findEntry_clearCanLoad] at he
  cases hfd : findEntry pd t with
  | none => rw [hfd] at he; simp at he
  | some e0 =>
    rw [hfd] at he
    simp at he
    have hn : e0.name = t := findEntry_name_eq hfd
    rw [← he, if_pos hn]

theorem clFalse_setDirs {pd : Registry} {nm : String} (t : String)
    (ds : List Directive) (h : clFalse pd nm) : clFalse (setDirs pd t ds) nm := by
  intro e he
  rw [findEntry_setDirs] at he
  cases hfd : findEntry pd nm with
  | none => rw [hfd] at he; simp at he
  | some e0 =>
    rw [hfd] at he
    simp at he
    have := h e0 hfd
    rw [← he]
    by_cases hb : e0.name = t <;> simp [hb, this]

theorem loadBeforeScan_clFalse {ℓ : Bool} {te : Option ApplesError} :
    ∀ {ns : List String} {s s' : SchedState},
      loadBeforeScan ℓ te ns s = .ok s' →
      ∀ nm, clFalse s.registry nm → clFalse s'.registry nm := by
  intro ns
  induction ns with
  | nil =>
    intro s s' h nm hc
    cases hto : te with
    | none => rw [hto] at h; simp [loadBeforeScan] at h; rw [← h]; exact hc
    | some e0 => rw [hto] at h; simp [loadBeforeScan] at h
  | cons n rest ih =>
    intro s s' h nm hc
    cases hf : findEntry s.registry n with
    | none => rw [loadBeforeScan, hf] at h; cases h
    | some me =>
      have hstep : loadBeforeScan ℓ te (n :: rest) s =
          loadBeforeScan ℓ te rest
            (if !ℓ then { s with registry := clearCanLoad s.registry n } else s) := by
        rw [loadBeforeScan, hf]
      rw [hstep] at h
      cases ℓ with
      | false =>
        simp only [Bool.not_false, if_true] at h
        exact ih h nm (clFalse_clearCanLoad n hc)
      | true =>
        simp only [Bool.not_true, Bool.false_eq_true, if_false] at h
        exact ih h nm hc

theorem loadAfterScan_clFalse {sn : String} {te : Option ApplesError} :
    ∀ {ns : List String} {s s' : SchedState},
      loadAfterScan sn te ns s = .ok s' →
      ∀ nm, clFalse s.registry nm → clFalse s'.registry nm := by
  intro ns
  induction ns with
  | nil =>
    intro s s' h nm hc
    cases hto : te with
    | none => rw [hto] at h; simp [loadAfterScan] at h; rw [← h]; exact hc
    | some e0 => rw [hto] at h; simp [loadAfterScan] at h
  | cons n rest ih =>
    intro s s' h nm hc
    cases hf : findEntry s.registry n with
    | none => rw [loadAfterScan, hf] at h; cases h
    | some me =>
      have hstep : loadAfterScan sn te (n :: rest) s =
          loadAfterScan sn te rest
            (if !me.loaded then { s with registry := clearCanLoad s.registry sn } else s) := by
        rw [loadAfterScan, hf]
      rw [hstep] at h
      cases hml : me.loaded with
      | false =>
        simp only [hml, Bool.not_false, if_true] at h
        exact ih h nm (clFalse_clearCanLoad sn hc)
      | true =>
        simp only [hml, Bool.not_true, Bool.false_eq_true, if_false] at h
        exact ih h nm hc

theorem loadDenyScan_ok_state {sn : String} {te : Option ApplesError} :
    ∀ {ns : List String} {s s' : SchedState},
      loadDenyScan sn te ns s = .ok s' → s' = s := by
  intro ns
  induction ns with
  | nil =>
    intro s s' h
    cases hto : te with
    | none => rw [hto] at h; simp [loadDenyScan] at h; rw [h]
    | some e0 => rw [hto] at h; simp [loadDenyScan] at h
  | cons n rest ih =>
    intro s s' h
    rw [loadDenyScan] at h
    cases hf : findEntry s.registry n with
    | none => rw [hf] at h; cases h
    | some me =>
      rw [hf] at h
      by_cases hn : n = sn
      · simp only [hn, if_pos rfl] at h
        exact ih h
      · simp only [if_neg hn, hf] at h
        simp at h

theorem evalOneDirective_clFalse {d : Directive} {n : String} {ℓ : Bool}
    {s : SchedState} {d' : Directive} {s' : SchedState}
    (h : evalOneDirective d n ℓ s = .ok (d', s')) :
    ∀ nm, clFalse s.registry nm → clFalse s'.registry nm := by
  intro nm hc
  cases hd : d.directive with
  | loadBefore =>
    simp only [evalOneDirective, hd] at h
    cases hs : loadBeforeScan ℓ (resolve_plugin_name d.module s.registry).2
        (resolve_plugin_name d.module s.registry).1 s with
    | error es => rw [hs] at h; cases h
    | ok s1 =>
      rw [hs] at h
      simp at h
      rw [← h.2]
      exact loadBeforeScan_clFalse hs nm hc
  | loadAfter =>
    simp only [evalOneDirective, hd] at h
    cases hs : loadAfterScan n (resolve_plugin_name d.module s.registry).2
        (resolve_plugin_name d.module s.registry).1 s with
    | error es => rw [hs] at h; cases h
    | ok s1 =>
      rw [hs] at h
      simp at h
      rw [← h.2]
      exact loadAfterScan_clFalse hs nm hc
  | loadDeny =>
    simp only [evalOneDirective, hd] at h
    cases hs : loadDenyScan n (resolve_plugin_name d.module s.registry).2
        (resolve_plugin_name d.module s.registry).1 s with
    | error es => rw [hs] at h; cases h
    | ok s1 =>
      rw [hs] at h
      simp at h
      rw [← h.2, loadDenyScan_ok_state hs]
      exact hc
  | runAfterLoad =>
    simp only [evalOneDirective, hd] at h
    cases hx : d.executed with
    | true => rw [hx] at h; simp at h; rw [← h.2]; exact hc
    | false =>
      rw [hx] at h
      simp only [Bool.false_eq_true, if_false] at h
      cases hs : runAfterLoadScan (resolve_plugin_name d.module s.registry).2
          (resolve_plugin_name d.module s.registry).1 s with
      | error es => rw [hs] at h; cases h
      | ok b =>
        rw [hs] at h
        cases b with
        | false => simp at h; rw [← h.2]; exact hc
        | true =>
          cases hℓ : ℓ with
          | false => rw [hℓ] at h; simp at h; rw [← h.2]; exact hc
          | true => rw [hℓ] at h; simp at h; rw [← h.2]; exact hc

theorem evalDirsFold_clFalse {n : String} {ℓ : Bool} :
    ∀ {L : List Directive} {s : SchedState} {L' : List Directive} {s' : SchedState},
      evalDirsFold n ℓ L s = .ok (L', s') →
      ∀ nm, clFalse s.registry nm → clFalse s'.registry nm := by
  intro L
  induction L with
  | nil =>
    intro s L' s' h nm hc
    simp [evalDirsFold] at h
    rw [← h.2]
    exact hc
  | cons d ds ih =>
    intro s L' s' h nm hc
    rw [evalDirsFold] at h
    cases hd : evalOneDirective d n ℓ s with
    | error es => rw [hd] at h; cases h
    | ok pr =>
      obtain ⟨d1, s1⟩ := pr
      rw [hd] at h
      simp only [] at h
      cases hf : evalDirsFold n ℓ ds s1 with
      | error es => rw [hf] at h; cases h
      | ok pr2 =>
        obtain ⟨ds2, s2⟩ := pr2
        rw [hf] at h
        simp at h
        rw [← h.2]
        exact ih hf nm (evalOneDirective_clFalse hd nm hc)

theorem evalAllDirectives_clFalse :
    ∀ {ns : List String} {s s' : SchedState},
      evalAllDirectives ns s = .ok s' →
      ∀ nm, clFalse s.registry nm → clFalse s'.registry nm := by
  intro ns
  induction ns with
  | nil =>
    intro s s' h nm hc
    simp [evalAllDirectives] at h
    rw [← h]
    exact hc
  | cons n rest ih =>
    intro s s' h nm hc
    rw [evalAllDirectives] at h
    cases hf : findEntry s.registry n with
    | none => rw [hf] at h; exact ih h nm hc
    | some subj =>
      rw [hf] at h
      simp only [] at h
      cases hfl : evalDirsFold subj.name subj.loaded subj.loadDirectives s with
      | error es => rw [hfl] at h; cases h
      | ok pr =>
        obtain ⟨ds', s1⟩ := pr
        rw [hfl] at h
        simp only [] at h
        apply ih h nm
        show clFalse (setDirs s1.registry n ds') nm
        exact clFalse_setDirs n ds' (evalDirsFold_clFalse hfl nm hc)

/-! ### A `load-after` directive blocks its subject while the object is unloaded -/

theorem evalOne_loadAfter_est {d : Directive} {n bRef : String} {ℓ : Bool}
    {s : SchedState} {d' : Directive} {s' : SchedState}
    (hd : d.directive = DirKind.loadAfter) (hm : d.module = bRef)
    (hw : ¬ isWildcardRef bRef)
    (h : evalOneDirective d n ℓ s = .ok (d', s')) :
    clFalse s'.registry n ∨ loadedName s.registry bRef := by
  simp only [evalOneDirective, hd] at h
  have hr1 : (resolve_plugin_name d.module s.registry).1 = [bRef] := by
    simp [resolve_plugin_name, hm, hw]
  have hr2 : (resolve_plugin_name d.module s.registry).2 = none := by
    simp [resolve_plugin_name, hm, hw]
  rw [hr1, hr2] at h
  cases hf : findEntry s.registry bRef with
  | none =>
    have hscan : loadAfterScan n none [bRef] s =
        .error (ApplesError.keyError bRef, s) := by
      rw [loadAfterScan, hf]
    rw [hscan] at h
    cases h
  | some me =>
    cases hml : me.loaded with
    | false =>
      have hscan : loadAfterScan n none [bRef] s =
          .ok { s with registry := clearCanLoad s.registry n } := by
        rw [loadAfterScan, hf]
        simp [loadAfterScan, hml]
      rw [hscan] at h
      simp at h
      left
      rw [← h.2]
      exact clFalse_clearCanLoad_self s.registry n
    | true =>
      right
      intro e he
      rw [he] at hf
      injection hf with hf
      rw [← hf] at hml
      exact hml

theorem evalDirsFold_loadAfter_est {n bRef : String} {ℓ : Bool} :
    ∀ {L : List Directive} {s : SchedState} {L' : List Directive} {s' : SchedState}
      {d : Directive}, d ∈ L →
      d.directive = DirKind.loadAfter → d.module = bRef → ¬ isWildcardRef bRef →
      evalDirsFold n ℓ L s = .ok (L', s') →
      clFalse s'.registry n ∨ loadedName s.registry bRef := by
  intro L
  induction L with
  | nil => intro s L' s' d hm; simp at hm
  | cons d0 ds ih =>
    intro s L' s' d hm hkind hmod hw h
    rw [evalDirsFold] at h
    cases hd : evalOneDirective d0 n ℓ s with
    | error es => rw [hd] at h; cases h
    | ok pr =>
      obtain ⟨d1, s1⟩ := pr
      rw [hd] at h
      simp only [] at h
      cases hf : evalDirsFold n ℓ ds s1 with
      | error es => rw [hf] at h; cases h
      | ok pr2 =>
        obtain ⟨ds2, s2⟩ := pr2
        rw [hf] at h
        simp at h
        have hcv1 : coreView s1.registry = coreView s.registry := by
          rcases evalOneDirective_ok hd with ⟨_, hcl⟩ | ⟨_, _, _, _, hcv, _⟩
          · exact hcl.1
          · exact hcv
        rcases List.mem_cons.mp hm with hm0 | hm0
        · subst hm0
          rcases evalOne_loadAfter_est hkind hmod hw hd with hcl | hld
          · left
            rw [← h.2]
            exact evalDirsFold_clFalse hf n hcl
          · right; exact hld
        · rcases ih hm0 hkind hmod hw hf with hcl | hld
          · left; rw [← h.2]; exact hcl
          · right
            exact (passView_of_coreView_iff hcv1 bRef).mp hld

theorem evalAll_loadAfter_est {a bRef : String} :
    ∀ {ns : List String} {s s' : SchedState},
      evalAllDirectives ns s = .ok s' →
      hasAfterDir s.registry a bRef → a ∈ ns → ¬ isWildcardRef bRef →
      clFalse s'.registry a ∨ loadedName s.registry bRef := by
  intro ns
  induction ns with
  | nil => intro s s' h hDir hmem; simp at hmem
  | cons n rest ih =>
    intro s s' h hDir hmem hw
    rw [evalAllDirectives] at h
    cases hf : findEntry s.registry n with
    | none =>
      rw [hf] at h
      by_cases hna : n = a
      · obtain ⟨e, hfe, _⟩ := hDir
        rw [hna, hfe] at hf
        cases hf
      · have hmem' : a ∈ rest := by
          rcases List.mem_cons.mp hmem with hx | hx
          · exact absurd hx.symm hna
          · exact hx
        exact ih h hDir hmem' hw
    | some subj =>
      rw [hf] at h
      simp only [] at h
      cases hfl : evalDirsFold subj.name subj.loaded subj.loadDirectives s with
      | error es => rw [hfl] at h; cases h
      | ok pr =>
        obtain ⟨ds', s1⟩ := pr
        rw [hfl] at h
        simp only [] at h
        obtain ⟨hcv1, _, _, _, _, _⟩ := evalDirsFold_ok hfl
        by_cases hna : n = a
        · subst hna
          obtain ⟨e, hfe, d, hdm, hkind, hmod⟩ := hDir
          have hse : subj = e := Option.some.inj (hf.symm.trans hfe)
          have hname : subj.name = n := findEntry_name_eq hf
          rcases evalDirsFold_loadAfter_est (d := d) (by rw [hse]; exact hdm)
            hkind hmod hw hfl with hcl | hld
          · left
            rw [hname] at hcl
            exact evalAllDirectives_clFalse h n (clFalse_setDirs n ds' hcl)
          · right
            exact hld
        · have hmem' : a ∈ rest := by
            rcases List.mem_cons.mp hmem with hx | hx
            · exact absurd hx.symm hna
            · exact hx
          obtain ⟨e, hfe, d, hdm, hkind, hmod⟩ := hDir
          obtain ⟨e1, hfe1, hdc⟩ := findEntry_coreView_some hcv1.symm hfe
          have hdirs : e1.loadDirectives = e.loadDirectives := by
            simpa [dropCL] using congrArg (fun p => p.2.2.2.2) hdc
          have hDir2 : hasAfterDir (setDirs s1.registry n ds') a bRef := by
            refine ⟨e1, ?_, d, by rw [hdirs]; exact hdm, hkind, hmod⟩
            rw [findEntry_setDirs_other (fun hh => hna hh.symm)]
            exact hfe1
          rcases ih h hDir2 hmem' hw with hcl | hld
          · left; exact hcl
          · right
            have hpv : passViewOf (setDirs s1.registry n ds') = passViewOf s.registry :=
              (passViewOf_setDirs s1.registry n ds').trans (passView_of_coreView hcv1)
            exact (loadedName_congr_passView hpv bRef).mp hld

/-! ### Blocked entries stay unloaded through the load phase -/

theorem clFalse_setLoaded {pd : Registry} {nm : String} (t : String)
    (h : clFalse pd nm) : clFalse (setLoaded pd t) nm := by
  intro e he
  rw [findEntry_setLoaded] at he
  cases hfd : findEntry pd nm with
  | none => rw [hfd] at he; simp at he
  | some e0 =>
    rw [hfd] at he
    simp at he
    have := h e0 hfd
    rw [← he]
    by_cases hb : e0.name = t <;> simp [hb, this]

theorem canLoadName_setLoaded {pd : Registry} {nm : String} (t : String) :
    canLoadName (setLoaded pd t) nm ↔ canLoadName pd nm := by
  constructor
  · intro h e he
    have hn : e.name = nm := findEntry_name_eq he
    have h2 := h (if e.name = t then { e with loaded := true } else e)
      (by rw [findEntry_setLoaded, he]; rfl)
    by_cases hb : e.name = t
    · simpa [hb] using h2
    · simpa [hb] using h2
  · intro h e he
    rw [findEntry_setLoaded] at he
    cases hfd : findEntry pd nm with
    | none => rw [hfd] at he; simp at he
    | some e0 =>
      rw [hfd] at he
      simp at he
      have := h e0 hfd
      rw [← he]
      by_cases hb : e0.name = t <;> simp [hb, this]

theorem notLoadedName_setLoaded_other {pd : Registry} {nm t : String}
    (hne : nm ≠ t) (h : notLoadedName pd nm) : notLoadedName (setLoaded pd t) nm := by
  intro e he
  rw [findEntry_setLoaded] at he
  cases hfd : findEntry pd nm with
  | none => rw [hfd] at he; simp at he
  | some e0 =>
    rw [hfd] at he
    simp at he
    have := h e0 hfd
    have hn : e0.name = nm := findEntry_name_eq hfd
    have hnt : ¬ e0.name = t := by rw [hn]; exact hne
    rw [← he]
    simp [hnt, this]

theorem loadPhase_blocked {nm : String} :
    ∀ (ns : List String) (s : SchedState) (x y : Bool),
      clFalse s.registry nm → notLoadedName s.registry nm →
      clFalse (loadPhase ns s x y).1.registry nm ∧
        notLoadedName (loadPhase ns s x y).1.registry nm ∧
        ∃ δ, (loadPhase ns s x y).1.loadOrder = s.loadOrder ++ δ ∧ nm ∉ δ := by
  intro ns
  induction ns with
  | nil => intro s x y hc hn; exact ⟨hc, hn, [], by simp [loadPhase], by simp⟩
  | cons n rest ih =>
    intro s x y hc hn
    cases hf : findEntry s.registry n with
    | none => rw [loadPhase_cons_none rest x y hf]; exact ih s x y hc hn
    | some e =>
      cases hl : e.loaded with
      | true => rw [loadPhase_cons_loaded rest x y hf hl]; exact ih s x y hc hn
      | false =>
        cases hcl : e.canLoad with
        | false => rw [loadPhase_cons_blocked rest x y hf hl hcl]; exact ih s x false hc hn
        | true =>
          rw [loadPhase_cons_load rest x y hf hl hcl]
          have hne : e.name ≠ nm := by
            intro hx
            have hfn : findEntry s.registry nm = some e := by
              rw [← hx, findEntry_name_eq hf]
              exact hf
            have := hc e hfn
            rw [hcl] at this
            cases this
          have hreg : (load_plugin e s).registry = setLoaded s.registry e.name := rfl
          have hlo : (load_plugin e s).loadOrder = s.loadOrder ++ [e.name] := rfl
          have hc2 : clFalse (load_plugin e s).registry nm := by
            rw [hreg]; exact clFalse_setLoaded e.name hc
          have hn2 : notLoadedName (load_plugin e s).registry nm := by
            rw [hreg]; exact notLoadedName_setLoaded_other (fun hx => hne hx.symm) hn
          obtain ⟨ha, hb, δ, hδ, hnm⟩ := ih (load_plugin e s) true false hc2 hn2
          refine ⟨ha, hb, e.name :: δ, ?_, ?_⟩
          · rw [hδ, hlo, List.append_assoc]
            rfl
          · intro hmem
            rcases List.mem_cons.mp hmem with hx | hx
            · exact hne hx.symm
            · exact hnm hx

theorem loadPhase_ordInv {a bRef : String} :
    ∀ (ns : List String) (s : SchedState) (x y : Bool),
      (canLoadName s.registry a → bRef ∈ s.loadOrder) →
      (a ∈ s.loadOrder → ∃ l1 l2, s.loadOrder = l1 ++ a :: l2 ∧ bRef ∈ l1) →
      a ∈ (loadPhase ns s x y).1.loadOrder →
      ∃ l1 l2, (loadPhase ns s x y).1.loadOrder = l1 ++ a :: l2 ∧ bRef ∈ l1 := by
  intro ns
  induction ns with
  | nil => intro s x y h1 h2 hmem; exact h2 hmem
  | cons n rest ih =>
    intro s x y h1 h2 hmem
    cases hf : findEntry s.registry n with
    | none =>
      rw [loadPhase_cons_none rest x y hf] at hmem ⊢
      exact ih s x y h1 h2 hmem
    | some e =>
      cases hl : e.loaded with
      | true =>
        rw [loadPhase_cons_loaded rest x y hf hl] at hmem ⊢
        exact ih s x y h1 h2 hmem
      | false =>
        cases hcl : e.canLoad with
        | false =>
          rw [loadPhase_cons_blocked rest x y hf hl hcl] at hmem ⊢
          exact ih s x false h1 h2 hmem
        | true =>
          rw [loadPhase_cons_load rest x y hf hl hcl] at hmem ⊢
          have hlo : (load_plugin e s).loadOrder = s.loadOrder ++ [e.name] := rfl
          have hreg : (load_plugin e s).registry = setLoaded s.registry e.name := rfl
          apply ih (load_plugin e s) true false
          · intro hc
            rw [hreg, canLoadName_setLoaded] at hc
            rw [hlo]
            exact List.mem_append.mpr (Or.inl (h1 hc))
          · intro hmem2
            rw [hlo] at hmem2 ⊢
            rcases List.mem_append.mp hmem2 with hx | hx
            · obtain ⟨l1, l2, hdec, hb⟩ := h2 hx
              exact ⟨l1, l2 ++ [e.name], by rw [hdec]; simp, hb⟩
            · have hxa : e.name = a := (List.mem_singleton.mp hx).symm
              have hcn : canLoadName s.registry a := by
                intro e' he'
                rw [← hxa, findEntry_name_eq hf] at he'
                rw [hf] at he'
                injection he' with he'
                rw [← he']
                exact hcl
              refine ⟨s.loadOrder, [], by rw [hxa], h1 hcn⟩
          · exact hmem

/-! ### Composing a cycle from its parts -/

theorem runCycle_ok_pass {s s2 : SchedState}
    (hp : evalAllDirectives (namesOf (setCanLoadAll s.registry))
      { s with registry := setCanLoadAll s.registry, cycles := s.cycles + 1 } = .ok s2) :
    runCycle s =
      match loadPhase (namesOf s2.registry) s2 false true with
      | (s3, anyL, allL) =>
        if allL then CycleOutcome.finished s3
        else if !anyL then CycleOutcome.failed ApplesError.directiveDeadlock s3
        else CycleOutcome.next s3 := by
  rw [runCycle_eq, hp]

theorem runCycle_of_parts {s s2 s3 : SchedState} {anyL allL : Bool}
    (hp : evalAllDirectives (namesOf (setCanLoadAll s.registry))
      { s with registry := setCanLoadAll s.registry, cycles := s.cycles + 1 } = .ok s2)
    (hlp : loadPhase (namesOf s2.registry) s2 false true = (s3, anyL, allL)) :
    runCycle s = if allL then CycleOutcome.finished s3
      else if !anyL then CycleOutcome.failed ApplesError.directiveDeadlock s3
      else CycleOutcome.next s3 := by
  rw [runCycle_ok_pass hp, hlp]

theorem runCycle_of_err {s s2 : SchedState} {e : ApplesError}
    (hp : evalAllDirectives (namesOf (setCanLoadAll s.registry))
      { s with registry := setCanLoadAll s.registry, cycles := s.cycles + 1 } =
        .error (e, s2)) :
    runCycle s = CycleOutcome.failed e s2 := by
  rw [runCycle_eq, hp]

theorem load_plugins_loop_next {fuel : Nat} {s s' : SchedState}
    (h : runCycle s = CycleOutcome.next s') :
    load_plugins_loop (fuel + 1) s = load_plugins_loop fuel s' := by
  rw [load_plugins_loop, h]

theorem load_plugins_loop_finished {fuel : Nat} {s s' : SchedState}
    (h : runCycle s = CycleOutcome.finished s') :
    load_plugins_loop (fuel + 1) s = .ok s' := by
  rw [load_plugins_loop, h]

theorem load_plugins_loop_failed {fuel : Nat} {s s' : SchedState} {e : ApplesError}
    (h : runCycle s = CycleOutcome.failed e s') :
    load_plugins_loop (fuel + 1) s = .error (e, s') := by
  rw [load_plugins_loop, h]

/-! ### Directive-free registries: the pass is the identity -/

theorem entry_setDirs_id {e : PluginEntry} (h : e.loadDirectives = []) :
    ({ e with loadDirectives := [] } : PluginEntry) = e := by
  cases e
  simp only at h
  simp [h]

theorem setDirs_nil {pd : Registry} {n : String}
    (h : ∀ e ∈ pd, e.loadDirectives = []) : setDirs pd n [] = pd := by
  induction pd with
  | nil => rfl
  | cons e rest ih =>
    show (if e.name = n then { e with loadDirectives := [] } else e) ::
      setDirs rest n [] = e :: rest
    rw [ih (fun x hx => h x (List.mem_cons_of_mem _ hx))]
    by_cases hn : e.name = n
    · rw [if_pos hn, entry_setDirs_id (h e (List.mem_cons_self _ _))]
    · rw [if_neg hn]

theorem evalAll_nil_dirs :
    ∀ {ns : List String} {s : SchedState},
      (∀ e ∈ s.registry, e.loadDirectives = []) →
      evalAllDirectives ns s = .ok s := by
  intro ns
  induction ns with
  | nil => intro s _; rfl
  | cons n rest ih =>
    intro s hdirs
    rw [evalAllDirectives]
    cases hf : findEntry s.registry n with
    | none => exact ih hdirs
    | some subj =>
      have h0 : subj.loadDirectives = [] := hdirs subj (findEntry_mem hf)
      show (match evalDirsFold subj.name subj.loaded subj.loadDirectives s with
          | Except.error es => Except.error es
          | Except.ok (ds', s') =>
            evalAllDirectives rest { s' with registry := setDirs s'.registry n ds' }) =
        Except.ok s
      rw [h0, show evalDirsFold subj.name subj.loaded [] s = Except.ok ([], s) from rfl]
      show evalAllDirectives rest { s with registry := setDirs s.registry n [] } =
        Except.ok s
      rw [setDirs_nil hdirs]
      show evalAllDirectives rest s = Except.ok s
      exact ih hdirs

theorem loadPhase_all_loaded_id :
    ∀ (ns : List String) (s : SchedState) (x y : Bool),
      (∀ n ∈ ns, loadedName s.registry n) →
      loadPhase ns s x y = (s, x, y) := by
  intro ns
  induction ns with
  | nil => intro s x y _; rfl
  | cons n rest ih =>
    intro s x y h
    cases hf : findEntry s.registry n with
    | none =>
      rw [loadPhase_cons_none rest x y hf]
      exact ih s x y (fun m hm => h m (List.mem_cons_of_mem _ hm))
    | some e =>
      have hl : e.loaded = true := h n (List.mem_cons_self _ _) e hf
      rw [loadPhase_cons_loaded rest x y hf hl]
      exact ih s x y (fun m hm => h m (List.mem_cons_of_mem _ hm))

theorem loadPhase_loads_all {ns : List String} :
    ∀ (s : SchedState) (x y : Bool), ns.Nodup →
      (∀ n ∈ ns, ∃ e, findEntry s.registry n = some e ∧ e.loaded = false ∧
        e.canLoad = true) →
      (loadPhase ns s x y).1.loadOrder = s.loadOrder ++ ns ∧
        (∀ n ∈ ns, loadedName (loadPhase ns s x y).1.registry n) := by
  induction ns with
  | nil => intro s x y _ _; exact ⟨by simp [loadPhase], by simp⟩
  | cons n rest ih =>
    intro s x y hnd helig
    obtain ⟨e, hf, hl, hc⟩ := helig n (List.mem_cons_self _ _)
    rw [loadPhase_cons_load rest x y hf hl hc]
    have hen : e.name = n := findEntry_name_eq hf
    have hreg : (load_plugin e s).registry = setLoaded s.registry e.name := rfl
    have hlo : (load_plugin e s).loadOrder = s.loadOrder ++ [e.name] := rfl
    have hnd' : rest.Nodup := (List.nodup_cons.mp hnd).2
    have hnmem : n ∉ rest := (List.nodup_cons.mp hnd).1
    have helig' : ∀ m ∈ rest, ∃ e', findEntry (load_plugin e s).registry m = some e' ∧
        e'.loaded = false ∧ e'.canLoad = true := by
      intro m hm
      obtain ⟨e', hf', hl', hc'⟩ := helig m (List.mem_cons_of_mem _ hm)
      refine ⟨e', ?_, hl', hc'⟩
      rw [hreg, findEntry_setLoaded, hf']
      have hm' : e'.name = m := findEntry_name_eq hf'
      have : ¬ e'.name = e.name := by
        rw [hm', hen]
        intro hx
        rw [hx] at hm
        exact hnmem hm
      simp [this]
    obtain ⟨ih1, ih2⟩ := ih (load_plugin e s) true false hnd' helig'
    constructor
    · rw [ih1, hlo, hen, List.append_assoc]
      rfl
    · intro m hm
      rcases List.mem_cons.mp hm with hm | hm
      · have : loadedName (load_plugin e s).registry m := by
          rw [hreg, hm, ← hen]
          exact loadedName_setLoaded_self s.registry e.name
        exact loadPhase_loadedName_mono rest (load_plugin e s) true false m this
      · exact ih2 m hm

theorem dirs_nil_of_loadView {pd pd' : Registry}
    (h : loadView pd = loadView pd') (hp : ∀ e ∈ pd', e.loadDirectives = []) :
    ∀ e ∈ pd, e.loadDirectives = [] := by
  have hmap : pd.map (fun e => e.loadDirectives) = pd'.map (fun e => e.loadDirectives) := by
    have : (loadView pd).map (fun p => p.2.2.2.2) =
        (loadView pd').map (fun p => p.2.2.2.2) := by rw [h]
    simpa [loadView, List.map_map, Function.comp_def, dropLoaded] using this
  intro e he
  have : e.loadDirectives ∈ pd'.map (fun e => e.loadDirectives) := by
    rw [← hmap]
    exact List.mem_map_of_mem _ he
  obtain ⟨e', he', heq⟩ := List.mem_map.mp this
  rw [← heq]
  exact hp e' he'

/-! ## The claims -/

/-- Claim C2: the specification states that the services mapping produced
by a successful run is keyed by service class, so that plugins sharing a
service class appear under one key.  The code is wrong on this point:
`_load_plugin` sets `plugin_service = plugin_entry["name"]`
(src/__init__.py:219), keying the mapping by plugin identity.  Two plugins
that share the explicit service class `"svc"` end up under the two keys
`"a"` and `"b"`, each with a singleton handle list, not under one `"svc"`
key with both handles. -/
theorem claim_C2 :
    (load_plugins [mkEntry "a" [] (some "svc"), mkEntry "b" [] (some "svc")]).toOption.map
        (fun s => s.lps.services) = some [("a", ["a"]), ("b", ["b"])] ∧
    (load_plugins [mkEntry "a" [] (some "svc"), mkEntry "b" [] (some "svc")]).toOption.map
        (fun s => s.lps.services) ≠ some [("svc", ["a", "b"])] := by
  constructor
  · rfl
  · intro h
    rw [show (load_plugins [mkEntry "a" [] (some "svc"),
        mkEntry "b" [] (some "svc")]).toOption.map (fun s => s.lps.services) =
      some [("a", ["a"]), ("b", ["b"])] from rfl] at h
    simp at h

/-- Claim C3: the specification states that a plugin's service class
defaults to its identity, so that a wildcard `$a` resolves to the plugin
named `a` even when its manifest declares no service class, and wildcard
resolution over such a registry does not fail.  The code is wrong on this
point: `_parse_apm_json_0_1_0` supplies no default for the `"service"` key
(src/__init__.py:99-105), and `_resolve_plugin_name` reads
`plugin_entry["service"]` unguarded (src/__init__.py:137), so resolving
`$a` over a registry whose only plugin `a` lacks the key raises
`KeyError("service")` and yields nothing. -/
theorem claim_C3 :
    (parse_apm_json_0_1_0 { name := "a" }).service = none ∧
    resolve_plugin_name "$a" [parse_apm_json_0_1_0 { name := "a" }] =
      ([], some (ApplesError.keyError "service")) ∧
    resolve_plugin_name "$a" [parse_apm_json_0_1_0 { name := "a" }] ≠ (["a"], none) := by
  refine ⟨rfl, rfl, ?_⟩
  intro h
  rw [show resolve_plugin_name "$a" [parse_apm_json_0_1_0 { name := "a" }] =
    ([], some (ApplesError.keyError "service")) from rfl] at h
  simp at h

/-- Claim C8 (counterexample): a directive-free one-plugin set loads the
plugin and succeeds, but the scheduler runs two cycles, not one — the loop
breaks only in a cycle that begins with everything already loaded, because
`loaded_all` is computed from the pre-load status of each entry
(src/__init__.py:250-252). -/
theorem claim_C8_counterexample :
    (load_plugins [mkEntry "a" []]).toOption.map (fun s => (s.loadOrder, s.cycles)) =
      some (["a"], 2) ∧
    (load_plugins [mkEntry "a" []]).toOption.map (fun s => s.cycles) ≠ some 1 := by
  constructor
  · rfl
  · intro h
    rw [show (load_plugins [mkEntry "a" []]).toOption.map (fun s => s.cycles) =
      some 2 from rfl] at h
    simp at h

/-- Claim C8 (amended): for every directive-free plugin set of size N,
`_load_plugins` loads all N plugins in the first cycle (the load order is
exactly the registration order) and terminates successfully — after
exactly two scheduler cycles when N ≥ 1 (the second is the idle
verification cycle that observes everything already loaded), and after
exactly one cycle when N = 0. -/
theorem claim_C8 (pd : Registry) (hnd : (namesOf pd).Nodup)
    (hd : ∀ e ∈ pd, e.loadDirectives = []) (hl : ∀ e ∈ pd, e.loaded = false) :
    ∃ s, load_plugins pd = .ok s ∧ s.loadOrder = namesOf pd ∧
      (pd = [] → s.cycles = 1) ∧ (pd ≠ [] → s.cycles = 2) := by
  cases pd with
  | nil =>
    refine ⟨_, rfl, rfl, fun _ => rfl, fun h => absurd rfl h⟩
  | cons p pr =>
    have hcount : 1 ≤ unloadedCount (p :: pr) := by
      rw [unloadedCount_cons, hl p (List.mem_cons_self _ _)]
      simp
    obtain ⟨k, hk⟩ : ∃ k, unloadedCount (p :: pr) + 1 = k + 2 :=
      ⟨unloadedCount (p :: pr) - 1, by omega⟩
    rw [load_plugins, hk]
    have hreg0 : (initSchedState (p :: pr)).registry = p :: pr := rfl
    have hdirs1 : ∀ e ∈ setCanLoadAll (p :: pr), e.loadDirectives = [] := by
      intro e he
      obtain ⟨e0, he0, heq⟩ := List.mem_map.mp he
      rw [← heq]
      exact hd e0 he0
    have hp1 : evalAllDirectives (namesOf (setCanLoadAll (p :: pr)))
        { initSchedState (p :: pr) with registry := setCanLoadAll (p :: pr), cycles := 0 + 1 } =
        .ok { initSchedState (p :: pr) with registry := setCanLoadAll (p :: pr), cycles := 0 + 1 } :=
      evalAll_nil_dirs hdirs1
    have hns : namesOf (setCanLoadAll (p :: pr)) = namesOf (p :: pr) :=
      namesOf_setCanLoadAll _
    have hnd1 : (namesOf (setCanLoadAll (p :: pr))).Nodup := by rw [hns]; exact hnd
    have helig : ∀ n ∈ namesOf (setCanLoadAll (p :: pr)),
        ∃ e, findEntry (setCanLoadAll (p :: pr)) n = some e ∧ e.loaded = false ∧
          e.canLoad = true := by
      intro n hn
      rw [hns] at hn
      cases hfe : findEntry (p :: pr) n with
      | none => rw [findEntry_eq_none_iff] at hfe; exact absurd hn hfe
      | some e0 =>
        refine ⟨{ e0 with canLoad := true }, ?_, ?_, rfl⟩
        · rw [findEntry_setCanLoadAll, hfe]; rfl
        · exact hl e0 (findEntry_mem hfe)
    set s1 : SchedState := { initSchedState (p :: pr) with registry := setCanLoadAll (p :: pr), cycles := 0 + 1 } with hs1
    obtain ⟨hord, hldd⟩ := @loadPhase_loads_all (namesOf s1.registry)
      s1 false true hnd1 helig
    cases hlp : loadPhase (namesOf s1.registry) s1 false true with
    | mk s2 fl =>
      obtain ⟨anyL, allL⟩ := fl
      rw [hlp] at hord hldd
      have hord2 : s2.loadOrder = namesOf (p :: pr) := by
        simpa [hs1, initSchedState, hns] using hord
      have hflags : anyL = true ∧ allL = false := by
        have hsplit : namesOf s1.registry = p.name :: namesOf pr := by
          show namesOf (setCanLoadAll (p :: pr)) = p.name :: namesOf pr
          rw [hns]
          rfl
        obtain ⟨e, hfe, hel, hec⟩ := helig p.name
          (by rw [hns]; exact List.mem_cons_self _ _)
        have hstep := loadPhase_cons_load (s := s1) (namesOf pr) false true hfe hel hec
        rw [hsplit, hstep] at hlp
        constructor
        · have := loadPhase_any_true (namesOf pr) (load_plugin e s1) false
          rw [hlp] at this
          exact this
        · have := loadPhase_all_false (namesOf pr) (load_plugin e s1) true
          rw [hlp] at this
          exact this
      have hcyc : runCycle (initSchedState (p :: pr)) = CycleOutcome.next s2 := by
        have := runCycle_of_parts (s := initSchedState (p :: pr)) hp1 hlp
        rw [hflags.1, hflags.2] at this
        simpa using this
      rw [show k + 2 = (k + 1) + 1 from rfl, load_plugins_loop_next hcyc]
      -- second cycle: everything is loaded, the pass is still a no-op
      have h2lv : loadView s2.registry = loadView s1.registry := by
        have := loadPhase_registry_loadView (namesOf s1.registry) s1 false true
        rw [hlp] at this
        exact this
      have h2names : namesOf s2.registry = namesOf (p :: pr) := by
        rw [namesOf_of_loadView h2lv]
        simpa [hs1] using hns
      have h2dirs : ∀ e ∈ s2.registry, e.loadDirectives = [] :=
        dirs_nil_of_loadView h2lv hdirs1
      have h2cyc : s2.cycles = 1 := by
        have := loadPhase_hookCalls (namesOf s1.registry) s1 false true
        rw [hlp] at this
        exact this.2
      have h2dirs' : ∀ e ∈ setCanLoadAll s2.registry, e.loadDirectives = [] := by
        intro e he
        obtain ⟨e0, he0, heq⟩ := List.mem_map.mp he
        rw [← heq]
        exact h2dirs e0 he0
      have hp2 : evalAllDirectives (namesOf (setCanLoadAll s2.registry))
          { s2 with registry := setCanLoadAll s2.registry, cycles := s2.cycles + 1 } =
          .ok { s2 with registry := setCanLoadAll s2.registry, cycles := s2.cycles + 1 } :=
        evalAll_nil_dirs h2dirs'
      have h2ld : ∀ n ∈ namesOf (setCanLoadAll s2.registry),
          loadedName (setCanLoadAll s2.registry) n := by
        intro n hn
        rw [namesOf_setCanLoadAll, h2names] at hn
        have h0 : loadedName s2.registry n := by
          apply hldd
          show n ∈ namesOf (setCanLoadAll (p :: pr))
          rw [hns]
          exact hn
        rw [loadedName_congr_passView (passViewOf_setCanLoadAll s2.registry) n]
        exact h0
      have hlp2 : loadPhase (namesOf ({ s2 with registry := setCanLoadAll s2.registry, cycles := s2.cycles + 1 } : SchedState).registry)
          { s2 with registry := setCanLoadAll s2.registry, cycles := s2.cycles + 1 } false true =
          ({ s2 with registry := setCanLoadAll s2.registry, cycles := s2.cycles + 1 }, false, true) :=
        loadPhase_all_loaded_id _ _ false true h2ld
      have hcyc2 : runCycle s2 = CycleOutcome.finished { s2 with registry := setCanLoadAll s2.registry, cycles := s2.cycles + 1 } := by
        have := runCycle_of_parts (s := s2) hp2 hlp2
        simpa using this
      rw [load_plugins_loop_finished hcyc2]
      refine ⟨_, rfl, ?_, ?_, ?_⟩
      · simpa using hord2
      · intro h; cases h
      · intro _
        simp [h2cyc]

/-- Witness for claim C8 at a concrete directive-free two-plugin set. -/
theorem claim_C8_witness :
    ∃ s, load_plugins [mkEntry "a" [], mkEntry "b" []] = .ok s ∧
      s.loadOrder = namesOf [mkEntry "a" [], mkEntry "b" []] ∧
      ([mkEntry "a" [], mkEntry "b" []] = ([] : Registry) → s.cycles = 1) ∧
      ([mkEntry "a" [], mkEntry "b" []] ≠ ([] : Registry) → s.cycles = 2) :=
  claim_C8 [mkEntry "a" [], mkEntry "b" []] (by decide) (by decide) (by decide)

/-! ### An ordering or deny directive with an unknown concrete reference -/

theorem evalOne_unknown_ref {d : Directive} {n : String} {ℓ : Bool} {s : SchedState}
    (hk : d.directive = DirKind.loadBefore ∨ d.directive = DirKind.loadAfter ∨
      d.directive = DirKind.loadDeny)
    (hw : ¬ isWildcardRef d.module) (hf : findEntry s.registry d.module = none) :
    evalOneDirective d n ℓ s = .error (ApplesError.keyError d.module, s) := by
  have hr1 : (resolve_plugin_name d.module s.registry).1 = [d.module] := by
    simp [resolve_plugin_name, hw]
  have hr2 : (resolve_plugin_name d.module s.registry).2 = none := by
    simp [resolve_plugin_name, hw]
  rcases hk with hk | hk | hk
  · simp only [evalOneDirective, hk]
    rw [hr1, hr2]
    rw [show loadBeforeScan ℓ none [d.module] s =
      .error (ApplesError.keyError d.module, s) from by rw [loadBeforeScan, hf]]
  · simp only [evalOneDirective, hk]
    rw [hr1, hr2]
    rw [show loadAfterScan n none [d.module] s =
      .error (ApplesError.keyError d.module, s) from by rw [loadAfterScan, hf]]
  · simp only [evalOneDirective, hk]
    rw [hr1, hr2]
    rw [show loadDenyScan n none [d.module] s =
      .error (ApplesError.keyError d.module, s) from by rw [loadDenyScan, hf]]

theorem evalDirsFold_ok_ref_present {n : String} {ℓ : Bool} :
    ∀ {L : List Directive} {s : SchedState} {L' : List Directive} {s' : SchedState},
      evalDirsFold n ℓ L s = .ok (L', s') →
      ∀ d ∈ L,
        (d.directive = DirKind.loadBefore ∨ d.directive = DirKind.loadAfter ∨
          d.directive = DirKind.loadDeny) →
        ¬ isWildcardRef d.module → (findEntry s.registry d.module).isSome = true := by
  intro L
  induction L with
  | nil => intro s L' s' h d hd; simp at hd
  | cons d0 ds ih =>
    intro s L' s' h d hd hk hw
    rw [evalDirsFold] at h
    cases hd0 : evalOneDirective d0 n ℓ s with
    | error es => rw [hd0] at h; cases h
    | ok pr =>
      obtain ⟨d1, s1⟩ := pr
      rw [hd0] at h
      simp only [] at h
      cases hfo : evalDirsFold n ℓ ds s1 with
      | error es => rw [hfo] at h; cases h
      | ok pr2 =>
        rcases List.mem_cons.mp hd with hd | hd
        · subst hd
          cases hfd : findEntry s.registry d.module with
          | some e0 => rfl
          | none =>
            rw [evalOne_unknown_ref hk hw hfd] at hd0
            exact Except.noConfusion hd0
        · have hcv : coreView s1.registry = coreView s.registry := by
            rcases evalOneDirective_ok hd0 with ⟨_, hcl⟩ | ⟨_, _, _, _, hcv, _⟩
            · exact hcl.1
            · exact hcv
          have hS1 := ih hfo d hd hk hw
          cases hfs : findEntry s1.registry d.module with
          | none => rw [hfs] at hS1; exact Bool.noConfusion hS1
          | some e2 =>
            obtain ⟨e1, hfe1, _⟩ := findEntry_coreView_some hcv hfs
            rw [hfe1]
            rfl

theorem evalAll_ok_ref_present :
    ∀ {ns : List String} {s s' : SchedState},
      evalAllDirectives ns s = .ok s' →
      ∀ n ∈ ns, ∀ subj, findEntry s.registry n = some subj →
      ∀ d ∈ subj.loadDirectives,
        (d.directive = DirKind.loadBefore ∨ d.directive = DirKind.loadAfter ∨
          d.directive = DirKind.loadDeny) →
        ¬ isWildcardRef d.module → (findEntry s.registry d.module).isSome = true := by
  intro ns
  induction ns with
  | nil => intro s s' h n hn; simp at hn
  | cons n0 rest ih =>
    intro s s' h n hn subj hfsub d hd hk hw
    rw [evalAllDirectives] at h
    cases hf0 : findEntry s.registry n0 with
    | none =>
      rw [hf0] at h
      rcases List.mem_cons.mp hn with hn | hn
      · rw [hn] at hfsub; rw [hfsub] at hf0; cases hf0
      · exact ih h n hn subj hfsub d hd hk hw
    | some subj0 =>
      rw [hf0] at h
      simp only [] at h
      cases hfl : evalDirsFold subj0.name subj0.loaded subj0.loadDirectives s with
      | error es => rw [hfl] at h; cases h
      | ok pr =>
        obtain ⟨ds', s1⟩ := pr
        rw [hfl] at h
        simp only [] at h
        by_cases hnn : n = n0
        · have hsame : subj = subj0 := by
            rw [hnn] at hfsub
            exact Option.some.inj (hfsub.symm.trans hf0)
          rw [hsame] at hd
          exact evalDirsFold_ok_ref_present hfl d hd hk hw
        · obtain ⟨hcv1, _, _, _, _, _⟩ := evalDirsFold_ok hfl
          obtain ⟨e1, hfe1, hdc⟩ := findEntry_coreView_some hcv1.symm hfsub
          have hdirs : e1.loadDirectives = subj.loadDirectives := by
            simpa [dropCL] using congrArg (fun p => p.2.2.2.2) hdc
          have hf2 : findEntry (setDirs s1.registry n0 ds') n = some e1 :=
            (findEntry_setDirs_other hnn ds').trans hfe1
          have hres := ih h n (by
            rcases List.mem_cons.mp hn with hx | hx
            · exact absurd hx hnn
            · exact hx) e1 hf2 d (by rw [hdirs]; exact hd) hk hw
          have hnames : namesOf (setDirs s1.registry n0 ds') = namesOf s.registry := by
            rw [namesOf_setDirs]
            exact namesOf_of_passView (passView_of_coreView hcv1)
          cases hfd : findEntry s.registry d.module with
          | some e0 => rfl
          | none =>
            rw [findEntry_eq_none_iff] at hfd
            cases hfs : findEntry (setDirs s1.registry n0 ds') d.module with
            | none => rw [hfs] at hres; cases hres
            | some e2 =>
              have : d.module ∈ namesOf (setDirs s1.registry n0 ds') :=
                findEntry_mem_namesOf hfs
              rw [hnames] at this
              exact absurd this hfd

/-- C10: a `load-before`, `load-after` or `load-deny` directive whose target
reference is a concrete identity (no `$` wildcard marker) absent from the
registry makes the evaluator raise a registry key-lookup error
(`KeyError`, src/__init__.py:148, 162 and 173) instead of no-opping or
raising a defined plugin condition; consequently `_load_plugins` crashes in
the first cycle, with no plugin loaded, whenever any registered plugin
declares such a directive. -/
theorem claim_C10 :
    (∀ (d : Directive) (n : String) (ℓ : Bool) (s : SchedState),
      (d.directive = DirKind.loadBefore ∨ d.directive = DirKind.loadAfter ∨
        d.directive = DirKind.loadDeny) →
      ¬ isWildcardRef d.module → findEntry s.registry d.module = none →
      evalOneDirective d n ℓ s = .error (ApplesError.keyError d.module, s)) ∧
    (∀ (pd : Registry) (n : String) (eA : PluginEntry) (d : Directive),
      findEntry pd n = some eA → d ∈ eA.loadDirectives →
      (d.directive = DirKind.loadBefore ∨ d.directive = DirKind.loadAfter ∨
        d.directive = DirKind.loadDeny) →
      ¬ isWildcardRef d.module → findEntry pd d.module = none →
      ∃ e st, load_plugins pd = .error (e, st) ∧ st.cycles = 1 ∧
        st.loadOrder = []) := by
  constructor
  · exact fun d n ℓ s hk hw hf => evalOne_unknown_ref hk hw hf
  · intro pd n eA d hfA hd hk hw hfm
    cases hp : evalAllDirectives (namesOf (setCanLoadAll pd)) { registry := setCanLoadAll pd, lps := { plugins := [], services := [], plugin_data := [] }, loadOrder := [], hookCalls := [], cycles := 1 } with
    | ok s2 =>
      exfalso
      have hn : n ∈ namesOf (setCanLoadAll pd) := by
        rw [namesOf_setCanLoadAll]
        exact findEntry_mem_namesOf hfA
      have hfsub : findEntry (setCanLoadAll pd) n =
          some { eA with canLoad := true } := by
        rw [findEntry_setCanLoadAll, hfA]; rfl
      have hpres := evalAll_ok_ref_present hp n hn { eA with canLoad := true }
        hfsub d hd hk hw
      have hnone : findEntry (setCanLoadAll pd) d.module = none := by
        rw [findEntry_setCanLoadAll, hfm]; rfl
      rw [hnone] at hpres
      exact Bool.noConfusion hpres
    | error es =>
      obtain ⟨e, s2⟩ := es
      have hrun : runCycle (initSchedState pd) = CycleOutcome.failed e s2 :=
        @runCycle_of_err (initSchedState pd) s2 e hp
      obtain ⟨_, _, hLO, hCy, _⟩ := evalAllDirectives_error hp
      refine ⟨e, s2, ?_, hCy.trans rfl, hLO.trans rfl⟩
      rw [load_plugins]
      exact @load_plugins_loop_failed (unloadedCount pd) (initSchedState pd) s2 e hrun

/-- Witness for claim C10 at a plugin whose `load-before` directive names the
unregistered identity `zz`. -/
theorem claim_C10_witness :
    ∃ e st,
      load_plugins [mkEntry "a" [⟨DirKind.loadBefore, "zz", "", false⟩]] =
        .error (e, st) ∧ st.cycles = 1 ∧ st.loadOrder = [] :=
  claim_C10.2 [mkEntry "a" [⟨DirKind.loadBefore, "zz", "", false⟩]] "a"
    (mkEntry "a" [⟨DirKind.loadBefore, "zz", "", false⟩])
    ⟨DirKind.loadBefore, "zz", "", false⟩
    (by decide) (by decide) (Or.inl rfl) (by decide) (by decide)

/-- C4: a pair of plugins that declare `load-after` on each other deadlocks:
`_load_plugins` raises the directive-deadlock condition and instantiates
neither plugin (the recorded load order is empty); in general, whenever a
cycle's load phase loads nothing (`loaded_any` false) while some plugin is
still unloaded (`loaded_all` false), the cycle — and with it the whole run —
aborts with the directive-deadlock condition (src/__init__.py:262-263). -/
theorem claim_C4 :
    (∀ (a b m₁ m₂ : String) (ex₁ ex₂ : Bool),
      a ≠ b → isWildcardRef a = false → isWildcardRef b = false →
      runObs (load_plugins
        [mkEntry a [⟨DirKind.loadAfter, b, m₁, ex₁⟩],
         mkEntry b [⟨DirKind.loadAfter, a, m₂, ex₂⟩]]) =
        (some ApplesError.directiveDeadlock, [])) ∧
    (∀ (fuel : Nat) (s s2 s3 : SchedState),
      evalAllDirectives (namesOf (setCanLoadAll s.registry))
          { s with registry := setCanLoadAll s.registry, cycles := s.cycles + 1 } =
        .ok s2 →
      loadPhase (namesOf s2.registry) s2 false true = (s3, false, false) →
      runCycle s = CycleOutcome.failed ApplesError.directiveDeadlock s3 ∧
      load_plugins_loop (fuel + 1) s =
        .error (ApplesError.directiveDeadlock, s3)) := by
  constructor
  · intro a b m₁ m₂ ex₁ ex₂ hab hwa hwb
    simp [load_plugins, unloadedCount, initSchedState, mkEntry,
      load_plugins_loop, runCycle, setCanLoadAll, namesOf, evalAllDirectives,
      findEntry, hab, Ne.symm hab, evalDirsFold, evalOneDirective,
      resolve_plugin_name, hwa, hwb, loadAfterScan, clearCanLoad, setDirs,
      loadPhase, runObs]
  · intro fuel s s2 s3 hp hl
    have hrc : runCycle s = CycleOutcome.failed ApplesError.directiveDeadlock s3 :=
      (runCycle_of_parts hp hl).trans rfl
    exact ⟨hrc, load_plugins_loop_failed hrc⟩

/-- Witness for claim C4 at the concrete mutually-blocking pair `a`, `b`. -/
theorem claim_C4_witness :
    runObs (load_plugins
      [mkEntry "a" [⟨DirKind.loadAfter, "b", "go", false⟩],
       mkEntry "b" [⟨DirKind.loadAfter, "a", "go", true⟩]]) =
      (some ApplesError.directiveDeadlock, []) :=
  claim_C4.1 "a" "b" "go" "go" false true (by decide) (by decide) (by decide)

/-! ### The load-order invariant across the whole loop -/

theorem load_plugins_loop_LOinv_mono :
    ∀ (fuel : Nat) (s : SchedState),
      (LOinv s → LOinv (stOf (load_plugins_loop fuel s))) ∧
      (∀ nm, loadedName s.registry nm →
        loadedName (stOf (load_plugins_loop fuel s)).registry nm) := by
  intro fuel
  induction fuel with
  | zero => intro s; exact ⟨fun h => h, fun nm h => h⟩
  | succ k ih =>
    intro s
    obtain ⟨_, _, hmono, _, _, hLO, _⟩ := runCycle_state_spec s
    cases hrc : runCycle s with
    | finished s' =>
      rw [hrc] at hmono hLO
      simp only [cycleStateOf] at hmono hLO
      rw [load_plugins_loop_finished hrc]
      exact ⟨hLO, hmono⟩
    | failed e s' =>
      rw [hrc] at hmono hLO
      simp only [cycleStateOf] at hmono hLO
      rw [load_plugins_loop_failed hrc]
      exact ⟨hLO, hmono⟩
    | next s' =>
      rw [hrc] at hmono hLO
      simp only [cycleStateOf] at hmono hLO
      rw [load_plugins_loop_next hrc]
      obtain ⟨ih1, ih2⟩ := ih s'
      exact ⟨fun h => ih1 (hLO h), fun nm h => ih2 nm (hmono nm h)⟩

theorem LOinv_init {pd : Registry} (h : ∀ e ∈ pd, e.loaded = false) :
    LOinv (initSchedState pd) := by
  refine ⟨List.nodup_nil, by simp [initSchedState, LOinv], by
    simp [initSchedState, LOinv], ?_⟩
  intro nm hnm hln
  exfalso
  cases hf : findEntry pd nm with
  | none =>
    rw [findEntry_eq_none_iff] at hf
    exact hf hnm
  | some e =>
    have h1 := hln e hf
    have h2 := h e (findEntry_mem hf)
    rw [h1] at h2
    cases h2

/-- C9: each plugin identity is instantiated at most once per run — the
recorded load order of the final state (of a successful or a failed run) has
no duplicates; an entry's `loaded` flag is monotonic across a cycle (never
reset once true); and the load phase skips entries whose flag is already
true, instantiating only unloaded eligible entries, at which point the
identity is appended to the load order and the flag becomes true
(src/__init__.py:250-255 and 216-226). -/
theorem claim_C9 :
    (∀ pd : Registry, (∀ e ∈ pd, e.loaded = false) →
      (stOf (load_plugins pd)).loadOrder.Nodup) ∧
    (∀ (s : SchedState) (nm : String), loadedName s.registry nm →
      loadedName (cycleStateOf (runCycle s)).registry nm) ∧
    (∀ (s : SchedState) (n : String) (rest : List String) (a b : Bool)
      (e : PluginEntry), findEntry s.registry n = some e →
      (e.loaded = true →
        loadPhase (n :: rest) s a b = loadPhase rest s a b) ∧
      (e.loaded = false → e.canLoad = true →
        loadPhase (n :: rest) s a b = loadPhase rest (load_plugin e s) true false ∧
        (load_plugin e s).loadOrder = s.loadOrder ++ [e.name] ∧
        loadedName (load_plugin e s).registry e.name)) := by
  refine ⟨?_, ?_, ?_⟩
  · intro pd h
    have hinv := (load_plugins_loop_LOinv_mono (unloadedCount pd + 1)
      (initSchedState pd)).1 (LOinv_init h)
    exact hinv.1
  · intro s nm h
    obtain ⟨_, _, hmono, _⟩ := runCycle_state_spec s
    exact hmono nm h
  · intro s n rest a b e hf
    refine ⟨fun hl => loadPhase_cons_loaded rest a b hf hl, fun hl hc => ?_⟩
    exact ⟨loadPhase_cons_load rest a b hf hl hc, rfl,
      loadedName_setLoaded_self s.registry e.name⟩

/-- Witness for claim C9 at a concrete two-plugin set. -/
theorem claim_C9_witness :
    (stOf (load_plugins [mkEntry "p" [], mkEntry "q" []])).loadOrder.Nodup :=
  claim_C9.1 [mkEntry "p" [], mkEntry "q" []] (by decide)

/-! ### The load-after ordering guarantee -/

theorem hasAfterDir_setCanLoadAll {pd : Registry} {a bRef : String}
    (h : hasAfterDir pd a bRef) : hasAfterDir (setCanLoadAll pd) a bRef := by
  obtain ⟨e, hfe, d, hd, hk, hm⟩ := h
  refine ⟨{ e with canLoad := true }, ?_, d, hd, hk, hm⟩
  rw [findEntry_setCanLoadAll, hfe]
  rfl

theorem hasAfterDir_flip {pd pd' : Registry} {a bRef : String}
    (hfa : ∀ nm e, findEntry pd nm = some e →
      ∃ e', findEntry pd' nm = some e' ∧
        List.Forall₂ flipRel e.loadDirectives e'.loadDirectives)
    (h : hasAfterDir pd a bRef) : hasAfterDir pd' a bRef := by
  obtain ⟨e, hfe, d, hd, hk, hm⟩ := h
  obtain ⟨e', hfe', hrel⟩ := hfa a e hfe
  obtain ⟨d', hd', hflip⟩ := forall₂_flip_mem hd hrel
  obtain ⟨h1, h2, _⟩ := flipRel_fields hflip
  exact ⟨e', hfe', d', hd', h1.trans hk, h2.trans hm⟩

theorem clFalse_canLoad_false {pd : Registry} {a : String} (hmem : a ∈ namesOf pd)
    (hcf : clFalse pd a) (hcl : canLoadName pd a) : False := by
  cases hf : findEntry pd a with
  | none =>
    rw [findEntry_eq_none_iff] at hf
    exact hf hmem
  | some e =>
    have h1 := hcf e hf
    have h2 := hcl e hf
    rw [h1] at h2
    cases h2

theorem runCycle_C7inv {a bRef : String} (hw : ¬ isWildcardRef bRef)
    {s : SchedState} (hI : C7inv a bRef s) :
    C7inv a bRef (cycleStateOf (runCycle s)) := by
  obtain ⟨hLO, hDir, hB, hOrd⟩ := hI
  obtain ⟨_, hnames, _, _, _, hLOp, hdirs⟩ := runCycle_state_spec s
  refine ⟨hLOp hLO, hasAfterDir_flip hdirs hDir, by rw [hnames]; exact hB, ?_⟩
  have hamem : a ∈ namesOf s.registry := by
    obtain ⟨e, hfe, _⟩ := hDir
    exact findEntry_mem_namesOf hfe
  cases hp : evalAllDirectives (namesOf (setCanLoadAll s.registry))
      { s with registry := setCanLoadAll s.registry, cycles := s.cycles + 1 } with
  | error es =>
    obtain ⟨e0, s2'⟩ := es
    have hcs : cycleStateOf (runCycle s) = s2' := by
      rw [runCycle_of_err hp]
      rfl
    obtain ⟨_, _, hlo, _⟩ := evalAllDirectives_error hp
    have hlo2 : s2'.loadOrder = s.loadOrder := hlo.trans rfl
    rw [hcs, hlo2]
    exact hOrd
  | ok s2 =>
    obtain ⟨hpv, _, hlo, _⟩ := evalAllDirectives_ok hp
    have hlo2 : s2.loadOrder = s.loadOrder := hlo.trans rfl
    have hpv2 : passViewOf s2.registry = passViewOf s.registry :=
      hpv.trans (passViewOf_setCanLoadAll s.registry)
    have hest := evalAll_loadAfter_est hp (hasAfterDir_setCanLoadAll hDir)
      (by rw [namesOf_setCanLoadAll]; exact hamem) hw
    have h1 : canLoadName s2.registry a → bRef ∈ s2.loadOrder := by
      intro hcl
      rcases hest with hcf | hln
      · exact absurd hcl (fun hcl' => clFalse_canLoad_false
          (by rw [namesOf_of_passView hpv2]; exact hamem) hcf hcl')
      · have hlns : loadedName s.registry bRef :=
          (loadedName_congr_passView (passViewOf_setCanLoadAll s.registry) bRef).mp hln
        rw [hlo2]
        exact hLO.2.2.2 bRef hB hlns
    have h2 : a ∈ s2.loadOrder →
        ∃ l1 l2, s2.loadOrder = l1 ++ a :: l2 ∧ bRef ∈ l1 := by
      rw [hlo2]
      exact hOrd
    rcases hlp : loadPhase (namesOf s2.registry) s2 false true with ⟨s3, anyL, allL⟩
    have hcs : cycleStateOf (runCycle s) = s3 := by
      rw [runCycle_of_parts hp hlp]
      cases allL <;> cases anyL <;> rfl
    have h3 : (loadPhase (namesOf s2.registry) s2 false true).1 = s3 := by rw [hlp]
    rw [hcs]
    intro hmem3
    have hres := loadPhase_ordInv (namesOf s2.registry) s2 false true h1 h2
      (by rw [h3]; exact hmem3)
    rw [h3] at hres
    exact hres

theorem load_plugins_loop_C7 {a bRef : String} (hw : ¬ isWildcardRef bRef) :
    ∀ (fuel : Nat) (s : SchedState), C7inv a bRef s →
      a ∈ (stOf (load_plugins_loop fuel s)).loadOrder →
      ∃ l1 l2, (stOf (load_plugins_loop fuel s)).loadOrder = l1 ++ a :: l2 ∧
        bRef ∈ l1 := by
  intro fuel
  induction fuel with
  | zero => intro s hI hm; exact hI.2.2.2 hm
  | succ k ih =>
    intro s hI
    have hI' := runCycle_C7inv hw hI
    cases hrc : runCycle s with
    | finished s' =>
      rw [hrc] at hI'
      simp only [cycleStateOf] at hI'
      rw [load_plugins_loop_finished hrc]
      exact hI'.2.2.2
    | failed e s' =>
      rw [hrc] at hI'
      simp only [cycleStateOf] at hI'
      rw [load_plugins_loop_failed hrc]
      exact hI'.2.2.2
    | next s' =>
      rw [hrc] at hI'
      simp only [cycleStateOf] at hI'
      rw [load_plugins_loop_next hrc]
      exact ih s' hI'

/-- C7: when plugin `a` declares `load-after` on the concrete identity
`bRef` of a registered plugin, every run of `_load_plugins` over an
initially-unloaded registry that instantiates `a` instantiates `bRef`
strictly before it: wherever `a` appears in the final load order —
of a successful or of a failed run — `bRef` appears earlier in the list
(src/__init__.py:156-165 and 229-265). -/
theorem claim_C7 (pd : Registry) (a bRef : String) (eA : PluginEntry)
    (d : Directive) (hfe : findEntry pd a = some eA) (hd : d ∈ eA.loadDirectives)
    (hk : d.directive = DirKind.loadAfter) (hm : d.module = bRef)
    (hw : isWildcardRef bRef = false) (hB : bRef ∈ namesOf pd)
    (hun : ∀ e ∈ pd, e.loaded = false) :
    a ∈ (stOf (load_plugins pd)).loadOrder →
    ∃ l1 l2, (stOf (load_plugins pd)).loadOrder = l1 ++ a :: l2 ∧ bRef ∈ l1 := by
  have hw' : ¬ isWildcardRef bRef := by simp [hw]
  have hI : C7inv a bRef (initSchedState pd) :=
    ⟨LOinv_init hun, ⟨eA, hfe, d, hd, hk, hm⟩, hB,
      fun h => absurd h (List.not_mem_nil a)⟩
  exact load_plugins_loop_C7 hw' (unloadedCount pd + 1) (initSchedState pd) hI

/-- Witness for claim C7: plugin `a` declares `load-after` on `b`; the run
loads `b` first and the final order places `b` before `a`. -/
theorem claim_C7_witness :
    ∃ l1 l2,
      (stOf (load_plugins [mkEntry "b" [], mkEntry "a"
        [⟨DirKind.loadAfter, "b", "", false⟩]])).loadOrder = l1 ++ "a" :: l2 ∧
      "b" ∈ l1 :=
  claim_C7 [mkEntry "b" [], mkEntry "a" [⟨DirKind.loadAfter, "b", "", false⟩]]
    "a" "b" (mkEntry "a" [⟨DirKind.loadAfter, "b", "", false⟩])
    ⟨DirKind.loadAfter, "b", "", false⟩ (by decide) (by decide) rfl rfl
    (by decide) (by decide) (by decide) (by decide)

/-! ### Clean references: the only raisable directive condition is the veto -/

theorem findEntry_isSome_iff {pd : Registry} {n : String} :
    (findEntry pd n).isSome = true ↔ n ∈ namesOf pd := by
  constructor
  · intro h
    cases hf : findEntry pd n with
    | none => rw [hf] at h; cases h
    | some e => exact findEntry_mem_namesOf hf
  · intro h
    cases hf : findEntry pd n with
    | none => rw [findEntry_eq_none_iff] at hf; exact absurd h hf
    | some e => rfl

theorem mem_coreView_ex {pd1 pd : Registry} (h : coreView pd1 = coreView pd)
    {e1 : PluginEntry} (he : e1 ∈ pd1) : ∃ e ∈ pd, dropCL e = dropCL e1 := by
  have hm : dropCL e1 ∈ coreView pd := by
    rw [← h]
    exact List.mem_map_of_mem dropCL he
  obtain ⟨e, he2, heq⟩ := List.mem_map.mp hm
  exact ⟨e, he2, heq⟩

theorem svc_all_of_svcView {pd pd' : Registry} (h : svcView pd = svcView pd')
    (hs : ∀ e ∈ pd, e.service.isSome = true) :
    ∀ e ∈ pd', e.service.isSome = true := by
  intro e' he'
  have hm : (e'.name, e'.service) ∈ svcView pd := by
    rw [h]
    exact List.mem_map_of_mem _ he'
  obtain ⟨e, he, heq⟩ := List.mem_map.mp hm
  have h2 : e.service = e'.service := congrArg Prod.snd heq
  rw [← h2]
  exact hs e he

theorem namesOf_of_svcView {pd pd' : Registry} (h : svcView pd = svcView pd') :
    namesOf pd = namesOf pd' := by
  have hm : (svcView pd).map Prod.fst = (svcView pd').map Prod.fst := by rw [h]
  simpa [svcView, namesOf, List.map_map, Function.comp_def] using hm

theorem refClean_congr_svc {pd pd' : Registry} (h : svcView pd = svcView pd')
    {r : String} (hc : refClean pd r) : refClean pd' r := by
  by_cases hw : isWildcardRef r = true
  · rw [refClean, if_pos hw] at hc
    rw [refClean, if_pos hw]
    exact svc_all_of_svcView h hc
  · rw [refClean, if_neg hw] at hc
    rw [refClean, if_neg hw]
    rw [findEntry_isSome_iff] at hc ⊢
    rw [← namesOf_of_svcView h]
    exact hc

theorem svcView_map_of {f : PluginEntry → PluginEntry}
    (hf : ∀ e, (f e).name = e.name ∧ (f e).service = e.service) (pd : Registry) :
    svcView (pd.map f) = svcView pd := by
  simp only [svcView, List.map_map]
  apply List.map_congr_left
  intro e _
  simp [Function.comp_def, (hf e).1, (hf e).2]

theorem svcView_setDirs (pd : Registry) (n : String) (ds : List Directive) :
    svcView (setDirs pd n ds) = svcView pd :=
  svcView_map_of (fun e => by by_cases h : e.name = n <;> simp [h]) pd

theorem svcView_setCanLoadAll (pd : Registry) :
    svcView (setCanLoadAll pd) = svcView pd :=
  svcView_map_of (fun e => by simp) pd

theorem resolveScan_names (svc : String) :
    ∀ pd : Registry, ∀ n ∈ (resolveScan svc pd).1, n ∈ namesOf pd := by
  intro pd
  induction pd with
  | nil => intro n hn; simp [resolveScan] at hn
  | cons e rest ih =>
    intro n hn
    cases hs : e.service with
    | none => simp [resolveScan, hs] at hn
    | some sv =>
      by_cases hsv : sv = svc
      · simp only [resolveScan, hs, hsv, if_pos rfl] at hn
        rcases List.mem_cons.mp hn with h | h
        · rw [h]; exact List.mem_cons_self _ _
        · exact List.mem_cons_of_mem _ (ih n h)
      · simp only [resolveScan, hs, if_neg hsv] at hn
        exact List.mem_cons_of_mem _ (ih n hn)

theorem resolveScan_clean (svc : String) :
    ∀ pd : Registry, (∀ e ∈ pd, e.service.isSome = true) →
      (resolveScan svc pd).2 = none := by
  intro pd
  induction pd with
  | nil => intro h; rfl
  | cons e rest ih =>
    intro h
    cases hs : e.service with
    | none =>
      have hc := h e (List.mem_cons_self _ _)
      rw [hs] at hc
      cases hc
    | some sv =>
      have hr := ih (fun e' he' => h e' (List.mem_cons_of_mem _ he'))
      by_cases hsv : sv = svc <;> simp [resolveScan, hs, hsv, hr]

theorem resolve_clean {pd : Registry} {r : String} (hc : refClean pd r) :
    (resolve_plugin_name r pd).2 = none ∧
      ∀ n ∈ (resolve_plugin_name r pd).1, n ∈ namesOf pd := by
  by_cases hw : isWildcardRef r = true
  · rw [refClean, if_pos hw] at hc
    refine ⟨?_, ?_⟩
    · rw [resolve_plugin_name, if_pos hw]
      exact resolveScan_clean (r.drop 1) pd hc
    · rw [resolve_plugin_name, if_pos hw]
      exact resolveScan_names (r.drop 1) pd
  · rw [refClean, if_neg hw] at hc
    refine ⟨?_, ?_⟩
    · rw [resolve_plugin_name, if_neg hw]
    · rw [resolve_plugin_name, if_neg hw]
      intro n hn
      simp at hn
      rw [hn, ← findEntry_isSome_iff]
      exact hc

theorem loadBeforeScan_err_clean {ℓ : Bool} :
    ∀ {ns : List String} {s : SchedState} {e : ApplesError} {s' : SchedState},
      (∀ n ∈ ns, n ∈ namesOf s.registry) →
      loadBeforeScan ℓ none ns s = .error (e, s') → False := by
  intro ns
  induction ns with
  | nil => intro s e s' _ h; simp [loadBeforeScan] at h
  | cons n rest ih =>
    intro s e s' hns h
    cases hf : findEntry s.registry n with
    | none =>
      rw [findEntry_eq_none_iff] at hf
      exact hf (hns n (List.mem_cons_self _ _))
    | some me =>
      have hstep : loadBeforeScan ℓ none (n :: rest) s =
          loadBeforeScan ℓ none rest (if !ℓ then { s with registry := clearCanLoad s.registry n } else s) := by
        rw [loadBeforeScan, hf]
      rw [hstep] at h
      refine ih ?_ h
      intro m hm
      have hn2 : namesOf (if !ℓ then { s with registry := clearCanLoad s.registry n } else s).registry = namesOf s.registry := by
        cases ℓ <;> simp [namesOf_clearCanLoad]
      rw [hn2]
      exact hns m (List.mem_cons_of_mem _ hm)

theorem loadAfterScan_err_clean {sn : String} :
    ∀ {ns : List String} {s : SchedState} {e : ApplesError} {s' : SchedState},
      (∀ n ∈ ns, n ∈ namesOf s.registry) →
      loadAfterScan sn none ns s = .error (e, s') → False := by
  intro ns
  induction ns with
  | nil => intro s e s' _ h; simp [loadAfterScan] at h
  | cons n rest ih =>
    intro s e s' hns h
    cases hf : findEntry s.registry n with
    | none =>
      rw [findEntry_eq_none_iff] at hf
      exact hf (hns n (List.mem_cons_self _ _))
    | some me =>
      have hstep : loadAfterScan sn none (n :: rest) s =
          loadAfterScan sn none rest (if !me.loaded then { s with registry := clearCanLoad s.registry sn } else s) := by
        rw [loadAfterScan, hf]
      rw [hstep] at h
      refine ih ?_ h
      intro m hm
      have hn2 : namesOf (if !me.loaded then { s with registry := clearCanLoad s.registry sn } else s).registry = namesOf s.registry := by
        cases me.loaded <;> simp [namesOf_clearCanLoad]
      rw [hn2]
      exact hns m (List.mem_cons_of_mem _ hm)

theorem runAfterLoadScan_err_clean :
    ∀ {ns : List String} {s : SchedState} {e : ApplesError} {s' : SchedState},
      (∀ n ∈ ns, n ∈ namesOf s.registry) →
      runAfterLoadScan none ns s = .error (e, s') → False := by
  intro ns
  induction ns with
  | nil => intro s e s' _ h; simp [runAfterLoadScan] at h
  | cons n rest ih =>
    intro s e s' hns h
    cases hf : findEntry s.registry n with
    | none =>
      rw [findEntry_eq_none_iff] at hf
      exact hf (hns n (List.mem_cons_self _ _))
    | some me =>
      cases hml : me.loaded with
      | false =>
        have hstep : runAfterLoadScan none (n :: rest) s = .ok false := by
          rw [runAfterLoadScan, hf]
          simp [hml]
        rw [hstep] at h
        exact Except.noConfusion h
      | true =>
        have hstep : runAfterLoadScan none (n :: rest) s =
            runAfterLoadScan none rest s := by
          rw [runAfterLoadScan, hf]
          simp [hml]
        rw [hstep] at h
        exact ih (fun m hm => hns m (List.mem_cons_of_mem _ hm)) h

theorem loadDenyScan_err_clean {sn : String} :
    ∀ {ns : List String} {s : SchedState} {e : ApplesError} {s' : SchedState},
      (∀ n ∈ ns, n ∈ namesOf s.registry) →
      loadDenyScan sn none ns s = .error (e, s') →
      e = ApplesError.deniedPlugin := by
  intro ns
  induction ns with
  | nil => intro s e s' _ h; simp [loadDenyScan] at h
  | cons n rest ih =>
    intro s e s' hns h
    cases hf : findEntry s.registry n with
    | none =>
      rw [findEntry_eq_none_iff] at hf
      exact absurd (hns n (List.mem_cons_self _ _)) hf
    | some me =>
      by_cases hn : n = sn
      · have hstep : loadDenyScan sn none (n :: rest) s =
            loadDenyScan sn none rest s := by
          rw [loadDenyScan, hf]
          simp [hn]
        rw [hstep] at h
        exact ih (fun m hm => hns m (List.mem_cons_of_mem _ hm)) h
      · have hstep : loadDenyScan sn none (n :: rest) s =
            .error (ApplesError.deniedPlugin, s) := by
          rw [loadDenyScan, hf]
          simp [hn, hf]
        rw [hstep] at h
        simp at h
        exact h.1.symm

theorem evalOne_err_classify {d : Directive} {n : String} {ℓ : Bool}
    {s : SchedState} {e : ApplesError} {s' : SchedState}
    (hc : refClean s.registry d.module)
    (h : evalOneDirective d n ℓ s = .error (e, s')) :
    e = ApplesError.deniedPlugin := by
  obtain ⟨hr2, hr1⟩ := resolve_clean hc
  cases hk : d.directive with
  | loadBefore =>
    simp only [evalOneDirective, hk] at h
    cases hs : loadBeforeScan ℓ (resolve_plugin_name d.module s.registry).2
        (resolve_plugin_name d.module s.registry).1 s with
    | error es =>
      obtain ⟨e0, s0⟩ := es
      rw [hr2] at hs
      exact (loadBeforeScan_err_clean hr1 hs).elim
    | ok s1 =>
      simp only [hs] at h
      cases h
  | loadAfter =>
    simp only [evalOneDirective, hk] at h
    cases hs : loadAfterScan n (resolve_plugin_name d.module s.registry).2
        (resolve_plugin_name d.module s.registry).1 s with
    | error es =>
      obtain ⟨e0, s0⟩ := es
      rw [hr2] at hs
      exact (loadAfterScan_err_clean hr1 hs).elim
    | ok s1 =>
      simp only [hs] at h
      cases h
  | loadDeny =>
    simp only [evalOneDirective, hk] at h
    cases hs : loadDenyScan n (resolve_plugin_name d.module s.registry).2
        (resolve_plugin_name d.module s.registry).1 s with
    | error es =>
      obtain ⟨e0, s0⟩ := es
      simp only [hs] at h
      rw [hr2] at hs
      have he0 : e0 = ApplesError.deniedPlugin := loadDenyScan_err_clean hr1 hs
      simp at h
      exact h.1.symm.trans he0
    | ok s1 =>
      simp only [hs] at h
      cases h
  | runAfterLoad =>
    simp only [evalOneDirective, hk] at h
    by_cases hex : d.executed = true
    · rw [if_pos hex] at h
      cases h
    · rw [if_neg hex] at h
      cases hs : runAfterLoadScan (resolve_plugin_name d.module s.registry).2
          (resolve_plugin_name d.module s.registry).1 s with
      | error es =>
        obtain ⟨e0, s0⟩ := es
        rw [hr2] at hs
        exact (runAfterLoadScan_err_clean hr1 hs).elim
      | ok b =>
        simp only [hs] at h
        cases b with
        | false => cases h
        | true =>
          cases ℓ with
          | false => simp at h
          | true => simp at h

theorem forall₂_flip_mem_rev :
    ∀ {L L' : List Directive} {d' : Directive}, d' ∈ L' →
      List.Forall₂ flipRel L L' → ∃ d ∈ L, flipRel d d' := by
  intro L
  induction L with
  | nil =>
    intro L' d' hm h
    cases h
    simp at hm
  | cons a as ih =>
    intro L' d' hm h
    cases h with
    | cons hrel htail =>
      rcases List.mem_cons.mp hm with hm1 | hm1
      · subst hm1
        exact ⟨a, List.mem_cons_self _ _, hrel⟩
      · obtain ⟨d, hd, hr⟩ := ih hm1 htail
        exact ⟨d, List.mem_cons_of_mem _ hd, hr⟩

theorem allRefsClean_setDirs_flip {pd1 pd : Registry} {n : String}
    {ds ds' : List Directive}
    (hcv : coreView pd1 = coreView pd)
    (hsub : ∀ d' ∈ ds', ∃ d ∈ ds, d'.module = d.module)
    (hdsClean : ∀ d ∈ ds, refClean pd d.module)
    (hAll : allRefsClean pd) : allRefsClean (setDirs pd1 n ds') := by
  have hsvc1 : svcView pd1 = svcView pd :=
    svcView_of_passView (passView_of_coreView hcv)
  have hsvc : svcView pd = svcView (setDirs pd1 n ds') := by
    rw [svcView_setDirs, hsvc1]
  intro e' he' d' hd'
  rw [setDirs] at he'
  obtain ⟨e1, he1, hfe⟩ := List.mem_map.mp he'
  by_cases hname : e1.name = n
  · have he'' : e' = { e1 with loadDirectives := ds' } := by
      rw [← hfe]
      simp [hname]
    have hd'' : d' ∈ ds' := by
      rw [he''] at hd'
      exact hd'
    obtain ⟨d0, hd0, hmod⟩ := hsub d' hd''
    rw [hmod]
    exact refClean_congr_svc hsvc (hdsClean d0 hd0)
  · have he'' : e' = e1 := by
      rw [← hfe]
      simp [hname]
    obtain ⟨e0, he0, hdc⟩ := mem_coreView_ex hcv he1
    have hdirs : e0.loadDirectives = e1.loadDirectives := by
      simpa [dropCL] using congrArg (fun p => p.2.2.2.2) hdc
    have hd1 : d' ∈ e1.loadDirectives := by
      rw [he''] at hd'
      exact hd'
    have hc0 := hAll e0 he0 d' (by rw [hdirs]; exact hd1)
    exact refClean_congr_svc hsvc hc0

theorem evalDirsFold_err_classify {n : String} {ℓ : Bool} :
    ∀ {L : List Directive} {s : SchedState} {e : ApplesError} {s' : SchedState},
      (∀ d ∈ L, refClean s.registry d.module) →
      evalDirsFold n ℓ L s = .error (e, s') → e = ApplesError.deniedPlugin := by
  intro L
  induction L with
  | nil => intro s e s' _ h; simp [evalDirsFold] at h
  | cons d0 ds ih =>
    intro s e s' hcl h
    rw [evalDirsFold] at h
    cases hd0 : evalOneDirective d0 n ℓ s with
    | error es =>
      obtain ⟨e0, s0⟩ := es
      simp only [hd0] at h
      have he0 := evalOne_err_classify (hcl d0 (List.mem_cons_self _ _)) hd0
      simp at h
      exact h.1.symm.trans he0
    | ok pr =>
      obtain ⟨d1, s1⟩ := pr
      simp only [hd0] at h
      cases hfo : evalDirsFold n ℓ ds s1 with
      | ok pr2 =>
        obtain ⟨ds2, s2⟩ := pr2
        simp only [hfo] at h
        cases h
      | error es =>
        obtain ⟨e0, s0⟩ := es
        simp only [hfo] at h
        simp at h
        have hcv : coreView s1.registry = coreView s.registry := by
          rcases evalOneDirective_ok hd0 with ⟨_, hclo⟩ | ⟨_, _, _, _, hcv, _⟩
          · exact hclo.1
          · exact hcv
        have hsvc : svcView s.registry = svcView s1.registry :=
          (svcView_of_passView (passView_of_coreView hcv)).symm
        have he0 := ih
          (fun d hd => refClean_congr_svc hsvc (hcl d (List.mem_cons_of_mem _ hd)))
          hfo
        exact h.1.symm.trans he0

theorem evalAll_err_classify :
    ∀ {ns : List String} {s : SchedState} {e : ApplesError} {s' : SchedState},
      allRefsClean s.registry → evalAllDirectives ns s = .error (e, s') →
      e = ApplesError.deniedPlugin := by
  intro ns
  induction ns with
  | nil => intro s e s' _ h; simp [evalAllDirectives] at h
  | cons n rest ih =>
    intro s e s' hAll h
    rw [evalAllDirectives] at h
    cases hf : findEntry s.registry n with
    | none =>
      rw [hf] at h
      exact ih hAll h
    | some subj =>
      rw [hf] at h
      simp only [] at h
      cases hfl : evalDirsFold subj.name subj.loaded subj.loadDirectives s with
      | error es =>
        obtain ⟨e0, s0⟩ := es
        simp only [hfl] at h
        simp at h
        have hcl : ∀ d ∈ subj.loadDirectives, refClean s.registry d.module :=
          hAll subj (findEntry_mem hf)
        exact h.1.symm.trans (evalDirsFold_err_classify hcl hfl)
      | ok pr =>
        obtain ⟨ds', s1⟩ := pr
        simp only [hfl] at h
        obtain ⟨hcv, _, _, _, hforall, _⟩ := evalDirsFold_ok hfl
        have hAll2 : allRefsClean (setDirs s1.registry n ds') :=
          allRefsClean_setDirs_flip hcv
            (fun d' hd' => by
              obtain ⟨d, hd, hflip⟩ := forall₂_flip_mem_rev hd' hforall
              exact ⟨d, hd, (flipRel_fields hflip).2.1⟩)
            (hAll subj (findEntry_mem hf)) hAll
        exact ih hAll2 h

theorem allRefsClean_setCanLoadAll {pd : Registry} (h : allRefsClean pd) :
    allRefsClean (setCanLoadAll pd) := by
  have hsvc : svcView pd = svcView (setCanLoadAll pd) :=
    (svcView_setCanLoadAll pd).symm
  intro e' he' d' hd'
  rw [setCanLoadAll] at he'
  obtain ⟨e1, he1, hfe⟩ := List.mem_map.mp he'
  have hd1 : d' ∈ e1.loadDirectives := by
    rw [← hfe] at hd'
    exact hd'
  exact refClean_congr_svc hsvc (h e1 he1 d' hd1)

theorem loadDenyScan_all_self {n : String} {s : SchedState} {e : PluginEntry}
    (hfe : findEntry s.registry n = some e) :
    ∀ (L : List String), (∀ r ∈ L, r = n) →
      loadDenyScan n none L s = .ok s := by
  intro L
  induction L with
  | nil =>
    intro _
    rfl
  | cons r0 rest ih =>
    intro hall
    have hr0 : r0 = n := hall r0 (List.mem_cons_self _ _)
    subst hr0
    rw [loadDenyScan, hfe]
    simp only []
    rw [if_pos trivial]
    exact ih (fun r hr => hall r (List.mem_cons_of_mem _ hr))

theorem loadDenyScan_no_ok {n : String} {s : SchedState} :
    ∀ (L : List String) (tailErr : Option ApplesError),
      (∃ r ∈ L, r ≠ n ∧ (findEntry s.registry r).isSome = true) →
      ∀ s', loadDenyScan n tailErr L s ≠ .ok s' := by
  intro L
  induction L with
  | nil =>
    intro tailErr hex
    simp at hex
  | cons r0 rest ih =>
    intro tailErr hex s' hok
    obtain ⟨r, hrmem, hrn, hrs⟩ := hex
    rw [loadDenyScan] at hok
    cases hf0 : findEntry s.registry r0 with
    | none =>
      rw [hf0] at hok
      simp only [] at hok
      exact Except.noConfusion hok
    | some e0 =>
      rw [hf0] at hok
      simp only [] at hok
      by_cases h0n : r0 = n
      · rw [if_pos h0n] at hok
        have hrr : r ∈ rest := by
          rcases List.mem_cons.mp hrmem with hh | hh
          · exact absurd (hh.trans h0n) hrn
          · exact hh
        exact ih tailErr ⟨r, hrr, hrn, hrs⟩ s' hok
      · rw [if_neg h0n, if_pos (show (some e0).isSome = true from rfl)] at hok
        exact Except.noConfusion hok

theorem evalOne_deny_no_ok {d : Directive} {n : String} {ℓ : Bool} {s : SchedState}
    (hk : d.directive = DirKind.loadDeny)
    (hex : ∃ r ∈ (resolve_plugin_name d.module s.registry).1, r ≠ n ∧
      (findEntry s.registry r).isSome = true) :
    ∀ pr, evalOneDirective d n ℓ s ≠ .ok pr := by
  intro pr hok
  simp only [evalOneDirective, hk] at hok
  cases hsc : loadDenyScan n (resolve_plugin_name d.module s.registry).2
      (resolve_plugin_name d.module s.registry).1 s with
  | error es =>
    rw [hsc] at hok
    simp only [] at hok
    exact Except.noConfusion hok
  | ok s1 =>
    exact loadDenyScan_no_ok _ _ hex s1 hsc

theorem evalDirsFold_ok_no_deny {n : String} {ℓ : Bool} :
    ∀ {L : List Directive} {s : SchedState} {L' : List Directive} {s' : SchedState},
      evalDirsFold n ℓ L s = .ok (L', s') →
      ∀ d ∈ L, d.directive = DirKind.loadDeny →
        ∀ r ∈ (resolve_plugin_name d.module s.registry).1, r ≠ n →
          findEntry s.registry r = none := by
  intro L
  induction L with
  | nil => intro s L' s' h d hd; simp at hd
  | cons d0 ds ih =>
    intro s L' s' h d hd hk r hr hrn
    rw [evalDirsFold] at h
    cases hd0 : evalOneDirective d0 n ℓ s with
    | error es => rw [hd0] at h; cases h
    | ok pr =>
      obtain ⟨d1, s1⟩ := pr
      rw [hd0] at h
      simp only [] at h
      cases hfo : evalDirsFold n ℓ ds s1 with
      | error es => rw [hfo] at h; cases h
      | ok pr2 =>
        rcases List.mem_cons.mp hd with hd | hd
        · subst hd
          cases hfd : findEntry s.registry r with
          | none => rfl
          | some me =>
            exfalso
            exact evalOne_deny_no_ok hk
              ⟨r, hr, hrn, by rw [hfd]; rfl⟩ (d1, s1) hd0
        · have hcv : coreView s1.registry = coreView s.registry := by
            rcases evalOneDirective_ok hd0 with ⟨_, hcl⟩ | ⟨_, _, _, _, hcv, _⟩
            · exact hcl.1
            · exact hcv
          have hsv : svcView s1.registry = svcView s.registry :=
            svcView_of_coreView hcv
          have hr1 : r ∈ (resolve_plugin_name d.module s1.registry).1 := by
            rw [resolve_congr hsv]
            exact hr
          have hS1 := ih hfo d hd hk r hr1 hrn
          rw [findEntry_eq_none_iff] at hS1 ⊢
          intro hmem
          apply hS1
          rw [namesOf_of_svcView hsv]
          exact hmem

theorem evalAll_ok_no_deny :
    ∀ {ns : List String} {s s' : SchedState},
      evalAllDirectives ns s = .ok s' →
      ∀ n ∈ ns, ∀ subj, findEntry s.registry n = some subj →
      ∀ d ∈ subj.loadDirectives, d.directive = DirKind.loadDeny →
        ∀ r ∈ (resolve_plugin_name d.module s.registry).1, r ≠ n →
        findEntry s.registry r = none := by
  intro ns
  induction ns with
  | nil => intro s s' h n hn; simp at hn
  | cons n0 rest ih =>
    intro s s' h n hn subj hfsub d hd hk r hr hrn
    rw [evalAllDirectives] at h
    cases hf0 : findEntry s.registry n0 with
    | none =>
      rw [hf0] at h
      rcases List.mem_cons.mp hn with hn | hn
      · rw [hn] at hfsub; rw [hfsub] at hf0; cases hf0
      · exact ih h n hn subj hfsub d hd hk r hr hrn
    | some subj0 =>
      rw [hf0] at h
      simp only [] at h
      cases hfl : evalDirsFold subj0.name subj0.loaded subj0.loadDirectives s with
      | error es => rw [hfl] at h; cases h
      | ok pr =>
        obtain ⟨ds', s1⟩ := pr
        rw [hfl] at h
        simp only [] at h
        by_cases hnn : n = n0
        · have hsame : subj = subj0 := by
            rw [hnn] at hfsub
            exact Option.some.inj (hfsub.symm.trans hf0)
          rw [hsame] at hd
          have hrn0 : r ≠ subj0.name := by
            rw [findEntry_name_eq hf0, ← hnn]
            exact hrn
          exact evalDirsFold_ok_no_deny hfl d hd hk r hr hrn0
        · obtain ⟨hcv1, _, _, _, _, _⟩ := evalDirsFold_ok hfl
          obtain ⟨e1, hfe1, hdc⟩ := findEntry_coreView_some hcv1.symm hfsub
          have hdirs : e1.loadDirectives = subj.loadDirectives := by
            simpa [dropCL] using congrArg (fun p => p.2.2.2.2) hdc
          have hf2 : findEntry (setDirs s1.registry n0 ds') n = some e1 :=
            (findEntry_setDirs_other hnn ds').trans hfe1
          have hsv : svcView (setDirs s1.registry n0 ds') = svcView s.registry := by
            rw [svcView_setDirs]
            exact svcView_of_coreView hcv1
          have hr2 : r ∈ (resolve_plugin_name d.module
              (setDirs s1.registry n0 ds')).1 := by
            rw [resolve_congr hsv]
            exact hr
          have hres := ih h n (by
            rcases List.mem_cons.mp hn with hx | hx
            · exact absurd hx hnn
            · exact hx) e1 hf2 d (by rw [hdirs]; exact hd) hk r hr2 hrn
          have hnames : namesOf (setDirs s1.registry n0 ds') = namesOf s.registry := by
            rw [namesOf_setDirs]
            exact namesOf_of_passView (passView_of_coreView hcv1)
          rw [findEntry_eq_none_iff] at hres ⊢
          intro hmem
          apply hres
          rw [hnames]
          exact hmem

/-- C5: a `load-deny` directive whose resolved reference set — wildcard or
concrete — contains a registered plugin other than the subject makes the
run fail with the denied-plugin condition: whatever the declaration order,
and with every reference clean (so that no key-lookup failure preempts the
veto), `_load_plugins` raises `DeniedPlugin` during the first directive
pass, before anything is loaded; and resolved objects equal to the subject
are skipped by the `continue` at src/__init__.py:176 — a deny directive
whose resolved set consists only of the subject (a concrete
self-reference, or a wildcard whose service class matches only the
subject) succeeds without effect. -/
theorem claim_C5 :
    (∀ (d : Directive) (n : String) (ℓ : Bool) (s : SchedState) (e : PluginEntry),
      d.directive = DirKind.loadDeny → findEntry s.registry n = some e →
      (∀ r ∈ (resolve_plugin_name d.module s.registry).1, r = n) →
      (resolve_plugin_name d.module s.registry).2 = none →
      evalOneDirective d n ℓ s = .ok (d, s)) ∧
    (∀ (pd : Registry) (nA : String) (eA : PluginEntry) (d : Directive),
      allRefsClean pd → findEntry pd nA = some eA → d ∈ eA.loadDirectives →
      d.directive = DirKind.loadDeny →
      (∃ r ∈ (resolve_plugin_name d.module pd).1, r ≠ nA ∧
        (findEntry pd r).isSome = true) →
      ∃ st, load_plugins pd = .error (ApplesError.deniedPlugin, st) ∧
        st.cycles = 1 ∧ st.loadOrder = []) := by
  constructor
  · intro d n ℓ s e hk hfe hall hr2
    simp only [evalOneDirective, hk]
    rw [hr2, loadDenyScan_all_self hfe _ hall]
  · intro pd nA eA d hAll hfA hd hk hex
    cases hp : evalAllDirectives (namesOf (setCanLoadAll pd)) { registry := setCanLoadAll pd, lps := { plugins := [], services := [], plugin_data := [] }, loadOrder := [], hookCalls := [], cycles := 1 } with
    | ok s2 =>
      exfalso
      obtain ⟨r, hrmem, hrn, hrs⟩ := hex
      have hn : nA ∈ namesOf (setCanLoadAll pd) := by
        rw [namesOf_setCanLoadAll]
        exact findEntry_mem_namesOf hfA
      have hfsub : findEntry (setCanLoadAll pd) nA =
          some { eA with canLoad := true } := by
        rw [findEntry_setCanLoadAll, hfA]; rfl
      have hsv : svcView (setCanLoadAll pd) = svcView pd :=
        svcView_setCanLoadAll pd
      have hrmem1 : r ∈ (resolve_plugin_name d.module (setCanLoadAll pd)).1 := by
        rw [resolve_congr hsv]
        exact hrmem
      have hnone := evalAll_ok_no_deny hp nA hn { eA with canLoad := true }
        hfsub d hd hk r hrmem1 hrn
      rw [findEntry_eq_none_iff, namesOf_setCanLoadAll] at hnone
      rw [findEntry_isSome_iff] at hrs
      exact hnone hrs
    | error es =>
      obtain ⟨e, s2⟩ := es
      have hAll1 : allRefsClean (setCanLoadAll pd) := allRefsClean_setCanLoadAll hAll
      have he : e = ApplesError.deniedPlugin := evalAll_err_classify hAll1 hp
      subst he
      have hrun : runCycle (initSchedState pd) =
          CycleOutcome.failed ApplesError.deniedPlugin s2 :=
        @runCycle_of_err (initSchedState pd) s2 ApplesError.deniedPlugin hp
      obtain ⟨_, _, hLO, hCy, _⟩ := evalAllDirectives_error hp
      refine ⟨s2, ?_, hCy.trans rfl, hLO.trans rfl⟩
      rw [load_plugins]
      exact @load_plugins_loop_failed (unloadedCount pd) (initSchedState pd) s2
        ApplesError.deniedPlugin hrun

/-- Witness for claim C5 at a plugin `a` whose wildcard deny `$svc`
resolves to the registered plugin `b` of service class `svc`. -/
theorem claim_C5_witness :
    ∃ st, load_plugins [mkEntry "a" [⟨DirKind.loadDeny, "$svc", "", false⟩] (some "sa"),
        mkEntry "b" [] (some "svc")] = .error (ApplesError.deniedPlugin, st) ∧
      st.cycles = 1 ∧ st.loadOrder = [] :=
  claim_C5.2
    [mkEntry "a" [⟨DirKind.loadDeny, "$svc", "", false⟩] (some "sa"),
      mkEntry "b" [] (some "svc")]
    "a" (mkEntry "a" [⟨DirKind.loadDeny, "$svc", "", false⟩] (some "sa"))
    ⟨DirKind.loadDeny, "$svc", "", false⟩
    (by
      intro e he d hd
      simp only [List.mem_cons, List.not_mem_nil, or_false] at he
      rcases he with he | he
      · subst he
        simp only [mkEntry, List.mem_cons, List.not_mem_nil, or_false] at hd
        subst hd
        rw [refClean, if_pos (by decide)]
        decide
      · subst he
        simp only [mkEntry, List.not_mem_nil] at hd)
    rfl (by decide) rfl (by decide)

/-! ### Counting hook invocations: conservation of fired + pending -/

theorem eCount_append (a m : String) (l1 l2 : List (String × String)) :
    eCount a m (l1 ++ l2) = eCount a m l1 + eCount a m l2 := by
  simp [eCount, List.filter_append]

theorem eCount_zero_of {a n m : String} {l : List (String × String)}
    (h : ∀ p ∈ l, p.1 = n) (hne : a ≠ n) : eCount a m l = 0 := by
  induction l with
  | nil => rfl
  | cons p ps ih =>
    have hp : p.1 = n := h p (List.mem_cons_self _ _)
    have hne2 : ¬ (p.1 = a ∧ p.2 = m) := by
      intro hc
      exact hne (hc.1.symm.trans hp)
    have ihr := ih (fun q hq => h q (List.mem_cons_of_mem _ hq))
    simpa [eCount, List.filter_cons, hne2] using ihr

theorem uCount_cons (m : String) (d : Directive) (L : List Directive) :
    uCount m (d :: L) = uCountD m d + uCount m L := by
  by_cases hd : d.directive = DirKind.runAfterLoad ∧ d.method = m ∧ d.executed = false
  · simp [uCount, uCountD, List.filter, hd, Nat.add_comm]
  · simp [uCount, uCountD, List.filter, hd]

theorem evalOne_uCountD {m : String} {d : Directive} {n : String} {ℓ : Bool}
    {s : SchedState} {d' : Directive} {s' : SchedState}
    (h : evalOneDirective d n ℓ s = .ok (d', s')) :
    eCount n m s'.hookCalls + uCountD m d' =
      eCount n m s.hookCalls + uCountD m d := by
  rcases evalOneDirective_ok h with ⟨hd', hcl⟩ | ⟨hk, hex, _, hd', _, _, _, _, hhk⟩
  · rw [hd', hcl.2.2.2.1]
  · rw [hhk, eCount_append]
    by_cases hdm : d.method = m
    · have h1 : eCount n m [(n, d.method)] = 1 := by simp [eCount, hdm]
      have h2 : uCountD m d = 1 := by simp [uCountD, hk, hex, hdm]
      have h3 : uCountD m d' = 0 := by rw [hd']; simp [uCountD]
      rw [h1, h2, h3]
    · have h1 : eCount n m [(n, d.method)] = 0 := by simp [eCount, hdm]
      have h2 : uCountD m d = 0 := by simp [uCountD, hdm]
      have h3 : uCountD m d' = 0 := by rw [hd']; simp [uCountD, hdm]
      rw [h1, h2, h3]

theorem evalDirsFold_uCount {m : String} {n : String} {ℓ : Bool} :
    ∀ {L : List Directive} {s : SchedState} {L' : List Directive} {s' : SchedState},
      evalDirsFold n ℓ L s = .ok (L', s') →
      eCount n m s'.hookCalls + uCount m L' =
        eCount n m s.hookCalls + uCount m L := by
  intro L
  induction L with
  | nil =>
    intro s L' s' h
    simp only [evalDirsFold] at h
    have hinj := Except.ok.inj h
    have h1 : ([] : List Directive) = L' := congrArg Prod.fst hinj
    have h2 : s = s' := congrArg Prod.snd hinj
    rw [← h1, ← h2]
  | cons d0 ds ih =>
    intro s L' s' h
    rw [evalDirsFold] at h
    cases hd0 : evalOneDirective d0 n ℓ s with
    | error es => rw [hd0] at h; cases h
    | ok pr =>
      obtain ⟨d1, s1⟩ := pr
      rw [hd0] at h
      simp only [] at h
      cases hfo : evalDirsFold n ℓ ds s1 with
      | error es => rw [hfo] at h; cases h
      | ok pr2 =>
        obtain ⟨ds1, s2⟩ := pr2
        rw [hfo] at h
        simp only [] at h
        have hinj := Except.ok.inj h
        have hL' : d1 :: ds1 = L' := congrArg Prod.fst hinj
        have hs' : s2 = s' := congrArg Prod.snd hinj
        rw [← hL', ← hs']
        have h1 := evalOne_uCountD (m := m) hd0
        have h2 := ih hfo
        rw [uCount_cons, uCount_cons]
        omega

theorem uCountReg_congr_core {pd pd' : Registry}
    (h : coreView pd = coreView pd') (a m : String) :
    uCountReg pd a m = uCountReg pd' a m := by
  cases hf : findEntry pd a with
  | none =>
    have hf' : findEntry pd' a = none := by
      rw [findEntry_eq_none_iff] at hf ⊢
      rw [← namesOf_of_svcView (svcView_of_passView (passView_of_coreView h))]
      exact hf
    simp [uCountReg, hf, hf']
  | some e =>
    obtain ⟨e', hf', hdc⟩ := findEntry_coreView_some h hf
    have hdirs : e'.loadDirectives = e.loadDirectives := by
      simpa [dropCL] using congrArg (fun p => p.2.2.2.2) hdc
    simp [uCountReg, hf, hf', hdirs]

theorem uCountReg_setCanLoadAll (pd : Registry) (a m : String) :
    uCountReg (setCanLoadAll pd) a m = uCountReg pd a m := by
  cases hf : findEntry pd a with
  | none => simp [uCountReg, findEntry_setCanLoadAll, hf]
  | some e => simp [uCountReg, findEntry_setCanLoadAll, hf]

theorem uCountReg_congr_load {pd pd' : Registry}
    (h : loadView pd = loadView pd') (a m : String) :
    uCountReg pd a m = uCountReg pd' a m := by
  have hmap := findEntry_congr_loadView h a
  cases hf : findEntry pd a with
  | none =>
    cases hf' : findEntry pd' a with
    | none => simp [uCountReg, hf, hf']
    | some e' => rw [hf, hf'] at hmap; cases hmap
  | some e =>
    cases hf' : findEntry pd' a with
    | none => rw [hf, hf'] at hmap; cases hmap
    | some e' =>
      rw [hf, hf'] at hmap
      simp at hmap
      have hdirs : e.loadDirectives = e'.loadDirectives := by
        simpa [dropLoaded] using congrArg (fun p => p.2.2.2.2) hmap
      simp [uCountReg, hf, hf', hdirs]

theorem evalAll_uCount {a m : String} :
    ∀ {ns : List String} {s s' : SchedState},
      evalAllDirectives ns s = .ok s' →
      eCount a m s'.hookCalls + uCountReg s'.registry a m =
        eCount a m s.hookCalls + uCountReg s.registry a m := by
  intro ns
  induction ns with
  | nil =>
    intro s s' h
    have h2 : s = s' := Except.ok.inj h
    rw [h2]
  | cons n0 rest ih =>
    intro s s' h
    rw [evalAllDirectives] at h
    cases hf0 : findEntry s.registry n0 with
    | none => rw [hf0] at h; exact ih h
    | some subj =>
      rw [hf0] at h
      simp only [] at h
      cases hfl : evalDirsFold subj.name subj.loaded subj.loadDirectives s with
      | error es => rw [hfl] at h; cases h
      | ok pr =>
        obtain ⟨ds', s1⟩ := pr
        rw [hfl] at h
        simp only [] at h
        obtain ⟨hcv, _, _, _, _, evts, hhk, hevts⟩ := evalDirsFold_ok hfl
        have hname : subj.name = n0 := findEntry_name_eq hf0
        have ihr := ih h
        have hprojE : eCount a m ({ s1 with registry := setDirs s1.registry n0 ds' } : SchedState).hookCalls = eCount a m s1.hookCalls := rfl
        have hprojU : uCountReg ({ s1 with registry := setDirs s1.registry n0 ds' } : SchedState).registry a m = uCountReg (setDirs s1.registry n0 ds') a m := rfl
        rw [hprojE, hprojU] at ihr
        by_cases hna : n0 = a
        · subst hna
          have hfold := evalDirsFold_uCount (m := m) hfl
          rw [hname] at hfold
          obtain ⟨e1, hfe1, hdc⟩ := findEntry_coreView_some hcv.symm hf0
          have hn1 : e1.name = n0 := findEntry_name_eq hfe1
          have hfs : findEntry (setDirs s1.registry n0 ds') n0 =
              some { e1 with loadDirectives := ds' } := by
            rw [findEntry_setDirs, hfe1]
            simp [hn1]
          have hU2 : uCountReg (setDirs s1.registry n0 ds') n0 m =
              uCount m ds' := by
            simp [uCountReg, hfs]
          have hUs : uCountReg s.registry n0 m = uCount m subj.loadDirectives := by
            simp [uCountReg, hf0]
          rw [hU2] at ihr
          rw [hUs]
          omega
        · have hE1 : eCount a m s1.hookCalls = eCount a m s.hookCalls := by
            rw [hhk, eCount_append,
              eCount_zero_of hevts (by rw [hname]; exact fun hh => hna hh.symm)]
            exact Nat.add_zero _
          have hcore : uCountReg s1.registry a m = uCountReg s.registry a m :=
            uCountReg_congr_core hcv a m
          have hU2 : uCountReg (setDirs s1.registry n0 ds') a m =
              uCountReg s.registry a m := by
            rw [← hcore]
            cases hfa : findEntry s1.registry a with
            | none =>
              have hfa2 : findEntry (setDirs s1.registry n0 ds') a = none := by
                rw [findEntry_setDirs, hfa]; rfl
              simp [uCountReg, hfa, hfa2]
            | some ea =>
              have hea : ea.name = a := findEntry_name_eq hfa
              have hnea : ¬ ea.name = n0 := by
                rw [hea]; exact fun hh => hna hh.symm
              have hfa2 : findEntry (setDirs s1.registry n0 ds') a = some ea := by
                rw [findEntry_setDirs, hfa]
                simp [hnea]
              simp [uCountReg, hfa, hfa2]
          rw [hE1, hU2] at ihr
          exact ihr

theorem runAfterLoadScan_not_false {te : Option ApplesError} :
    ∀ {ns : List String} {s : SchedState},
      (∀ n0 e, findEntry s.registry n0 = some e → e.loaded = true) →
      runAfterLoadScan te ns s ≠ .ok false := by
  intro ns
  induction ns with
  | nil =>
    intro s _ h
    cases hto : te <;> rw [hto] at h <;> simp [runAfterLoadScan] at h
  | cons n rest ih =>
    intro s hl h
    cases hf : findEntry s.registry n with
    | none =>
      have hstep : runAfterLoadScan te (n :: rest) s =
          .error (ApplesError.keyError n, s) := by
        rw [runAfterLoadScan, hf]
      rw [hstep] at h
      exact Except.noConfusion h
    | some me =>
      have hml := hl n me hf
      have hstep : runAfterLoadScan te (n :: rest) s =
          runAfterLoadScan te rest s := by
        rw [runAfterLoadScan, hf]
        simp [hml]
      rw [hstep] at h
      exact ih hl h

theorem runAfterLoadScan_true_loaded {te : Option ApplesError} :
    ∀ {ns : List String} {s : SchedState},
      runAfterLoadScan te ns s = .ok true → ∀ n ∈ ns, loadedName s.registry n := by
  intro ns
  induction ns with
  | nil => intro s _ n hn; simp at hn
  | cons n0 rest ih =>
    intro s h n hn
    cases hf : findEntry s.registry n0 with
    | none =>
      have hstep : runAfterLoadScan te (n0 :: rest) s =
          .error (ApplesError.keyError n0, s) := by
        rw [runAfterLoadScan, hf]
      rw [hstep] at h
      exact Except.noConfusion h
    | some me =>
      cases hml : me.loaded with
      | false =>
        have hstep : runAfterLoadScan te (n0 :: rest) s = .ok false := by
          rw [runAfterLoadScan, hf]
          simp [hml]
        rw [hstep] at h
        simp at h
      | true =>
        have hstep : runAfterLoadScan te (n0 :: rest) s =
            runAfterLoadScan te rest s := by
          rw [runAfterLoadScan, hf]
          simp [hml]
        rw [hstep] at h
        rcases List.mem_cons.mp hn with hn1 | hn1
        · intro e he
          rw [hn1, hf] at he
          rw [← Option.some.inj he]
          exact hml
        · exact ih h n hn1

theorem HL_congr_core {pd pd' : Registry} (h : coreView pd' = coreView pd)
    (hl : ∀ n e, findEntry pd n = some e → e.loaded = true) :
    ∀ n e, findEntry pd' n = some e → e.loaded = true := by
  intro n e' hf'
  obtain ⟨e, hfe, hdc⟩ := findEntry_coreView_some h hf'
  have hld : e.loaded = e'.loaded := by
    simpa [dropCL] using congrArg (fun p => p.2.2.2.1) hdc
  rw [← hld]
  exact hl n e hfe

theorem HL_congr_pass {pd pd' : Registry} (h : passViewOf pd = passViewOf pd')
    (hl : ∀ n e, findEntry pd n = some e → e.loaded = true) :
    ∀ n e, findEntry pd' n = some e → e.loaded = true := by
  intro n e' hf'
  have hmap := findEntry_congr_passView h n
  cases hf : findEntry pd n with
  | none => rw [hf, hf'] at hmap; cases hmap
  | some e =>
    rw [hf, hf'] at hmap
    simp at hmap
    have hld : e.loaded = e'.loaded := by
      simpa [passView] using congrArg (fun p => p.2.2.2) hmap
    rw [← hld]
    exact hl n e hf

theorem HL_setDirs {pd : Registry} {t : String} {ds : List Directive}
    (hl : ∀ n e, findEntry pd n = some e → e.loaded = true) :
    ∀ n e, findEntry (setDirs pd t ds) n = some e → e.loaded = true := by
  intro n e' hf'
  rw [findEntry_setDirs] at hf'
  cases hf : findEntry pd n with
  | none => rw [hf] at hf'; cases hf'
  | some e =>
    rw [hf] at hf'
    simp only [Option.map] at hf'
    have he' := Option.some.inj hf'
    have hle := hl n e hf
    by_cases hb : e.name = t
    · rw [← he']
      simp [hb, hle]
    · rw [← he']
      simp [hb, hle]

theorem evalOne_flip {m : String} {d : Directive} {n : String} {s : SchedState}
    {d1 : Directive} {s1 : SchedState}
    (h : evalOneDirective d n true s = .ok (d1, s1))
    (hl : ∀ n0 e, findEntry s.registry n0 = some e → e.loaded = true) :
    uCountD m d1 = 0 := by
  cases hk : d.directive with
  | loadBefore =>
    simp only [evalOneDirective, hk] at h
    cases hs : loadBeforeScan true (resolve_plugin_name d.module s.registry).2
        (resolve_plugin_name d.module s.registry).1 s with
    | error es => simp only [hs] at h; cases h
    | ok s0 =>
      simp only [hs] at h
      have hd1 : d = d1 := congrArg Prod.fst (Except.ok.inj h)
      rw [← hd1]
      simp [uCountD, hk]
  | loadAfter =>
    simp only [evalOneDirective, hk] at h
    cases hs : loadAfterScan n (resolve_plugin_name d.module s.registry).2
        (resolve_plugin_name d.module s.registry).1 s with
    | error es => simp only [hs] at h; cases h
    | ok s0 =>
      simp only [hs] at h
      have hd1 : d = d1 := congrArg Prod.fst (Except.ok.inj h)
      rw [← hd1]
      simp [uCountD, hk]
  | loadDeny =>
    simp only [evalOneDirective, hk] at h
    cases hs : loadDenyScan n (resolve_plugin_name d.module s.registry).2
        (resolve_plugin_name d.module s.registry).1 s with
    | error es => simp only [hs] at h; cases h
    | ok s0 =>
      simp only [hs] at h
      have hd1 : d = d1 := congrArg Prod.fst (Except.ok.inj h)
      rw [← hd1]
      simp [uCountD, hk]
  | runAfterLoad =>
    simp only [evalOneDirective, hk] at h
    by_cases hex : d.executed = true
    · rw [if_pos hex] at h
      have hd1 : d = d1 := congrArg Prod.fst (Except.ok.inj h)
      rw [← hd1]
      simp [uCountD, hex]
    · rw [if_neg hex] at h
      cases hs : runAfterLoadScan (resolve_plugin_name d.module s.registry).2
          (resolve_plugin_name d.module s.registry).1 s with
      | error es => simp only [hs] at h; cases h
      | ok b =>
        simp only [hs] at h
        cases b with
        | false => exact absurd hs (runAfterLoadScan_not_false hl)
        | true =>
          rw [if_pos trivial] at h
          have hd1 : (⟨DirKind.runAfterLoad, d.module, d.method, true⟩ : Directive) = d1 :=
            congrArg Prod.fst (Except.ok.inj h)
          rw [← hd1]
          simp [uCountD]

theorem evalDirsFold_flip {m : String} {n : String} :
    ∀ {L : List Directive} {s : SchedState} {L' : List Directive} {s' : SchedState},
      evalDirsFold n true L s = .ok (L', s') →
      (∀ n0 e, findEntry s.registry n0 = some e → e.loaded = true) →
      uCount m L' = 0 := by
  intro L
  induction L with
  | nil =>
    intro s L' s' h _
    simp only [evalDirsFold] at h
    have h1 : ([] : List Directive) = L' := congrArg Prod.fst (Except.ok.inj h)
    rw [← h1]
    rfl
  | cons d0 ds ih =>
    intro s L' s' h hl
    rw [evalDirsFold] at h
    cases hd0 : evalOneDirective d0 n true s with
    | error es => rw [hd0] at h; cases h
    | ok pr =>
      obtain ⟨d1, s1⟩ := pr
      rw [hd0] at h
      simp only [] at h
      cases hfo : evalDirsFold n true ds s1 with
      | error es => rw [hfo] at h; cases h
      | ok pr2 =>
        obtain ⟨ds1, s2⟩ := pr2
        rw [hfo] at h
        simp only [] at h
        have hL' : d1 :: ds1 = L' := congrArg Prod.fst (Except.ok.inj h)
        rw [← hL', uCount_cons]
        have hcv : coreView s1.registry = coreView s.registry := by
          rcases evalOneDirective_ok hd0 with ⟨_, hcl⟩ | ⟨_, _, _, _, hcv, _⟩
          · exact hcl.1
          · exact hcv
        rw [evalOne_flip hd0 hl, ih hfo (HL_congr_core hcv hl)]

theorem evalAll_flip {a m : String} :
    ∀ {ns : List String} {s s' : SchedState},
      evalAllDirectives ns s = .ok s' →
      (∀ n0 e, findEntry s.registry n0 = some e → e.loaded = true) →
      a ∈ ns → a ∈ namesOf s.registry →
      uCountReg s'.registry a m = 0 := by
  intro ns
  induction ns with
  | nil => intro s s' _ _ hmem; simp at hmem
  | cons n0 rest ih =>
    intro s s' h hl hmem ha
    rw [evalAllDirectives] at h
    cases hf0 : findEntry s.registry n0 with
    | none =>
      rw [hf0] at h
      by_cases hna : n0 = a
      · rw [hna, findEntry_eq_none_iff] at hf0
        exact absurd ha hf0
      · refine ih h hl ?_ ha
        rcases List.mem_cons.mp hmem with hx | hx
        · exact absurd hx.symm hna
        · exact hx
    | some subj =>
      rw [hf0] at h
      simp only [] at h
      cases hfl : evalDirsFold subj.name subj.loaded subj.loadDirectives s with
      | error es => rw [hfl] at h; cases h
      | ok pr =>
        obtain ⟨ds', s1⟩ := pr
        rw [hfl] at h
        simp only [] at h
        obtain ⟨hcv, _, _, _, _, evts, hhk, hevts⟩ := evalDirsFold_ok hfl
        have hname : subj.name = n0 := findEntry_name_eq hf0
        have hl1 : ∀ n0 e, findEntry s1.registry n0 = some e → e.loaded = true :=
          HL_congr_core hcv hl
        have hl2 : ∀ nn e, findEntry (setDirs s1.registry n0 ds') nn = some e →
            e.loaded = true := HL_setDirs hl1
        have ha2 : a ∈ namesOf (setDirs s1.registry n0 ds') := by
          rw [namesOf_setDirs,
            namesOf_of_svcView (svcView_of_passView (passView_of_coreView hcv))]
          exact ha
        by_cases hna : n0 = a
        · subst hna
          have hsl : subj.loaded = true := hl n0 subj hf0
          rw [hname, hsl] at hfl
          have huc : uCount m ds' = 0 := evalDirsFold_flip hfl hl
          obtain ⟨e1, hfe1, hdc⟩ := findEntry_coreView_some hcv.symm hf0
          have hn1 : e1.name = n0 := findEntry_name_eq hfe1
          have hfs : findEntry (setDirs s1.registry n0 ds') n0 =
              some { e1 with loadDirectives := ds' } := by
            rw [findEntry_setDirs, hfe1]
            simp [hn1]
          have hU2 : uCountReg (setDirs s1.registry n0 ds') n0 m = 0 := by
            simp [uCountReg, hfs, huc]
          have ihr := evalAll_uCount (a := n0) (m := m) h
          have hprojE : eCount n0 m ({ s1 with registry := setDirs s1.registry n0 ds' } : SchedState).hookCalls = eCount n0 m s1.hookCalls := rfl
          have hprojU : uCountReg ({ s1 with registry := setDirs s1.registry n0 ds' } : SchedState).registry n0 m = uCountReg (setDirs s1.registry n0 ds') n0 m := rfl
          rw [hprojE, hprojU, hU2] at ihr
          obtain ⟨_, _, _, _, evts2, hhk2, _⟩ := evalAllDirectives_ok h
          have hE : eCount n0 m s'.hookCalls =
              eCount n0 m s1.hookCalls + eCount n0 m evts2 := by
            rw [hhk2, eCount_append]
          omega
        · refine ih h hl2 ?_ ha2
          rcases List.mem_cons.mp hmem with hx | hx
          · exact absurd hx.symm hna
          · exact hx

theorem runCycle_eCount {a m : String} {s s' : SchedState}
    (h : runCycle s = CycleOutcome.finished s' ∨
      runCycle s = CycleOutcome.next s') :
    eCount a m s'.hookCalls + uCountReg s'.registry a m =
      eCount a m s.hookCalls + uCountReg s.registry a m := by
  cases hp : evalAllDirectives (namesOf (setCanLoadAll s.registry)) { s with registry := setCanLoadAll s.registry, cycles := s.cycles + 1 } with
  | error es =>
    obtain ⟨e0, t⟩ := es
    have hrc := runCycle_of_err hp
    rcases h with h | h <;> rw [hrc] at h <;> cases h
  | ok s2 =>
    rcases hlp : loadPhase (namesOf s2.registry) s2 false true with ⟨s3, anyL, allL⟩
    have hrc := runCycle_of_parts hp hlp
    have hs3 : s' = s3 := by
      rcases h with h | h <;> rw [hrc] at h <;> cases allL <;> cases anyL <;>
        simp at h <;> exact h.symm
    have h31 : (loadPhase (namesOf s2.registry) s2 false true).1 = s3 := by
      rw [hlp]
    have hE3 : s3.hookCalls = s2.hookCalls := by
      rw [← h31]
      exact (loadPhase_hookCalls (namesOf s2.registry) s2 false true).1
    have hU3 : uCountReg s3.registry a m = uCountReg s2.registry a m := by
      rw [← h31]
      exact uCountReg_congr_load
        (loadPhase_registry_loadView (namesOf s2.registry) s2 false true) a m
    have hpass := evalAll_uCount (a := a) (m := m) hp
    have hprojE : eCount a m ({ s with registry := setCanLoadAll s.registry, cycles := s.cycles + 1 } : SchedState).hookCalls = eCount a m s.hookCalls := rfl
    have hprojU : uCountReg ({ s with registry := setCanLoadAll s.registry, cycles := s.cycles + 1 } : SchedState).registry a m = uCountReg (setCanLoadAll s.registry) a m := rfl
    rw [hprojE, hprojU, uCountReg_setCanLoadAll] at hpass
    rw [hs3, hE3, hU3]
    exact hpass

theorem runCycle_finished_flip {a m : String} {s s' : SchedState}
    (h : runCycle s = CycleOutcome.finished s') (ha : a ∈ namesOf s.registry) :
    uCountReg s'.registry a m = 0 := by
  cases hp : evalAllDirectives (namesOf (setCanLoadAll s.registry)) { s with registry := setCanLoadAll s.registry, cycles := s.cycles + 1 } with
  | error es =>
    obtain ⟨e0, t⟩ := es
    rw [runCycle_of_err hp] at h
    cases h
  | ok s2 =>
    rcases hlp : loadPhase (namesOf s2.registry) s2 false true with ⟨s3, anyL, allL⟩
    have hrc := runCycle_of_parts hp hlp
    rw [hrc] at h
    cases hall : allL with
    | false =>
      rw [hall] at h
      cases anyL <;> simp at h
    | true =>
      rw [hall] at h
      simp at h
      have h22 : (loadPhase (namesOf s2.registry) s2 false true).2.2 = true := by
        rw [hlp, hall]
      obtain ⟨_, hid, _, hln⟩ :=
        loadPhase_all_true (namesOf s2.registry) s2 false true h22
      have hs32 : s3 = s2 := by rw [← hid, hlp]
      have hl2 : ∀ n0 e, findEntry s2.registry n0 = some e → e.loaded = true := by
        intro n0 e hfe
        exact hln n0 (findEntry_mem_namesOf hfe) e hfe
      obtain ⟨hpv, _, _, _, _⟩ := evalAllDirectives_ok hp
      have hlIN := HL_congr_pass hpv hl2
      have haIN : a ∈ namesOf (setCanLoadAll s.registry) := by
        rw [namesOf_setCanLoadAll]
        exact ha
      have hres := evalAll_flip (a := a) (m := m) hp hlIN haIN haIN
      rw [← h, hs32]
      exact hres

theorem load_plugins_loop_eCount {a m : String} :
    ∀ (fuel : Nat) (s sF : SchedState), load_plugins_loop fuel s = .ok sF →
      a ∈ namesOf s.registry →
      eCount a m sF.hookCalls =
        eCount a m s.hookCalls + uCountReg s.registry a m ∧
      uCountReg sF.registry a m = 0 := by
  intro fuel
  induction fuel with
  | zero => intro s sF h ha; cases h
  | succ k ih =>
    intro s sF h ha
    cases hrc : runCycle s with
    | finished s' =>
      rw [load_plugins_loop_finished hrc] at h
      have hsF : s' = sF := Except.ok.inj h
      subst hsF
      have hcons := runCycle_eCount (a := a) (m := m) (Or.inl hrc)
      have hflip := runCycle_finished_flip (m := m) hrc ha
      exact ⟨by omega, hflip⟩
    | failed e s' =>
      rw [load_plugins_loop_failed hrc] at h
      cases h
    | next s' =>
      rw [load_plugins_loop_next hrc] at h
      have hcons := runCycle_eCount (a := a) (m := m) (Or.inr hrc)
      have hnames := (runCycle_state_spec s).2.1
      rw [hrc] at hnames
      simp only [cycleStateOf] at hnames
      obtain ⟨ihE, ihU⟩ := ih s' sF h (by rw [hnames]; exact ha)
      exact ⟨by omega, ihU⟩

/-- C1: hook invocations are conserved — a successful run fires each
subject's `run-after-load` hooks exactly as many times as the subject
initially had pending (unexecuted) directives with that method, so a plugin
declaring one `run-after-load(B, method)` has the hook invoked exactly once,
never twice even across the extra idle cycle; and an invocation is recorded
only when the subject is loaded and every resolved object plugin is loaded
at that moment (src/__init__.py:183-205, 229-265). -/
theorem claim_C1 :
    (∀ (pd : Registry) (a m : String) (sF : SchedState),
      load_plugins pd = .ok sF → a ∈ namesOf pd →
      eCount a m sF.hookCalls = uCountReg pd a m) ∧
    (∀ (d : Directive) (n : String) (ℓ : Bool) (s : SchedState)
      (d' : Directive) (s' : SchedState),
      evalOneDirective d n ℓ s = .ok (d', s') → s'.hookCalls ≠ s.hookCalls →
      ℓ = true ∧ d.directive = DirKind.runAfterLoad ∧ d.executed = false ∧
      d' = { d with executed := true } ∧
      s'.hookCalls = s.hookCalls ++ [(n, d.method)] ∧
      ∀ nm ∈ (resolve_plugin_name d.module s.registry).1,
        loadedName s.registry nm) := by
  constructor
  · intro pd a m sF h ha
    have hres := load_plugins_loop_eCount (a := a) (m := m)
      (unloadedCount pd + 1) (initSchedState pd) sF h ha
    have hE := hres.1
    rw [show eCount a m (initSchedState pd).hookCalls = 0 from rfl,
      Nat.zero_add] at hE
    exact hE
  · intro d n ℓ s d' s' h hne
    rcases evalOneDirective_ok h with ⟨hd', hcl⟩ |
      ⟨hk, hex, hℓ, hd', hcv, hlps, hlo, hcy, hhk⟩
    · exact absurd hcl.2.2.2.1 hne
    · refine ⟨hℓ, hk, hex, hd', hhk, ?_⟩
      simp only [evalOneDirective, hk] at h
      rw [if_neg (by rw [hex]; exact Bool.false_ne_true)] at h
      cases hs : runAfterLoadScan (resolve_plugin_name d.module s.registry).2
          (resolve_plugin_name d.module s.registry).1 s with
      | error es =>
        obtain ⟨e0, s0⟩ := es
        simp only [hs] at h
        cases h
      | ok b =>
        simp only [hs] at h
        cases b with
        | false =>
          have hss : s = s' := congrArg Prod.snd (Except.ok.inj h)
          exact absurd (by rw [← hss]) hne
        | true =>
          exact runAfterLoadScan_true_loaded hs

/-- Witness for claim C1: `v` declares `run-after-load(u, go)`; the run
fires `go` exactly once. -/
theorem claim_C1_witness :
    eCount "v" "go" (stOf (load_plugins [mkEntry "u" [],
        mkEntry "v" [⟨DirKind.runAfterLoad, "u", "go", false⟩]])).hookCalls =
      uCountReg [mkEntry "u" [],
        mkEntry "v" [⟨DirKind.runAfterLoad, "u", "go", false⟩]] "v" "go" :=
  claim_C1.1 [mkEntry "u" [], mkEntry "v" [⟨DirKind.runAfterLoad, "u", "go", false⟩]]
    "v" "go"
    (stOf (load_plugins [mkEntry "u" [],
      mkEntry "v" [⟨DirKind.runAfterLoad, "u", "go", false⟩]]))
    (by rfl) (by decide)

/-! ### Replacing `load-before` by the converse `load-after`: basic facts -/

theorem svcView_rel {a b : String} {d₁ d₂ : Directive} {c₁ c₂ cond : Bool}
    {pd₁ pd₂ : Registry}
    (h : List.Forall₂ (entRel a b d₁ d₂ c₁ c₂ cond) pd₁ pd₂) :
    svcView pd₁ = svcView pd₂ := by
  induction h with
  | nil => rfl
  | @cons e₁ e₂ r₁ r₂ hr ht ih =>
    simp only [svcView, List.map_cons] at ih ⊢
    rw [hr.1, hr.2.2.1, ih]

theorem namesOf_rel {a b : String} {d₁ d₂ : Directive} {c₁ c₂ cond : Bool}
    {pd₁ pd₂ : Registry}
    (h : List.Forall₂ (entRel a b d₁ d₂ c₁ c₂ cond) pd₁ pd₂) :
    namesOf pd₁ = namesOf pd₂ :=
  namesOf_of_svcView (svcView_rel h)

theorem findEntry_rel {a b : String} {d₁ d₂ : Directive} {c₁ c₂ cond : Bool}
    {pd₁ pd₂ : Registry}
    (h : List.Forall₂ (entRel a b d₁ d₂ c₁ c₂ cond) pd₁ pd₂) (n : String) :
    (findEntry pd₁ n = none ∧ findEntry pd₂ n = none) ∨
    (∃ e₁ e₂, findEntry pd₁ n = some e₁ ∧ findEntry pd₂ n = some e₂ ∧
      entRel a b d₁ d₂ c₁ c₂ cond e₁ e₂) := by
  induction h with
  | nil => left; exact ⟨rfl, rfl⟩
  | @cons e₁ e₂ r₁ r₂ hr ht ih =>
    by_cases hn : e₁.name = n
    · right
      have hn2 : e₂.name = n := hr.1.symm.trans hn
      exact ⟨e₁, e₂, by simp [findEntry, hn], by simp [findEntry, hn2], hr⟩
    · have hn2 : ¬ e₂.name = n := fun hh => hn (hr.1.trans hh)
      rcases ih with ⟨h1, h2⟩ | ⟨f₁, f₂, hf₁, hf₂, hrr⟩
      · left
        exact ⟨by simp [findEntry, hn, h1], by simp [findEntry, hn2, h2]⟩
      · right
        exact ⟨f₁, f₂, by simp [findEntry, hn, hf₁],
          by simp [findEntry, hn2, hf₂], hrr⟩

theorem clearCanLoad_rel {a b : String} {d₁ d₂ : Directive} {c₁ c₂ cond : Bool}
    {pd₁ pd₂ : Registry} (nm : String)
    (h : List.Forall₂ (entRel a b d₁ d₂ c₁ c₂ cond) pd₁ pd₂) :
    List.Forall₂ (entRel a b d₁ d₂ c₁ c₂ cond)
      (clearCanLoad pd₁ nm) (clearCanLoad pd₂ nm) := by
  induction h with
  | nil => exact List.Forall₂.nil
  | @cons e₁ e₂ r₁ r₂ hr ht ih =>
    refine List.Forall₂.cons ?_ ih
    simp only []
    by_cases hn : e₁.name = nm
    · have hn2 : e₂.name = nm := hr.1.symm.trans hn
      rw [if_pos hn, if_pos hn2]
      obtain ⟨h1, h2, h3, h4, h5, h6, h7, h8, h9⟩ := hr
      exact ⟨h1, h2, h3, h4, h5, h6, h7, fun _ => rfl,
        fun _ => ⟨false, by simp, by simp⟩⟩
    · have hn2 : ¬ e₂.name = nm := fun hh => hn (hr.1.trans hh)
      rw [if_neg hn, if_neg hn2]
      exact hr

theorem setLoaded_rel {a b : String} {d₁ d₂ : Directive} {c₁ c₂ cond : Bool}
    {pd₁ pd₂ : Registry} (nm : String)
    (h : List.Forall₂ (entRel a b d₁ d₂ c₁ c₂ cond) pd₁ pd₂) :
    List.Forall₂ (entRel a b d₁ d₂ c₁ c₂ cond)
      (setLoaded pd₁ nm) (setLoaded pd₂ nm) := by
  induction h with
  | nil => exact List.Forall₂.nil
  | @cons e₁ e₂ r₁ r₂ hr ht ih =>
    refine List.Forall₂.cons ?_ ih
    simp only []
    by_cases hn : e₁.name = nm
    · have hn2 : e₂.name = nm := hr.1.symm.trans hn
      rw [if_pos hn, if_pos hn2]
      obtain ⟨h1, h2, h3, h4, h5, h6, h7, h8, h9⟩ := hr
      exact ⟨h1, h2, h3, rfl, h5, h6, h7, h8, h9⟩
    · have hn2 : ¬ e₂.name = nm := fun hh => hn (hr.1.trans hh)
      rw [if_neg hn, if_neg hn2]
      exact hr

theorem setDirs_rel {a b : String} {d₁ d₂ : Directive} {c₁ c₂ cond : Bool}
    {pd₁ pd₂ : Registry} {nm : String} {ds₁ ds₂ : List Directive}
    (hda : nm = a → ∃ u v, ds₁ = u ++ d₁ :: v ∧ ds₂ = u ++ v)
    (hdb : nm = b → ∃ w z, ds₁ = w ++ z ∧ ds₂ = w ++ d₂ :: z)
    (hdo : nm ≠ a → nm ≠ b → ds₁ = ds₂)
    (h : List.Forall₂ (entRel a b d₁ d₂ c₁ c₂ cond) pd₁ pd₂) :
    List.Forall₂ (entRel a b d₁ d₂ c₁ c₂ cond)
      (setDirs pd₁ nm ds₁) (setDirs pd₂ nm ds₂) := by
  induction h with
  | nil => exact List.Forall₂.nil
  | @cons e₁ e₂ r₁ r₂ hr ht ih =>
    refine List.Forall₂.cons ?_ ih
    simp only []
    by_cases hn : e₁.name = nm
    · have hn2 : e₂.name = nm := hr.1.symm.trans hn
      rw [if_pos hn, if_pos hn2]
      obtain ⟨h1, h2, h3, h4, h5, h6, h7, h8, h9⟩ := hr
      refine ⟨h1, h2, h3, h4, ?_, ?_, ?_, h8, h9⟩
      · intro hea
        exact hda (hn.symm.trans hea)
      · intro heb
        exact hdb (hn.symm.trans heb)
      · intro hea heb
        exact hdo (fun hh => hea (hn.trans hh)) (fun hh => heb (hn.trans hh))
    · have hn2 : ¬ e₂.name = nm := fun hh => hn (hr.1.trans hh)
      rw [if_neg hn, if_neg hn2]
      exact hr

theorem regRel_retime {a b : String} {d₁ d₂ : Directive} {c cond : Bool}
    (cond' : Bool) {pd₁ pd₂ : Registry}
    (h : List.Forall₂ (entRel a b d₁ d₂ c c cond) pd₁ pd₂) :
    List.Forall₂ (entRel a b d₁ d₂ false false cond') pd₁ pd₂ := by
  refine List.Forall₂.imp ?_ h
  intro e₁ e₂ hr
  obtain ⟨h1, h2, h3, h4, h5, h6, h7, h8, h9⟩ := hr
  refine ⟨h1, h2, h3, h4, h5, h6, h7, h8, ?_⟩
  intro heb
  obtain ⟨x, hx1, hx2⟩ := h9 heb
  refine ⟨e₁.canLoad, by simp, ?_⟩
  rw [hx2, ← hx1]
  simp

theorem regRel_flag₁ {a b : String} {d₁ d₂ : Directive} {c₁ c₂ : Bool}
    {pd₁ pd₂ : Registry}
    (h : List.Forall₂ (entRel a b d₁ d₂ c₁ c₂ false) pd₁ pd₂) :
    List.Forall₂ (entRel a b d₁ d₂ true c₂ false) pd₁ pd₂ := by
  refine List.Forall₂.imp ?_ h
  intro e₁ e₂ hr
  obtain ⟨h1, h2, h3, h4, h5, h6, h7, h8, h9⟩ := hr
  refine ⟨h1, h2, h3, h4, h5, h6, h7, h8, ?_⟩
  intro heb
  obtain ⟨x, hx1, hx2⟩ := h9 heb
  exact ⟨x, by simpa using hx1, hx2⟩

theorem regRel_flag₂ {a b : String} {d₁ d₂ : Directive} {c₁ c₂ : Bool}
    {pd₁ pd₂ : Registry}
    (h : List.Forall₂ (entRel a b d₁ d₂ c₁ c₂ false) pd₁ pd₂) :
    List.Forall₂ (entRel a b d₁ d₂ c₁ true false) pd₁ pd₂ := by
  refine List.Forall₂.imp ?_ h
  intro e₁ e₂ hr
  obtain ⟨h1, h2, h3, h4, h5, h6, h7, h8, h9⟩ := hr
  refine ⟨h1, h2, h3, h4, h5, h6, h7, h8, ?_⟩
  intro heb
  obtain ⟨x, hx1, hx2⟩ := h9 heb
  exact ⟨x, hx1, by simpa using hx2⟩

theorem regRel_clear₁ {a b : String} {d₁ d₂ : Directive} {c₁ c₂ : Bool}
    {pd₁ pd₂ : Registry}
    (h : List.Forall₂ (entRel a b d₁ d₂ c₁ c₂ true) pd₁ pd₂) :
    List.Forall₂ (entRel a b d₁ d₂ true c₂ true) (clearCanLoad pd₁ b) pd₂ := by
  induction h with
  | nil => exact List.Forall₂.nil
  | @cons e₁ e₂ r₁ r₂ hr ht ih =>
    refine List.Forall₂.cons ?_ ih
    simp only []
    obtain ⟨h1, h2, h3, h4, h5, h6, h7, h8, h9⟩ := hr
    by_cases hn : e₁.name = b
    · rw [if_pos hn]
      obtain ⟨x, hx1, hx2⟩ := h9 hn
      refine ⟨h1, h2, h3, h4, h5, h6, h7, fun hh => absurd hn hh, ?_⟩
      intro _
      exact ⟨x, by simp, hx2⟩
    · rw [if_neg hn]
      exact ⟨h1, h2, h3, h4, h5, h6, h7, h8,
        fun hh => absurd hh hn⟩

theorem regRel_clear₂ {a b : String} {d₁ d₂ : Directive} {c₁ c₂ : Bool}
    {pd₁ pd₂ : Registry}
    (h : List.Forall₂ (entRel a b d₁ d₂ c₁ c₂ true) pd₁ pd₂) :
    List.Forall₂ (entRel a b d₁ d₂ c₁ true true) pd₁ (clearCanLoad pd₂ b) := by
  induction h with
  | nil => exact List.Forall₂.nil
  | @cons e₁ e₂ r₁ r₂ hr ht ih =>
    refine List.Forall₂.cons ?_ ih
    simp only []
    obtain ⟨h1, h2, h3, h4, h5, h6, h7, h8, h9⟩ := hr
    by_cases hn : e₁.name = b
    · have hn2 : e₂.name = b := h1.symm.trans hn
      rw [if_pos hn2]
      obtain ⟨x, hx1, hx2⟩ := h9 hn
      refine ⟨h1, h2, h3, h4, h5, h6, h7, fun hh => absurd hn hh, ?_⟩
      intro _
      exact ⟨x, hx1, by simp⟩
    · have hn2 : ¬ e₂.name = b := fun hh => hn (h1.trans hh)
      rw [if_neg hn2]
      exact ⟨h1, h2, h3, h4, h5, h6, h7, h8, fun hh => absurd hh hn⟩

theorem setCanLoadAll_rel {a b : String} {d₁ d₂ : Directive} {c₁ c₂ cond : Bool}
    (cond' : Bool) {pd₁ pd₂ : Registry}
    (h : List.Forall₂ (entRel a b d₁ d₂ c₁ c₂ cond) pd₁ pd₂) :
    List.Forall₂ (entRel a b d₁ d₂ false false cond')
      (setCanLoadAll pd₁) (setCanLoadAll pd₂) := by
  induction h with
  | nil => exact List.Forall₂.nil
  | @cons e₁ e₂ r₁ r₂ hr ht ih =>
    refine List.Forall₂.cons ?_ ih
    simp only []
    obtain ⟨h1, h2, h3, h4, h5, h6, h7, h8, h9⟩ := hr
    exact ⟨h1, h2, h3, h4, h5, h6, h7, fun _ => rfl,
      fun _ => ⟨true, by simp, by simp⟩⟩

theorem unloadedCount_rel {a b : String} {d₁ d₂ : Directive} {c₁ c₂ cond : Bool}
    {pd₁ pd₂ : Registry}
    (h : List.Forall₂ (entRel a b d₁ d₂ c₁ c₂ cond) pd₁ pd₂) :
    unloadedCount pd₁ = unloadedCount pd₂ := by
  induction h with
  | nil => rfl
  | @cons e₁ e₂ r₁ r₂ hr ht ih =>
    simp only [unloadedCount, List.filter_cons] at ih ⊢
    rw [hr.2.2.2.1]
    cases e₂.loaded <;> simp [ih]

theorem assocSet_fst {α : Type} {l₁ l₂ : List (String × α)} (k : String)
    (v₁ v₂ : α) (h : l₁.map Prod.fst = l₂.map Prod.fst) :
    (assocSet l₁ k v₁).map Prod.fst = (assocSet l₂ k v₂).map Prod.fst := by
  have hany : ∀ {la lb : List (String × α)},
      la.map Prod.fst = lb.map Prod.fst →
      la.any (fun p => p.1 = k) = lb.any (fun p => p.1 = k) := by
    intro la
    induction la with
    | nil =>
      intro lb hh
      cases lb with
      | nil => rfl
      | cons q qs => simp at hh
    | cons p ps ihp =>
      intro lb hh
      cases lb with
      | nil => simp at hh
      | cons q qs =>
        simp only [List.map_cons, List.cons.injEq] at hh
        simp only [List.any_cons, hh.1, ihp hh.2]
  have hany2 := hany h
  have hm : ∀ (l : List (String × α)) (v : α),
      ((l.map (fun p => if p.1 = k then (k, v) else p)).map Prod.fst) =
        (l.map Prod.fst).map (fun x => if x = k then k else x) := by
    intro l v
    induction l with
    | nil => rfl
    | cons p ps ihp =>
      simp only [List.map_cons, ihp]
      by_cases hp : p.1 = k <;> simp [hp]
  cases h2 : l₂.any (fun p => p.1 = k) with
  | true =>
    have h1' : l₁.any (fun p => p.1 = k) = true := by rw [hany2, h2]
    rw [assocSet, assocSet, if_pos h1', if_pos h2, hm, hm, h]
  | false =>
    have h1' : l₁.any (fun p => p.1 = k) = false := by rw [hany2, h2]
    rw [assocSet, assocSet,
      if_neg (by rw [h1']; exact Bool.false_ne_true),
      if_neg (by rw [h2]; exact Bool.false_ne_true)]
    simp [h]

/-! ### Scan-level bisimulations -/

theorem loadBeforeScan_bisim {a b : String} {d₁ d₂ : Directive}
    {c₁ c₂ cond : Bool} {ℓ : Bool} {te : Option ApplesError} :
    ∀ (ns : List String) {s t : SchedState},
      stRel a b d₁ d₂ c₁ c₂ cond s t →
      exRelV (stRel a b d₁ d₂ c₁ c₂ cond) (stRel a b d₁ d₂ c₁ c₂ cond)
        (loadBeforeScan ℓ te ns s) (loadBeforeScan ℓ te ns t) := by
  intro ns
  induction ns with
  | nil =>
    intro s t h
    cases te with
    | none => exact h
    | some e => exact ⟨rfl, h⟩
  | cons n rest ih =>
    intro s t h
    rcases findEntry_rel h.1 n with ⟨hf₁, hf₂⟩ | ⟨e₁, e₂, hf₁, hf₂, hr⟩
    · have h1 : loadBeforeScan ℓ te (n :: rest) s =
          .error (ApplesError.keyError n, s) := by rw [loadBeforeScan, hf₁]
      have h2 : loadBeforeScan ℓ te (n :: rest) t =
          .error (ApplesError.keyError n, t) := by rw [loadBeforeScan, hf₂]
      rw [h1, h2]
      exact ⟨rfl, h⟩
    · have h1 : loadBeforeScan ℓ te (n :: rest) s = loadBeforeScan ℓ te rest
          (if !ℓ then { s with registry := clearCanLoad s.registry n } else s) := by
        rw [loadBeforeScan, hf₁]
      have h2 : loadBeforeScan ℓ te (n :: rest) t = loadBeforeScan ℓ te rest
          (if !ℓ then { t with registry := clearCanLoad t.registry n } else t) := by
        rw [loadBeforeScan, hf₂]
      rw [h1, h2]
      apply ih
      cases ℓ with
      | true => exact h
      | false => exact ⟨clearCanLoad_rel n h.1, h.2.1, h.2.2.1, h.2.2.2.1,
          h.2.2.2.2⟩

theorem loadAfterScan_bisim {a b : String} {d₁ d₂ : Directive}
    {c₁ c₂ cond : Bool} {sn : String} {te : Option ApplesError} :
    ∀ (ns : List String) {s t : SchedState},
      stRel a b d₁ d₂ c₁ c₂ cond s t →
      exRelV (stRel a b d₁ d₂ c₁ c₂ cond) (stRel a b d₁ d₂ c₁ c₂ cond)
        (loadAfterScan sn te ns s) (loadAfterScan sn te ns t) := by
  intro ns
  induction ns with
  | nil =>
    intro s t h
    cases te with
    | none => exact h
    | some e => exact ⟨rfl, h⟩
  | cons n rest ih =>
    intro s t h
    rcases findEntry_rel h.1 n with ⟨hf₁, hf₂⟩ | ⟨e₁, e₂, hf₁, hf₂, hr⟩
    · have h1 : loadAfterScan sn te (n :: rest) s =
          .error (ApplesError.keyError n, s) := by rw [loadAfterScan, hf₁]
      have h2 : loadAfterScan sn te (n :: rest) t =
          .error (ApplesError.keyError n, t) := by rw [loadAfterScan, hf₂]
      rw [h1, h2]
      exact ⟨rfl, h⟩
    · have h1 : loadAfterScan sn te (n :: rest) s = loadAfterScan sn te rest
          (if !e₁.loaded then { s with registry := clearCanLoad s.registry sn } else s) := by
        rw [loadAfterScan, hf₁]
      have h2 : loadAfterScan sn te (n :: rest) t = loadAfterScan sn te rest
          (if !e₂.loaded then { t with registry := clearCanLoad t.registry sn } else t) := by
        rw [loadAfterScan, hf₂]
      rw [h1, h2]
      have hml : e₂.loaded = e₁.loaded := hr.2.2.2.1.symm
      rw [hml]
      apply ih
      cases e₁.loaded with
      | true => exact h
      | false => exact ⟨clearCanLoad_rel sn h.1, h.2.1, h.2.2.1, h.2.2.2.1,
          h.2.2.2.2⟩

theorem loadDenyScan_bisim {a b : String} {d₁ d₂ : Directive}
    {c₁ c₂ cond : Bool} {sn : String} {te : Option ApplesError} :
    ∀ (ns : List String) {s t : SchedState},
      stRel a b d₁ d₂ c₁ c₂ cond s t →
      exRelV (stRel a b d₁ d₂ c₁ c₂ cond) (stRel a b d₁ d₂ c₁ c₂ cond)
        (loadDenyScan sn te ns s) (loadDenyScan sn te ns t) := by
  intro ns
  induction ns with
  | nil =>
    intro s t h
    cases te with
    | none => exact h
    | some e => exact ⟨rfl, h⟩
  | cons n rest ih =>
    intro s t h
    rcases findEntry_rel h.1 n with ⟨hf₁, hf₂⟩ | ⟨e₁, e₂, hf₁, hf₂, hr⟩
    · have h1 : loadDenyScan sn te (n :: rest) s =
          .error (ApplesError.keyError n, s) := by rw [loadDenyScan, hf₁]
      have h2 : loadDenyScan sn te (n :: rest) t =
          .error (ApplesError.keyError n, t) := by rw [loadDenyScan, hf₂]
      rw [h1, h2]
      exact ⟨rfl, h⟩
    · by_cases hns : n = sn
      · have h1 : loadDenyScan sn te (n :: rest) s = loadDenyScan sn te rest s := by
          rw [loadDenyScan, hf₁]
          simp [hns]
        have h2 : loadDenyScan sn te (n :: rest) t = loadDenyScan sn te rest t := by
          rw [loadDenyScan, hf₂]
          simp [hns]
        rw [h1, h2]
        exact ih h
      · have h1 : loadDenyScan sn te (n :: rest) s =
            .error (ApplesError.deniedPlugin, s) := by
          rw [loadDenyScan, hf₁]
          simp [hns, hf₁]
        have h2 : loadDenyScan sn te (n :: rest) t =
            .error (ApplesError.deniedPlugin, t) := by
          rw [loadDenyScan, hf₂]
          simp [hns, hf₂]
        rw [h1, h2]
        exact ⟨rfl, h⟩

theorem runAfterLoadScan_bisim {a b : String} {d₁ d₂ : Directive}
    {c₁ c₂ cond : Bool} {te : Option ApplesError} :
    ∀ (ns : List String) {s t : SchedState},
      stRel a b d₁ d₂ c₁ c₂ cond s t →
      exRelV (fun b₁ b₂ => b₁ = b₂) (stRel a b d₁ d₂ c₁ c₂ cond)
        (runAfterLoadScan te ns s) (runAfterLoadScan te ns t) := by
  intro ns
  induction ns with
  | nil =>
    intro s t h
    cases te with
    | none => exact rfl
    | some e => exact ⟨rfl, h⟩
  | cons n rest ih =>
    intro s t h
    rcases findEntry_rel h.1 n with ⟨hf₁, hf₂⟩ | ⟨e₁, e₂, hf₁, hf₂, hr⟩
    · have h1 : runAfterLoadScan te (n :: rest) s =
          .error (ApplesError.keyError n, s) := by rw [runAfterLoadScan, hf₁]
      have h2 : runAfterLoadScan te (n :: rest) t =
          .error (ApplesError.keyError n, t) := by rw [runAfterLoadScan, hf₂]
      rw [h1, h2]
      exact ⟨rfl, h⟩
    · have hml : e₂.loaded = e₁.loaded := hr.2.2.2.1.symm
      cases hl1 : e₁.loaded with
      | false =>
        have h1 : runAfterLoadScan te (n :: rest) s = .ok false := by
          rw [runAfterLoadScan, hf₁]
          simp [hl1]
        have h2 : runAfterLoadScan te (n :: rest) t = .ok false := by
          rw [runAfterLoadScan, hf₂]
          simp [hml, hl1]
        rw [h1, h2]
        exact rfl
      | true =>
        have h1 : runAfterLoadScan te (n :: rest) s =
            runAfterLoadScan te rest s := by
          rw [runAfterLoadScan, hf₁]
          simp [hl1]
        have h2 : runAfterLoadScan te (n :: rest) t =
            runAfterLoadScan te rest t := by
          rw [runAfterLoadScan, hf₂]
          simp [hml, hl1]
        rw [h1, h2]
        exact ih h

/-! ### Directive-level bisimulation and the two ordering directives -/

theorem evalOne_bisim {a b : String} {d₁ d₂ : Directive} {c₁ c₂ cond : Bool}
    {d : Directive} {n : String} {ℓ : Bool} {s t : SchedState}
    (h : stRel a b d₁ d₂ c₁ c₂ cond s t) :
    exRelV (fun p q => p.1 = q.1 ∧ stRel a b d₁ d₂ c₁ c₂ cond p.2 q.2)
      (stRel a b d₁ d₂ c₁ c₂ cond)
      (evalOneDirective d n ℓ s) (evalOneDirective d n ℓ t) := by
  have hres : resolve_plugin_name d.module t.registry =
      resolve_plugin_name d.module s.registry :=
    (resolve_congr (svcView_rel h.1) d.module).symm
  cases hk : d.directive with
  | loadBefore =>
    simp only [evalOneDirective, hk]
    rw [hres]
    have hsc := @loadBeforeScan_bisim a b d₁ d₂ c₁ c₂ cond ℓ
      ((resolve_plugin_name d.module s.registry).2)
      ((resolve_plugin_name d.module s.registry).1) s t h
    cases hX : loadBeforeScan ℓ (resolve_plugin_name d.module s.registry).2
        (resolve_plugin_name d.module s.registry).1 s with
    | error es =>
      rw [hX] at hsc
      cases hY : loadBeforeScan ℓ (resolve_plugin_name d.module s.registry).2
          (resolve_plugin_name d.module s.registry).1 t with
      | error et =>
        rw [hY] at hsc
        obtain ⟨ex, sx⟩ := es
        obtain ⟨ey, ty⟩ := et
        exact ⟨hsc.1, hsc.2⟩
      | ok t1 =>
        rw [hY] at hsc
        exact hsc.elim
    | ok s1 =>
      rw [hX] at hsc
      cases hY : loadBeforeScan ℓ (resolve_plugin_name d.module s.registry).2
          (resolve_plugin_name d.module s.registry).1 t with
      | error et =>
        rw [hY] at hsc
        exact hsc.elim
      | ok t1 =>
        rw [hY] at hsc
        exact ⟨rfl, hsc⟩
  | loadAfter =>
    simp only [evalOneDirective, hk]
    rw [hres]
    have hsc := @loadAfterScan_bisim a b d₁ d₂ c₁ c₂ cond n
      ((resolve_plugin_name d.module s.registry).2)
      ((resolve_plugin_name d.module s.registry).1) s t h
    cases hX : loadAfterScan n (resolve_plugin_name d.module s.registry).2
        (resolve_plugin_name d.module s.registry).1 s with
    | error es =>
      rw [hX] at hsc
      cases hY : loadAfterScan n (resolve_plugin_name d.module s.registry).2
          (resolve_plugin_name d.module s.registry).1 t with
      | error et =>
        rw [hY] at hsc
        obtain ⟨ex, sx⟩ := es
        obtain ⟨ey, ty⟩ := et
        exact ⟨hsc.1, hsc.2⟩
      | ok t1 =>
        rw [hY] at hsc
        exact hsc.elim
    | ok s1 =>
      rw [hX] at hsc
      cases hY : loadAfterScan n (resolve_plugin_name d.module s.registry).2
          (resolve_plugin_name d.module s.registry).1 t with
      | error et =>
        rw [hY] at hsc
        exact hsc.elim
      | ok t1 =>
        rw [hY] at hsc
        exact ⟨rfl, hsc⟩
  | loadDeny =>
    simp only [evalOneDirective, hk]
    rw [hres]
    have hsc := @loadDenyScan_bisim a b d₁ d₂ c₁ c₂ cond n
      ((resolve_plugin_name d.module s.registry).2)
      ((resolve_plugin_name d.module s.registry).1) s t h
    cases hX : loadDenyScan n (resolve_plugin_name d.module s.registry).2
        (resolve_plugin_name d.module s.registry).1 s with
    | error es =>
      rw [hX] at hsc
      cases hY : loadDenyScan n (resolve_plugin_name d.module s.registry).2
          (resolve_plugin_name d.module s.registry).1 t with
      | error et =>
        rw [hY] at hsc
        obtain ⟨ex, sx⟩ := es
        obtain ⟨ey, ty⟩ := et
        exact ⟨hsc.1, hsc.2⟩
      | ok t1 =>
        rw [hY] at hsc
        exact hsc.elim
    | ok s1 =>
      rw [hX] at hsc
      cases hY : loadDenyScan n (resolve_plugin_name d.module s.registry).2
          (resolve_plugin_name d.module s.registry).1 t with
      | error et =>
        rw [hY] at hsc
        exact hsc.elim
      | ok t1 =>
        rw [hY] at hsc
        exact ⟨rfl, hsc⟩
  | runAfterLoad =>
    simp only [evalOneDirective, hk]
    by_cases hex : d.executed = true
    · rw [if_pos hex, if_pos hex]
      exact ⟨rfl, h⟩
    · rw [if_neg hex, if_neg hex]
      rw [hres]
      have hsc := @runAfterLoadScan_bisim a b d₁ d₂ c₁ c₂ cond
        ((resolve_plugin_name d.module s.registry).2)
        ((resolve_plugin_name d.module s.registry).1) s t h
      cases hX : runAfterLoadScan (resolve_plugin_name d.module s.registry).2
          (resolve_plugin_name d.module s.registry).1 s with
      | error es =>
        rw [hX] at hsc
        cases hY : runAfterLoadScan (resolve_plugin_name d.module s.registry).2
            (resolve_plugin_name d.module s.registry).1 t with
        | error et =>
          rw [hY] at hsc
          obtain ⟨ex, sx⟩ := es
          obtain ⟨ey, ty⟩ := et
          exact ⟨hsc.1, hsc.2⟩
        | ok bt =>
          rw [hY] at hsc
          exact hsc.elim
      | ok bs =>
        rw [hX] at hsc
        cases hY : runAfterLoadScan (resolve_plugin_name d.module s.registry).2
            (resolve_plugin_name d.module s.registry).1 t with
        | error et =>
          rw [hY] at hsc
          exact hsc.elim
        | ok bt =>
          rw [hY] at hsc
          rw [← hsc]
          cases bs with
          | false => exact ⟨rfl, h⟩
          | true =>
            cases ℓ with
            | false => exact ⟨rfl, h⟩
            | true =>
              refine ⟨rfl, h.1, h.2.1, h.2.2.1, ?_, h.2.2.2.2⟩
              have hh : s.hookCalls = t.hookCalls := h.2.2.2.1
              show s.hookCalls ++ [(n, d.method)] = t.hookCalls ++ [(n, d.method)]
              rw [hh]

theorem evalOne_special₁ {d₁ : Directive} {a b : String} {ℓ : Bool}
    {s : SchedState} (hk : d₁.directive = DirKind.loadBefore)
    (hm : d₁.module = b) (hw : ¬ isWildcardRef b)
    (hbreg : b ∈ namesOf s.registry) :
    evalOneDirective d₁ a ℓ s =
      .ok (d₁, if !ℓ then { s with registry := clearCanLoad s.registry b }
        else s) := by
  have hr1 : (resolve_plugin_name d₁.module s.registry).1 = [b] := by
    simp [resolve_plugin_name, hm, hw]
  have hr2 : (resolve_plugin_name d₁.module s.registry).2 = none := by
    simp [resolve_plugin_name, hm, hw]
  obtain ⟨eb, hfb⟩ : ∃ e, findEntry s.registry b = some e := by
    cases hf : findEntry s.registry b with
    | none =>
      rw [findEntry_eq_none_iff] at hf
      exact absurd hbreg hf
    | some e => exact ⟨e, rfl⟩
  simp only [evalOneDirective, hk]
  rw [hr1, hr2]
  rw [show loadBeforeScan ℓ none [b] s =
      .ok (if !ℓ then { s with registry := clearCanLoad s.registry b } else s)
    from by
      rw [loadBeforeScan, hfb]
      simp [loadBeforeScan]]

theorem evalOne_special₂ {d₂ : Directive} {a b : String} {ℓ cond : Bool}
    {t : SchedState} {eA : PluginEntry} (hk : d₂.directive = DirKind.loadAfter)
    (hm : d₂.module = a) (hw : ¬ isWildcardRef a)
    (hfa : findEntry t.registry a = some eA) (hl : eA.loaded = !cond) :
    evalOneDirective d₂ b ℓ t =
      .ok (d₂, if cond then { t with registry := clearCanLoad t.registry b }
        else t) := by
  have hr1 : (resolve_plugin_name d₂.module t.registry).1 = [a] := by
    simp [resolve_plugin_name, hm, hw]
  have hr2 : (resolve_plugin_name d₂.module t.registry).2 = none := by
    simp [resolve_plugin_name, hm, hw]
  simp only [evalOneDirective, hk]
  rw [hr1, hr2]
  rw [show loadAfterScan b none [a] t =
      .ok (if cond then { t with registry := clearCanLoad t.registry b } else t)
    from by
      rw [loadAfterScan, hfa]
      simp [loadAfterScan, hl, Bool.not_not]]

theorem stRel_condClear₁ {a b : String} {d₁ d₂ : Directive} {c₁ c₂ cond : Bool}
    {s t : SchedState} (h : stRel a b d₁ d₂ c₁ c₂ cond s t) :
    stRel a b d₁ d₂ true c₂ cond (condClear b cond s) t := by
  cases cond with
  | false =>
    have hc : condClear b false s = s := by simp [condClear]
    rw [hc]
    exact ⟨regRel_flag₁ h.1, h.2.1, h.2.2.1, h.2.2.2.1, h.2.2.2.2⟩
  | true =>
    have hc : condClear b true s =
        { s with registry := clearCanLoad s.registry b } := by simp [condClear]
    rw [hc]
    exact ⟨regRel_clear₁ h.1, h.2.1, h.2.2.1, h.2.2.2.1, h.2.2.2.2⟩

theorem stRel_condClear₂ {a b : String} {d₁ d₂ : Directive} {c₁ c₂ cond : Bool}
    {s t : SchedState} (h : stRel a b d₁ d₂ c₁ c₂ cond s t) :
    stRel a b d₁ d₂ c₁ true cond s (condClear b cond t) := by
  cases cond with
  | false =>
    have hc : condClear b false t = t := by simp [condClear]
    rw [hc]
    exact ⟨regRel_flag₂ h.1, h.2.1, h.2.2.1, h.2.2.2.1, h.2.2.2.2⟩
  | true =>
    have hc : condClear b true t =
        { t with registry := clearCanLoad t.registry b } := by simp [condClear]
    rw [hc]
    exact ⟨regRel_clear₂ h.1, h.2.1, h.2.2.1, h.2.2.2.1, h.2.2.2.2⟩

/-! ### Folding a directive list on both sides -/

theorem evalDirsFold_append {n : String} {ℓ : Bool} :
    ∀ (X Y : List Directive) (s : SchedState),
      evalDirsFold n ℓ (X ++ Y) s =
        match evalDirsFold n ℓ X s with
        | .error es => .error es
        | .ok (X', s') =>
          match evalDirsFold n ℓ Y s' with
          | .error es => .error es
          | .ok (Y', s'') => .ok (X' ++ Y', s'') := by
  intro X
  induction X with
  | nil =>
    intro Y s
    rw [List.nil_append]
    cases hY : evalDirsFold n ℓ Y s with
    | error es => simp [evalDirsFold, hY]
    | ok pr =>
      obtain ⟨Y', s''⟩ := pr
      simp [evalDirsFold, hY]
  | cons d ds ih =>
    intro Y s
    rw [List.cons_append]
    rw [show evalDirsFold n ℓ (d :: (ds ++ Y)) s =
      match evalOneDirective d n ℓ s with
      | .error es => .error es
      | .ok (d', s') =>
        match evalDirsFold n ℓ (ds ++ Y) s' with
        | .error es => .error es
        | .ok (ds', s'') => .ok (d' :: ds', s'') from by rw [evalDirsFold]]
    rw [show evalDirsFold n ℓ (d :: ds) s =
      match evalOneDirective d n ℓ s with
      | .error es => .error es
      | .ok (d', s') =>
        match evalDirsFold n ℓ ds s' with
        | .error es => .error es
        | .ok (ds', s'') => .ok (d' :: ds', s'') from by rw [evalDirsFold]]
    cases hE : evalOneDirective d n ℓ s with
    | error es =>
      obtain ⟨e0, s0⟩ := es
      rfl
    | ok pr =>
      obtain ⟨d', s'⟩ := pr
      simp only []
      rw [ih Y s']
      cases hDs : evalDirsFold n ℓ ds s' with
      | error es =>
        obtain ⟨e0, s0⟩ := es
        rfl
      | ok pr2 =>
        obtain ⟨ds', s''⟩ := pr2
        simp only []
        cases hYf : evalDirsFold n ℓ Y s'' with
        | error es =>
          obtain ⟨e0, s0⟩ := es
          rfl
        | ok pr3 =>
          obtain ⟨Y', s3⟩ := pr3
          simp

theorem evalDirsFold_bisim {a b : String} {d₁ d₂ : Directive}
    {c₁ c₂ cond : Bool} {n : String} {ℓ : Bool} :
    ∀ (L : List Directive) {s t : SchedState},
      stRel a b d₁ d₂ c₁ c₂ cond s t →
      exRelV (fun p q => p.1 = q.1 ∧ stRel a b d₁ d₂ c₁ c₂ cond p.2 q.2)
        (stRel a b d₁ d₂ c₁ c₂ cond)
        (evalDirsFold n ℓ L s) (evalDirsFold n ℓ L t) := by
  intro L
  induction L with
  | nil => intro s t h; exact ⟨rfl, h⟩
  | cons d ds ih =>
    intro s t h
    rw [evalDirsFold, evalDirsFold]
    have hE := @evalOne_bisim a b d₁ d₂ c₁ c₂ cond d n ℓ s t h
    cases hX : evalOneDirective d n ℓ s with
    | error es =>
      rw [hX] at hE
      cases hY : evalOneDirective d n ℓ t with
      | error et =>
        rw [hY] at hE
        obtain ⟨ex, sx⟩ := es
        obtain ⟨ey, ty⟩ := et
        exact ⟨hE.1, hE.2⟩
      | ok q =>
        rw [hY] at hE
        exact hE.elim
    | ok p =>
      rw [hX] at hE
      cases hY : evalOneDirective d n ℓ t with
      | error et =>
        rw [hY] at hE
        exact hE.elim
      | ok q =>
        rw [hY] at hE
        obtain ⟨dp, sp⟩ := p
        obtain ⟨dq, tq⟩ := q
        obtain ⟨hd, hR⟩ := hE
        simp only []
        have hF := ih hR
        cases hXs : evalDirsFold n ℓ ds sp with
        | error es2 =>
          rw [hXs] at hF
          cases hYs : evalDirsFold n ℓ ds tq with
          | error et2 =>
            rw [hYs] at hF
            obtain ⟨ex, sx⟩ := es2
            obtain ⟨ey, ty⟩ := et2
            exact ⟨hF.1, hF.2⟩
          | ok q2 =>
            rw [hYs] at hF
            exact hF.elim
        | ok p2 =>
          rw [hXs] at hF
          cases hYs : evalDirsFold n ℓ ds tq with
          | error et2 =>
            rw [hYs] at hF
            exact hF.elim
          | ok q2 =>
            rw [hYs] at hF
            obtain ⟨Lp, sp2⟩ := p2
            obtain ⟨Lq, tq2⟩ := q2
            obtain ⟨hL, hR2⟩ := hF
            refine ⟨?_, hR2⟩
            simp only [] at hd hL ⊢
            rw [hd, hL]

theorem aLook_congr_core {a : String} {cond : Bool} {s s' : SchedState}
    (hcv : coreView s'.registry = coreView s.registry) (h : aLook a cond s) :
    aLook a cond s' := by
  obtain ⟨e, hf, hl⟩ := h
  obtain ⟨e', hf', hdc⟩ := findEntry_coreView_some hcv.symm hf
  refine ⟨e', hf', ?_⟩
  have hle : e'.loaded = e.loaded := by
    simpa [dropCL] using congrArg (fun p => p.2.2.2.1) hdc
  rw [hle, hl]

theorem fold_special₁ {a b : String} {d₁ d₂ : Directive} {c₁ c₂ cond : Bool}
    {ℓ : Bool} (hk₁ : d₁.directive = DirKind.loadBefore) (hm₁ : d₁.module = b)
    (hwb : ¬ isWildcardRef b) (hℓ : (!ℓ) = cond) :
    ∀ (u v : List Directive) {s t : SchedState},
      stRel a b d₁ d₂ c₁ c₂ cond s t → b ∈ namesOf s.registry →
      exRelV
        (fun p q => ∃ u' v', p.1 = u' ++ d₁ :: v' ∧ q.1 = u' ++ v' ∧
          stRel a b d₁ d₂ true c₂ cond p.2 q.2)
        (fun s' t' => ∃ k₁ k₂, stRel a b d₁ d₂ k₁ k₂ cond s' t')
        (evalDirsFold a ℓ (u ++ d₁ :: v) s) (evalDirsFold a ℓ (u ++ v) t) := by
  intro u v s t h hbmem
  rw [evalDirsFold_append u (d₁ :: v) s, evalDirsFold_append u v t]
  have hU := evalDirsFold_bisim (n := a) (ℓ := ℓ) u h
  cases hXu : evalDirsFold a ℓ u s with
  | error es =>
    rw [hXu] at hU
    cases hYu : evalDirsFold a ℓ u t with
    | error et =>
      rw [hYu] at hU
      obtain ⟨ex, sx⟩ := es
      obtain ⟨ey, ty⟩ := et
      exact ⟨hU.1, c₁, c₂, hU.2⟩
    | ok q =>
      rw [hYu] at hU
      exact hU.elim
  | ok p =>
    rw [hXu] at hU
    cases hYu : evalDirsFold a ℓ u t with
    | error et =>
      rw [hYu] at hU
      exact hU.elim
    | ok q =>
      rw [hYu] at hU
      obtain ⟨u₁, su⟩ := p
      obtain ⟨u₂, tu⟩ := q
      obtain ⟨hu12, hRu⟩ := hU
      simp only []
      have hbmem2 : b ∈ namesOf su.registry := by
        obtain ⟨hcv, _⟩ := evalDirsFold_ok hXu
        rw [namesOf_of_svcView (svcView_of_passView (passView_of_coreView hcv))]
        exact hbmem
      have hspec := @evalOne_special₁ d₁ a b ℓ su hk₁ hm₁ hwb hbmem2
      have hCC : (if !ℓ then { su with registry := clearCanLoad su.registry b } else su) = condClear b cond su := by
        rw [condClear, hℓ]
      rw [hCC] at hspec
      have hRc : stRel a b d₁ d₂ true c₂ cond (condClear b cond su) tu :=
        stRel_condClear₁ hRu
      rw [show evalDirsFold a ℓ (d₁ :: v) su =
        match evalDirsFold a ℓ v (condClear b cond su) with
        | .error es => .error es
        | .ok (v', s'') => .ok (d₁ :: v', s'') from by rw [evalDirsFold, hspec]]
      have hV := evalDirsFold_bisim (n := a) (ℓ := ℓ) v hRc
      cases hXv : evalDirsFold a ℓ v (condClear b cond su) with
      | error es =>
        rw [hXv] at hV
        cases hYv : evalDirsFold a ℓ v tu with
        | error et =>
          rw [hYv] at hV
          obtain ⟨ex, sx⟩ := es
          obtain ⟨ey, ty⟩ := et
          exact ⟨hV.1, true, c₂, hV.2⟩
        | ok q2 =>
          rw [hYv] at hV
          exact hV.elim
      | ok p2 =>
        rw [hXv] at hV
        cases hYv : evalDirsFold a ℓ v tu with
        | error et =>
          rw [hYv] at hV
          exact hV.elim
        | ok q2 =>
          rw [hYv] at hV
          obtain ⟨v₁, sf⟩ := p2
          obtain ⟨v₂, tf⟩ := q2
          obtain ⟨hv12, hRf⟩ := hV
          refine ⟨u₁, v₁, rfl, ?_, hRf⟩
          simp only [] at hu12 hv12 ⊢
          rw [← hu12, ← hv12]

theorem fold_special₂ {a b : String} {d₁ d₂ : Directive} {c₁ c₂ cond : Bool}
    {ℓb : Bool} (hk₂ : d₂.directive = DirKind.loadAfter) (hm₂ : d₂.module = a)
    (hwa : ¬ isWildcardRef a) :
    ∀ (w z : List Directive) {s t : SchedState},
      stRel a b d₁ d₂ c₁ c₂ cond s t → aLook a cond t →
      exRelV
        (fun p q => ∃ w' z', p.1 = w' ++ z' ∧ q.1 = w' ++ d₂ :: z' ∧
          stRel a b d₁ d₂ c₁ true cond p.2 q.2)
        (fun s' t' => ∃ k₁ k₂, stRel a b d₁ d₂ k₁ k₂ cond s' t')
        (evalDirsFold b ℓb (w ++ z) s) (evalDirsFold b ℓb (w ++ d₂ :: z) t) := by
  intro w z s t h haL
  rw [evalDirsFold_append w z s, evalDirsFold_append w (d₂ :: z) t]
  have hU := evalDirsFold_bisim (n := b) (ℓ := ℓb) w h
  cases hXu : evalDirsFold b ℓb w s with
  | error es =>
    rw [hXu] at hU
    cases hYu : evalDirsFold b ℓb w t with
    | error et =>
      rw [hYu] at hU
      obtain ⟨ex, sx⟩ := es
      obtain ⟨ey, ty⟩ := et
      exact ⟨hU.1, c₁, c₂, hU.2⟩
    | ok q =>
      rw [hYu] at hU
      exact hU.elim
  | ok p =>
    rw [hXu] at hU
    cases hYu : evalDirsFold b ℓb w t with
    | error et =>
      rw [hYu] at hU
      exact hU.elim
    | ok q =>
      rw [hYu] at hU
      obtain ⟨w₁, sw⟩ := p
      obtain ⟨w₂, tw⟩ := q
      obtain ⟨hw12, hRw⟩ := hU
      simp only []
      have haL2 : aLook a cond tw := by
        obtain ⟨hcv, _⟩ := evalDirsFold_ok hYu
        exact aLook_congr_core hcv haL
      obtain ⟨eA, hfa, hla⟩ := haL2
      have hspec := @evalOne_special₂ d₂ a b ℓb cond tw eA hk₂ hm₂ hwa hfa hla
      have hCC : (if cond then { tw with registry := clearCanLoad tw.registry b } else tw) = condClear b cond tw := by
        rw [condClear]
      rw [hCC] at hspec
      have hRc : stRel a b d₁ d₂ c₁ true cond sw (condClear b cond tw) :=
        stRel_condClear₂ hRw
      rw [show evalDirsFold b ℓb (d₂ :: z) tw =
        match evalDirsFold b ℓb z (condClear b cond tw) with
        | .error es => .error es
        | .ok (z', t'') => .ok (d₂ :: z', t'') from by rw [evalDirsFold, hspec]]
      have hV := evalDirsFold_bisim (n := b) (ℓ := ℓb) z hRc
      cases hXv : evalDirsFold b ℓb z sw with
      | error es =>
        rw [hXv] at hV
        cases hYv : evalDirsFold b ℓb z (condClear b cond tw) with
        | error et =>
          rw [hYv] at hV
          obtain ⟨ex, sx⟩ := es
          obtain ⟨ey, ty⟩ := et
          exact ⟨hV.1, c₁, true, hV.2⟩
        | ok q2 =>
          rw [hYv] at hV
          exact hV.elim
      | ok p2 =>
        rw [hXv] at hV
        cases hYv : evalDirsFold b ℓb z (condClear b cond tw) with
        | error et =>
          rw [hYv] at hV
          exact hV.elim
        | ok q2 =>
          rw [hYv] at hV
          obtain ⟨z₁, sf⟩ := p2
          obtain ⟨z₂, tf⟩ := q2
          obtain ⟨hz12, hRf⟩ := hV
          refine ⟨w₁, z₁, rfl, ?_, hRf⟩
          simp only [] at hw12 hz12 ⊢
          rw [← hw12, ← hz12]

/-! ### The whole-pass bisimulation -/

theorem aLook_rel {a b : String} {d₁ d₂ : Directive} {c₁ c₂ cond : Bool}
    {s t : SchedState} (h : stRel a b d₁ d₂ c₁ c₂ cond s t)
    (ha : aLook a cond s) : aLook a cond t := by
  obtain ⟨e, hf, hl⟩ := ha
  rcases findEntry_rel h.1 a with ⟨hf₁, hf₂⟩ | ⟨e₁, e₂, hf₁, hf₂, hr⟩
  · rw [hf] at hf₁
    cases hf₁
  · have he : e₁ = e := Option.some.inj (hf₁.symm.trans hf)
    refine ⟨e₂, hf₂, ?_⟩
    rw [← hr.2.2.2.1, he]
    exact hl

theorem aLook_congr_pass {a : String} {cond : Bool} {s s' : SchedState}
    (hpv : passViewOf s'.registry = passViewOf s.registry)
    (h : aLook a cond s) : aLook a cond s' := by
  obtain ⟨e, hf, hl⟩ := h
  have hmap := findEntry_congr_passView hpv a
  cases hf' : findEntry s'.registry a with
  | none =>
    rw [hf', hf] at hmap
    cases hmap
  | some e' =>
    rw [hf', hf] at hmap
    simp at hmap
    refine ⟨e', hf', ?_⟩
    have hle : e'.loaded = e.loaded := by
      simpa [passView] using congrArg (fun p => p.2.2.2) hmap
    rw [hle, hl]

theorem evalAll_bisim {a b : String} {d₁ d₂ : Directive} {cond : Bool}
    (hk₁ : d₁.directive = DirKind.loadBefore) (hm₁ : d₁.module = b)
    (hk₂ : d₂.directive = DirKind.loadAfter) (hm₂ : d₂.module = a)
    (hwa : ¬ isWildcardRef a) (hwb : ¬ isWildcardRef b) (hab : a ≠ b) :
    ∀ (ns : List String) {c₁ c₂ : Bool} {s t : SchedState},
      stRel a b d₁ d₂ c₁ c₂ cond s t →
      aLook a cond s → b ∈ namesOf s.registry →
      (∀ e s', evalAllDirectives ns s = .error (e, s') →
        ∃ t' k₁ k₂, evalAllDirectives ns t = .error (e, t') ∧
          stRel a b d₁ d₂ k₁ k₂ cond s' t') ∧
      (∀ s', evalAllDirectives ns s = .ok s' →
        ∃ t' c₁' c₂', evalAllDirectives ns t = .ok t' ∧
          stRel a b d₁ d₂ c₁' c₂' cond s' t' ∧
          (a ∈ ns → c₁' = true) ∧ (b ∈ ns → c₂' = true) ∧
          (a ∉ ns → c₁' = c₁) ∧ (b ∉ ns → c₂' = c₂)) := by
  intro ns
  induction ns with
  | nil =>
    intro c₁ c₂ s t h ha hb
    constructor
    · intro e s' hE
      simp [evalAllDirectives] at hE
    · intro s' hO
      have hs' : s = s' := Except.ok.inj hO
      subst hs'
      exact ⟨t, c₁, c₂, rfl, h,
        fun hmem => absurd hmem (List.not_mem_nil a),
        fun hmem => absurd hmem (List.not_mem_nil b),
        fun _ => rfl, fun _ => rfl⟩
  | cons n0 rest ih =>
    intro c₁ c₂ s t h ha hb
    rcases findEntry_rel h.1 n0 with ⟨hf₁, hf₂⟩ | ⟨e₁, e₂, hf₁, hf₂, hr⟩
    · have hna : n0 ≠ a := by
        intro hh
        obtain ⟨eA, hfa, _⟩ := ha
        rw [hh, hfa] at hf₁
        cases hf₁
      have hnb : n0 ≠ b := by
        intro hh
        rw [hh, findEntry_eq_none_iff] at hf₁
        exact hf₁ hb
      have hstep₁ : evalAllDirectives (n0 :: rest) s = evalAllDirectives rest s := by
        rw [evalAllDirectives, hf₁]
      have hstep₂ : evalAllDirectives (n0 :: rest) t = evalAllDirectives rest t := by
        rw [evalAllDirectives, hf₂]
      rw [hstep₁, hstep₂]
      obtain ⟨ihE, ihO⟩ := ih h ha hb
      constructor
      · exact ihE
      · intro s' hO
        obtain ⟨t', c₁', c₂', hTO, hRR, hP1, hP2, hP3, hP4⟩ := ihO s' hO
        refine ⟨t', c₁', c₂', hTO, hRR, ?_, ?_, ?_, ?_⟩
        · intro hmem
          rcases List.mem_cons.mp hmem with hh | hh
          · exact absurd hh.symm hna
          · exact hP1 hh
        · intro hmem
          rcases List.mem_cons.mp hmem with hh | hh
          · exact absurd hh.symm hnb
          · exact hP2 hh
        · intro hmem
          exact hP3 (fun hmm => hmem (List.mem_cons_of_mem _ hmm))
        · intro hmem
          exact hP4 (fun hmm => hmem (List.mem_cons_of_mem _ hmm))
    · obtain ⟨hrn, hrh, hrs, hrl, hr5, hr6, hr7, hr8, hr9⟩ := hr
      have hname₁ : e₁.name = n0 := findEntry_name_eq hf₁
      have hname₂ : e₂.name = n0 := findEntry_name_eq hf₂
      have hstep₁ : evalAllDirectives (n0 :: rest) s =
          match evalDirsFold e₁.name e₁.loaded e₁.loadDirectives s with
          | .error es => .error es
          | .ok (ds', s1) =>
            evalAllDirectives rest { s1 with registry := setDirs s1.registry n0 ds' } := by
        rw [evalAllDirectives, hf₁]
      have hstep₂ : evalAllDirectives (n0 :: rest) t =
          match evalDirsFold e₂.name e₂.loaded e₂.loadDirectives t with
          | .error es => .error es
          | .ok (ds', t1) =>
            evalAllDirectives rest { t1 with registry := setDirs t1.registry n0 ds' } := by
        rw [evalAllDirectives, hf₂]
      rw [hstep₁, hstep₂, ← hrl]
      by_cases hna : n0 = a
      · have hea₁ : e₁.name = a := hname₁.trans hna
        have hea₂ : e₂.name = a := hname₂.trans hna
        obtain ⟨eA, hfA, hlA⟩ := ha
        have heA : e₁ = eA := by
          rw [hna] at hf₁
          exact Option.some.inj (hf₁.symm.trans hfA)
        have hℓc : (!e₁.loaded) = cond := by
          rw [heA, hlA]
          exact Bool.not_not cond
        obtain ⟨u, v, hdu, hdv⟩ := hr5 hea₁
        rw [hea₁, hea₂, hdu, hdv]
        have hfold := fold_special₁ (ℓ := e₁.loaded) hk₁ hm₁ hwb hℓc u v h hb
        cases hX : evalDirsFold a e₁.loaded (u ++ d₁ :: v) s with
        | error es =>
          rw [hX] at hfold
          obtain ⟨ex, sx⟩ := es
          cases hY : evalDirsFold a e₁.loaded (u ++ v) t with
          | error et =>
            rw [hY] at hfold
            obtain ⟨ey, ty⟩ := et
            obtain ⟨hee, k₁, k₂, hRR⟩ := hfold
            constructor
            · intro e s' hE
              have hinj := Except.error.inj hE
              have he1 : ex = e := congrArg Prod.fst hinj
              have hs1 : sx = s' := congrArg Prod.snd hinj
              refine ⟨ty, k₁, k₂, ?_, ?_⟩
              · rw [← he1, hee]
              · rw [← hs1]
                exact hRR
            · intro s' hO
              exact Except.noConfusion hO
          | ok q =>
            rw [hY] at hfold
            exact hfold.elim
        | ok p =>
          rw [hX] at hfold
          obtain ⟨ds₁', s1⟩ := p
          cases hY : evalDirsFold a e₁.loaded (u ++ v) t with
          | error et =>
            rw [hY] at hfold
            exact hfold.elim
          | ok q =>
            rw [hY] at hfold
            obtain ⟨ds₂', t1⟩ := q
            obtain ⟨u', v', hp1, hq1, hRf⟩ := hfold
            simp only [] at hp1 hq1
            have hw : stRel a b d₁ d₂ true c₂ cond
                { s1 with registry := setDirs s1.registry n0 ds₁' }
                { t1 with registry := setDirs t1.registry n0 ds₂' } := by
              refine ⟨?_, hRf.2.1, hRf.2.2.1, hRf.2.2.2.1, hRf.2.2.2.2⟩
              refine setDirs_rel ?_ ?_ ?_ hRf.1
              · intro _
                exact ⟨u', v', hp1, hq1⟩
              · intro hh
                exact absurd (hna.symm.trans hh) hab
              · intro hh _
                exact absurd hna hh
            have hpv1 : passViewOf ({ s1 with registry := setDirs s1.registry n0 ds₁' } : SchedState).registry = passViewOf s.registry := by
              obtain ⟨hcv, _⟩ := evalDirsFold_ok hX
              show passViewOf (setDirs s1.registry n0 ds₁') = passViewOf s.registry
              rw [passViewOf_setDirs]
              exact passView_of_coreView hcv
            have ha' : aLook a cond { s1 with registry := setDirs s1.registry n0 ds₁' } :=
              aLook_congr_pass hpv1 ⟨eA, hfA, hlA⟩
            have hb' : b ∈ namesOf ({ s1 with registry := setDirs s1.registry n0 ds₁' } : SchedState).registry :=
              (namesOf_of_passView hpv1).symm ▸ hb
            obtain ⟨ihE, ihO⟩ := ih hw ha' hb'
            constructor
            · intro e s' hE
              obtain ⟨t', k₁, k₂, hTE, hRR⟩ := ihE e s' hE
              exact ⟨t', k₁, k₂, hTE, hRR⟩
            · intro s' hO
              obtain ⟨t', c₁', c₂', hTO, hRR, hP1, hP2, hP3, hP4⟩ := ihO s' hO
              refine ⟨t', c₁', c₂', hTO, hRR, ?_, ?_, ?_, ?_⟩
              · intro _
                by_cases hm : a ∈ rest
                · exact hP1 hm
                · exact hP3 hm
              · intro hmem
                rcases List.mem_cons.mp hmem with hh | hh
                · exact absurd (hh.trans hna).symm hab
                · exact hP2 hh
              · intro hmem
                exact absurd (by rw [hna]; exact List.mem_cons_self a rest) hmem
              · intro hmem
                exact hP4 (fun hmm => hmem (List.mem_cons_of_mem _ hmm))
      · by_cases hnb : n0 = b
        · have heb₁ : e₁.name = b := hname₁.trans hnb
          have heb₂ : e₂.name = b := hname₂.trans hnb
          obtain ⟨w, z, hdw, hdz⟩ := hr6 heb₁
          rw [heb₁, heb₂, hdw, hdz]
          have haT : aLook a cond t :=
            aLook_rel ⟨List.Forall₂.imp (fun x y hh => hh) h.1, h.2⟩ ha
          have hfold := @fold_special₂ a b d₁ d₂ c₁ c₂ cond e₁.loaded hk₂ hm₂ hwa w z s t h haT
          cases hX : evalDirsFold b e₁.loaded (w ++ z) s with
          | error es =>
            rw [hX] at hfold
            obtain ⟨ex, sx⟩ := es
            cases hY : evalDirsFold b e₁.loaded (w ++ d₂ :: z) t with
            | error et =>
              rw [hY] at hfold
              obtain ⟨ey, ty⟩ := et
              obtain ⟨hee, k₁, k₂, hRR⟩ := hfold
              constructor
              · intro e s' hE
                have hinj := Except.error.inj hE
                have he1 : ex = e := congrArg Prod.fst hinj
                have hs1 : sx = s' := congrArg Prod.snd hinj
                refine ⟨ty, k₁, k₂, ?_, ?_⟩
                · rw [← he1, hee]
                · rw [← hs1]
                  exact hRR
              · intro s' hO
                exact Except.noConfusion hO
            | ok q =>
              rw [hY] at hfold
              exact hfold.elim
          | ok p =>
            rw [hX] at hfold
            obtain ⟨ds₁', s1⟩ := p
            cases hY : evalDirsFold b e₁.loaded (w ++ d₂ :: z) t with
            | error et =>
              rw [hY] at hfold
              exact hfold.elim
            | ok q =>
              rw [hY] at hfold
              obtain ⟨ds₂', t1⟩ := q
              obtain ⟨w', z', hp1, hq1, hRf⟩ := hfold
              simp only [] at hp1 hq1
              have hw2 : stRel a b d₁ d₂ c₁ true cond
                  { s1 with registry := setDirs s1.registry n0 ds₁' }
                  { t1 with registry := setDirs t1.registry n0 ds₂' } := by
                refine ⟨?_, hRf.2.1, hRf.2.2.1, hRf.2.2.2.1, hRf.2.2.2.2⟩
                refine setDirs_rel ?_ ?_ ?_ hRf.1
                · intro hh
                  exact absurd (hh.symm.trans hnb) hab
                · intro _
                  exact ⟨w', z', hp1, hq1⟩
                · intro _ hh
                  exact absurd hnb hh
              have hpv1 : passViewOf ({ s1 with registry := setDirs s1.registry n0 ds₁' } : SchedState).registry = passViewOf s.registry := by
                obtain ⟨hcv, _⟩ := evalDirsFold_ok hX
                show passViewOf (setDirs s1.registry n0 ds₁') = passViewOf s.registry
                rw [passViewOf_setDirs]
                exact passView_of_coreView hcv
              have ha' : aLook a cond { s1 with registry := setDirs s1.registry n0 ds₁' } :=
                aLook_congr_pass hpv1 ha
              have hb' : b ∈ namesOf ({ s1 with registry := setDirs s1.registry n0 ds₁' } : SchedState).registry :=
                (namesOf_of_passView hpv1).symm ▸ hb
              obtain ⟨ihE, ihO⟩ := ih hw2 ha' hb'
              constructor
              · intro e s' hE
                obtain ⟨t', k₁, k₂, hTE, hRR⟩ := ihE e s' hE
                exact ⟨t', k₁, k₂, hTE, hRR⟩
              · intro s' hO
                obtain ⟨t', c₁', c₂', hTO, hRR, hP1, hP2, hP3, hP4⟩ := ihO s' hO
                refine ⟨t', c₁', c₂', hTO, hRR, ?_, ?_, ?_, ?_⟩
                · intro hmem
                  rcases List.mem_cons.mp hmem with hh | hh
                  · exact absurd (hh.trans hnb) hab
                  · exact hP1 hh
                · intro _
                  by_cases hm : b ∈ rest
                  · exact hP2 hm
                  · exact hP4 hm
                · intro hmem
                  exact hP3 (fun hmm => hmem (List.mem_cons_of_mem _ hmm))
                · intro hmem
                  exact absurd (by rw [hnb]; exact List.mem_cons_self b rest) hmem
        · have hde : e₁.loadDirectives = e₂.loadDirectives :=
            hr7 (fun hh => hna (hname₁.symm.trans hh))
              (fun hh => hnb (hname₁.symm.trans hh))
          rw [hname₁, hname₂, ← hde]
          have hfold := evalDirsFold_bisim (n := n0) (ℓ := e₁.loaded)
            e₁.loadDirectives h
          cases hX : evalDirsFold n0 e₁.loaded e₁.loadDirectives s with
          | error es =>
            rw [hX] at hfold
            obtain ⟨ex, sx⟩ := es
            cases hY : evalDirsFold n0 e₁.loaded e₁.loadDirectives t with
            | error et =>
              rw [hY] at hfold
              obtain ⟨ey, ty⟩ := et
              obtain ⟨hee, hRR⟩ := hfold
              constructor
              · intro e s' hE
                have hinj := Except.error.inj hE
                have he1 : ex = e := congrArg Prod.fst hinj
                have hs1 : sx = s' := congrArg Prod.snd hinj
                refine ⟨ty, c₁, c₂, ?_, ?_⟩
                · rw [← he1, hee]
                · rw [← hs1]
                  exact hRR
              · intro s' hO
                exact Except.noConfusion hO
            | ok q =>
              rw [hY] at hfold
              exact hfold.elim
          | ok p =>
            rw [hX] at hfold
            obtain ⟨ds₁', s1⟩ := p
            cases hY : evalDirsFold n0 e₁.loaded e₁.loadDirectives t with
            | error et =>
              rw [hY] at hfold
              exact hfold.elim
            | ok q =>
              rw [hY] at hfold
              obtain ⟨ds₂', t1⟩ := q
              obtain ⟨hdq, hRf⟩ := hfold
              simp only [] at hdq
              have hw3 : stRel a b d₁ d₂ c₁ c₂ cond
                  { s1 with registry := setDirs s1.registry n0 ds₁' }
                  { t1 with registry := setDirs t1.registry n0 ds₂' } := by
                refine ⟨?_, hRf.2.1, hRf.2.2.1, hRf.2.2.2.1, hRf.2.2.2.2⟩
                refine setDirs_rel ?_ ?_ ?_ hRf.1
                · intro hh
                  exact absurd hh hna
                · intro hh
                  exact absurd hh hnb
                · intro _ _
                  exact hdq
              have hpv1 : passViewOf ({ s1 with registry := setDirs s1.registry n0 ds₁' } : SchedState).registry = passViewOf s.registry := by
                obtain ⟨hcv, _⟩ := evalDirsFold_ok hX
                show passViewOf (setDirs s1.registry n0 ds₁') = passViewOf s.registry
                rw [passViewOf_setDirs]
                exact passView_of_coreView hcv
              have ha' : aLook a cond { s1 with registry := setDirs s1.registry n0 ds₁' } :=
                aLook_congr_pass hpv1 ha
              have hb' : b ∈ namesOf ({ s1 with registry := setDirs s1.registry n0 ds₁' } : SchedState).registry :=
                (namesOf_of_passView hpv1).symm ▸ hb
              obtain ⟨ihE, ihO⟩ := ih hw3 ha' hb'
              constructor
              · intro e s' hE
                obtain ⟨t', k₁, k₂, hTE, hRR⟩ := ihE e s' hE
                exact ⟨t', k₁, k₂, hTE, hRR⟩
              · intro s' hO
                obtain ⟨t', c₁', c₂', hTO, hRR, hP1, hP2, hP3, hP4⟩ := ihO s' hO
                refine ⟨t', c₁', c₂', hTO, hRR, ?_, ?_, ?_, ?_⟩
                · intro hmem
                  rcases List.mem_cons.mp hmem with hh | hh
                  · exact absurd hh.symm hna
                  · exact hP1 hh
                · intro hmem
                  rcases List.mem_cons.mp hmem with hh | hh
                  · exact absurd hh.symm hnb
                  · exact hP2 hh
                · intro hmem
                  exact hP3 (fun hmm => hmem (List.mem_cons_of_mem _ hmm))
                · intro hmem
                  exact hP4 (fun hmm => hmem (List.mem_cons_of_mem _ hmm))

/-! ### The load phase, cycle and whole-run bisimulations -/

theorem entRel_canLoad_eq {a b : String} {d₁ d₂ : Directive}
    {e₁ e₂ : PluginEntry} (hr : entRel a b d₁ d₂ false false false e₁ e₂) :
    e₁.canLoad = e₂.canLoad := by
  by_cases hnb : e₁.name = b
  · obtain ⟨x, hx1, hx2⟩ := hr.2.2.2.2.2.2.2.2 hnb
    rw [hx1, hx2]
  · exact hr.2.2.2.2.2.2.2.1 hnb

theorem load_plugin_rel {a b : String} {d₁ d₂ : Directive}
    {e₁ e₂ : PluginEntry} {s t : SchedState}
    (hr : entRel a b d₁ d₂ false false false e₁ e₂)
    (h : stRel a b d₁ d₂ false false false s t) :
    stRel a b d₁ d₂ false false false (load_plugin e₁ s) (load_plugin e₂ t) := by
  obtain ⟨hreg, ⟨hp, hs, hd⟩, hlo, hhk, hcy⟩ := h
  refine ⟨?_, ⟨?_, ?_, ?_⟩, ?_, ?_, ?_⟩
  · show List.Forall₂ _ (setLoaded s.registry e₁.name) (setLoaded t.registry e₂.name)
    rw [← hr.1]
    exact setLoaded_rel e₁.name hreg
  · show assocSet s.lps.plugins e₁.name e₁.name =
      assocSet t.lps.plugins e₂.name e₂.name
    rw [← hr.1, hp]
  · show servicesAppend s.lps.services e₁.name e₁.name =
      servicesAppend t.lps.services e₂.name e₂.name
    rw [← hr.1, hs]
  · show (assocSet s.lps.plugin_data e₁.name e₁).map Prod.fst =
      (assocSet t.lps.plugin_data e₂.name e₂).map Prod.fst
    rw [← hr.1]
    exact assocSet_fst e₁.name e₁ e₂ hd
  · show s.loadOrder ++ [e₁.name] = t.loadOrder ++ [e₂.name]
    rw [← hr.1, hlo]
  · exact hhk
  · exact hcy

theorem loadPhase_bisim {a b : String} {d₁ d₂ : Directive} :
    ∀ (ns : List String) {s t : SchedState} (anyL allL : Bool),
      stRel a b d₁ d₂ false false false s t →
      stRel a b d₁ d₂ false false false
        (loadPhase ns s anyL allL).1 (loadPhase ns t anyL allL).1 ∧
      (loadPhase ns s anyL allL).2 = (loadPhase ns t anyL allL).2 := by
  intro ns
  induction ns with
  | nil =>
    intro s t anyL allL h
    exact ⟨h, rfl⟩
  | cons n rest ih =>
    intro s t anyL allL h
    rcases findEntry_rel h.1 n with ⟨hf₁, hf₂⟩ | ⟨e₁, e₂, hf₁, hf₂, hr⟩
    · rw [loadPhase_cons_none rest anyL allL hf₁,
        loadPhase_cons_none rest anyL allL hf₂]
      exact ih anyL allL h
    · have hle : e₁.loaded = e₂.loaded := hr.2.2.2.1
      have hce : e₁.canLoad = e₂.canLoad := entRel_canLoad_eq hr
      cases hl : e₁.loaded with
      | true =>
        rw [loadPhase_cons_loaded rest anyL allL hf₁ hl,
          loadPhase_cons_loaded rest anyL allL hf₂ (hle.symm.trans hl)]
        exact ih anyL allL h
      | false =>
        cases hc : e₁.canLoad with
        | false =>
          rw [loadPhase_cons_blocked rest anyL allL hf₁ hl hc,
            loadPhase_cons_blocked rest anyL allL hf₂ (hle.symm.trans hl)
              (hce.symm.trans hc)]
          exact ih anyL false h
        | true =>
          rw [loadPhase_cons_load rest anyL allL hf₁ hl hc,
            loadPhase_cons_load rest anyL allL hf₂ (hle.symm.trans hl)
              (hce.symm.trans hc)]
          exact ih true false (load_plugin_rel hr h)

theorem runCycle_bisim {a b : String} {d₁ d₂ : Directive}
    (hk₁ : d₁.directive = DirKind.loadBefore) (hm₁ : d₁.module = b)
    (hk₂ : d₂.directive = DirKind.loadAfter) (hm₂ : d₂.module = a)
    (hwa : ¬ isWildcardRef a) (hwb : ¬ isWildcardRef b) (hab : a ≠ b)
    {s t : SchedState} (h : stRel a b d₁ d₂ false false false s t)
    (haN : a ∈ namesOf s.registry) (hbN : b ∈ namesOf s.registry) :
    (∀ s', runCycle s = CycleOutcome.finished s' →
      ∃ t', runCycle t = CycleOutcome.finished t' ∧ s'.loadOrder = t'.loadOrder) ∧
    (∀ e s', runCycle s = CycleOutcome.failed e s' →
      ∃ t', runCycle t = CycleOutcome.failed e t' ∧ s'.loadOrder = t'.loadOrder) ∧
    (∀ s', runCycle s = CycleOutcome.next s' →
      ∃ t', runCycle t = CycleOutcome.next t' ∧
        stRel a b d₁ d₂ false false false s' t' ∧
        namesOf s'.registry = namesOf s.registry) := by
  cases hfa : findEntry s.registry a with
  | none =>
    rw [findEntry_eq_none_iff] at hfa
    exact absurd haN hfa
  | some eA =>
    have h1 : stRel a b d₁ d₂ false false (!eA.loaded)
        { s with registry := setCanLoadAll s.registry, cycles := s.cycles + 1 }
        { t with registry := setCanLoadAll t.registry, cycles := t.cycles + 1 } :=
      ⟨setCanLoadAll_rel (!eA.loaded) h.1, h.2.1, h.2.2.1, h.2.2.2.1,
        by show s.cycles + 1 = t.cycles + 1; rw [h.2.2.2.2]⟩
    have ha1 : aLook a (!eA.loaded)
        { s with registry := setCanLoadAll s.registry, cycles := s.cycles + 1 } := by
      refine ⟨{ eA with canLoad := true }, ?_, ?_⟩
      · show findEntry (setCanLoadAll s.registry) a = _
        rw [findEntry_setCanLoadAll, hfa]
        rfl
      · show eA.loaded = !(!eA.loaded)
        exact (Bool.not_not eA.loaded).symm
    have hb1 : b ∈ namesOf (setCanLoadAll s.registry) := by
      rw [namesOf_setCanLoadAll]
      exact hbN
    have hEA := evalAll_bisim hk₁ hm₁ hk₂ hm₂ hwa hwb hab
      (namesOf (setCanLoadAll s.registry)) h1 ha1 hb1
    have hns : namesOf (setCanLoadAll t.registry) =
        namesOf (setCanLoadAll s.registry) := by
      rw [namesOf_setCanLoadAll, namesOf_setCanLoadAll, namesOf_rel h.1]
    rw [runCycle_eq s, runCycle_eq t, hns]
    cases hP : evalAllDirectives (namesOf (setCanLoadAll s.registry))
        { s with registry := setCanLoadAll s.registry, cycles := s.cycles + 1 } with
    | error ep =>
      obtain ⟨e0, s2⟩ := ep
      obtain ⟨t2, k₁, k₂, hTE, hRR⟩ := hEA.1 e0 s2 hP
      rw [hTE]
      refine ⟨?_, ?_, ?_⟩
      · intro s' hcontra
        exact CycleOutcome.noConfusion hcontra
      · intro e s' heq
        have he0 : e0 = e := (CycleOutcome.failed.inj heq).1
        have hs2 : s2 = s' := (CycleOutcome.failed.inj heq).2
        refine ⟨t2, ?_, ?_⟩
        · rw [← he0]
        · rw [← hs2]
          exact hRR.2.2.1
      · intro s' hcontra
        exact CycleOutcome.noConfusion hcontra
    | ok s2 =>
      obtain ⟨t2, c₁', c₂', hTO, hRR, hP1, hP2, _, _⟩ := hEA.2 s2 hP
      have hna1 : a ∈ namesOf (setCanLoadAll s.registry) := by
        rw [namesOf_setCanLoadAll]
        exact haN
      have hc1 : c₁' = true := hP1 hna1
      have hc2 : c₂' = true := hP2 hb1
      subst hc1
      subst hc2
      have h2 : stRel a b d₁ d₂ false false false s2 t2 :=
        ⟨regRel_retime false hRR.1, hRR.2⟩
      have hns2aux := evalAllDirectives_ok hP
      have hnames2 : namesOf s2.registry = namesOf s.registry := by
        rw [namesOf_of_passView hns2aux.1]
        show namesOf (setCanLoadAll s.registry) = namesOf s.registry
        rw [namesOf_setCanLoadAll]
      rw [hTO]
      simp only []
      have hnst2 : namesOf t2.registry = namesOf s2.registry :=
        (namesOf_rel h2.1).symm
      rw [hnst2]
      have hLP := loadPhase_bisim (namesOf s2.registry) false true h2
      cases hL1 : loadPhase (namesOf s2.registry) s2 false true with
      | mk s3 fl1 =>
        cases hL2 : loadPhase (namesOf s2.registry) t2 false true with
        | mk t3 fl2 =>
          rw [hL1, hL2] at hLP
          simp only [] at hLP
          obtain ⟨hR3, hfl⟩ := hLP
          subst hfl
          obtain ⟨anyL, allL⟩ := fl1
          have hnames3 : namesOf s3.registry = namesOf s.registry := by
            have hlv : loadView s3.registry = loadView s2.registry := by
              have := loadPhase_registry_loadView (namesOf s2.registry) s2 false true
              rw [hL1] at this
              exact this
            rw [namesOf_of_loadView hlv, hnames2]
          cases allL with
          | true =>
            refine ⟨?_, ?_, ?_⟩
            · intro s' heq
              have hs3 : s3 = s' := CycleOutcome.finished.inj heq
              refine ⟨t3, rfl, ?_⟩
              rw [← hs3]
              exact hR3.2.2.1
            · intro e s' hcontra
              exact CycleOutcome.noConfusion hcontra
            · intro s' hcontra
              exact CycleOutcome.noConfusion hcontra
          | false =>
            cases anyL with
            | false =>
              refine ⟨?_, ?_, ?_⟩
              · intro s' hcontra
                exact CycleOutcome.noConfusion hcontra
              · intro e s' heq
                have he0 : ApplesError.directiveDeadlock = e :=
                  (CycleOutcome.failed.inj heq).1
                have hs3 : s3 = s' := (CycleOutcome.failed.inj heq).2
                refine ⟨t3, ?_, ?_⟩
                · rw [← he0]
                  simp
                · rw [← hs3]
                  exact hR3.2.2.1
              · intro s' hcontra
                exact CycleOutcome.noConfusion hcontra
            | true =>
              refine ⟨?_, ?_, ?_⟩
              · intro s' hcontra
                exact CycleOutcome.noConfusion hcontra
              · intro e s' hcontra
                exact CycleOutcome.noConfusion hcontra
              · intro s' heq
                have hs3 : s3 = s' := CycleOutcome.next.inj heq
                refine ⟨t3, rfl, ?_, ?_⟩
                · rw [← hs3]
                  exact hR3
                · rw [← hs3]
                  exact hnames3

theorem load_plugins_loop_bisim {a b : String} {d₁ d₂ : Directive}
    (hk₁ : d₁.directive = DirKind.loadBefore) (hm₁ : d₁.module = b)
    (hk₂ : d₂.directive = DirKind.loadAfter) (hm₂ : d₂.module = a)
    (hwa : ¬ isWildcardRef a) (hwb : ¬ isWildcardRef b) (hab : a ≠ b) :
    ∀ (fuel : Nat) {s t : SchedState},
      stRel a b d₁ d₂ false false false s t →
      a ∈ namesOf s.registry → b ∈ namesOf s.registry →
      runObs (load_plugins_loop fuel s) = runObs (load_plugins_loop fuel t) := by
  intro fuel
  induction fuel with
  | zero =>
    intro s t h _ _
    show (some ApplesError.outOfFuel, s.loadOrder) =
      (some ApplesError.outOfFuel, t.loadOrder)
    rw [h.2.2.1]
  | succ fuel ih =>
    intro s t h haN hbN
    obtain ⟨hFin, hFail, hNext⟩ :=
      runCycle_bisim hk₁ hm₁ hk₂ hm₂ hwa hwb hab h haN hbN
    rw [load_plugins_loop, load_plugins_loop]
    cases hC : runCycle s with
    | finished s' =>
      obtain ⟨t', hT, hlo⟩ := hFin s' hC
      rw [hT]
      show (none, s'.loadOrder) = (none, t'.loadOrder)
      rw [hlo]
    | failed e s' =>
      obtain ⟨t', hT, hlo⟩ := hFail e s' hC
      rw [hT]
      show (some e, s'.loadOrder) = (some e, t'.loadOrder)
      rw [hlo]
    | next s' =>
      obtain ⟨t', hT, hR, hN⟩ := hNext s' hC
      rw [hT]
      exact ih hR (hN.symm ▸ haN) (hN.symm ▸ hbN)

/-- C6: for every plugin set, replacing a directive `A load-before B` by
`B load-after A` while keeping everything else identical yields a run with
the identical final load order and the same success-or-failure outcome.
Formally: when registries `pd₁` and `pd₂` are entrywise identical except
that `a`'s directive list carries the `load-before b` directive `d₁` only
in `pd₁` while `b`'s directive list carries the `load-after a` directive
`d₂` only in `pd₂` (the relation `entRel a b d₁ d₂ false false false`,
which forces every other field and every other entry to agree), with `a`
and `b` registered, distinct, and not wildcard references, the two
`_load_plugins` runs have the same observable outcome: the same raised
condition (or none) and the same final load order. -/
theorem claim_C6 (pd₁ pd₂ : Registry) (a b : String) (d₁ d₂ : Directive)
    (hk₁ : d₁.directive = DirKind.loadBefore) (hm₁ : d₁.module = b)
    (hk₂ : d₂.directive = DirKind.loadAfter) (hm₂ : d₂.module = a)
    (hwa : ¬ isWildcardRef a) (hwb : ¬ isWildcardRef b) (hab : a ≠ b)
    (ha : a ∈ namesOf pd₁) (hb : b ∈ namesOf pd₁)
    (hrel : List.Forall₂ (entRel a b d₁ d₂ false false false) pd₁ pd₂) :
    runObs (load_plugins pd₁) = runObs (load_plugins pd₂) := by
  have h0 : stRel a b d₁ d₂ false false false
      (initSchedState pd₁) (initSchedState pd₂) :=
    ⟨hrel, ⟨rfl, rfl, rfl⟩, rfl, rfl, rfl⟩
  have hfuel : unloadedCount pd₁ = unloadedCount pd₂ := unloadedCount_rel hrel
  rw [load_plugins, load_plugins, ← hfuel]
  exact load_plugins_loop_bisim hk₁ hm₁ hk₂ hm₂ hwa hwb hab
    (unloadedCount pd₁ + 1) h0 ha hb

theorem claim_C6_witness :
    runObs (load_plugins
      [mkEntry "a" [⟨DirKind.loadBefore, "b", "", false⟩], mkEntry "b" []]) =
    runObs (load_plugins
      [mkEntry "a" [], mkEntry "b" [⟨DirKind.loadAfter, "a", "", false⟩]]) :=
  claim_C6 _ _ "a" "b"
    ⟨DirKind.loadBefore, "b", "", false⟩ ⟨DirKind.loadAfter, "a", "", false⟩
    rfl rfl rfl rfl (by decide) (by decide) (by decide)
    (by simp [namesOf, mkEntry]) (by simp [namesOf, mkEntry])
    (List.Forall₂.cons
      ⟨rfl, rfl, rfl, rfl,
        fun _ => ⟨[], [], rfl, rfl⟩,
        fun hh => absurd hh (by decide),
        fun hea _ => absurd rfl hea,
        fun _ => rfl,
        fun hh => absurd hh (by decide)⟩
      (List.Forall₂.cons
        ⟨rfl, rfl, rfl, rfl,
          fun hh => absurd hh (by decide),
          fun _ => ⟨[], [], rfl, rfl⟩,
          fun _ heb => absurd rfl heb,
          fun hh => absurd rfl hh,
          fun _ => ⟨false, rfl, rfl⟩⟩
        List.Forall₂.nil))

end Apples
